import Mathlib

/-!
Text-edit application engine (`internal/utilities/edit.go`).

A shallow embedding of `RangesOverlap`, `ApplyTextEdit`, `ApplyTextEdits` and
`ApplyDocumentChange` together with the Go library routines they call,
followed by theorems about them.

Modelling conventions
* A Go `string` / `[]byte` is a list of bytes (`GoString`).  `len`, slicing and
  `+` are byte-wise, exactly as in Go.
* `protocol.Position` holds two `uint32` fields.  They are converted with
  `int(...)`, which on a 64-bit target is never negative, so they are natural
  numbers here and the source's `x < 0` tests are vacuous.
* The filesystem reached through `osReadFile`, `osWriteFile`, `osStat`,
  `osRemove`, `osRemoveAll` and `osRename` is an explicit state `FS`, a flat
  map from paths to file contents; every operation returns the new state.
-/

namespace Utilities

/-- A Go string (equally a byte slice): a finite sequence of bytes. -/
abbrev GoString := List UInt8

/-- The string "\n". -/
def LF : GoString := [10]

/-- The string "\r\n". -/
def CRLF : GoString := [13, 10]

/-- Modelled from the spec: the type `protocol.Position`, declared in the
protocol package: a zero-based line and a character offset in that line, both
`uint32`. -/
structure Position where
  Line : Nat
  Character : Nat
deriving DecidableEq, Repr

/-- Modelled from the spec: the type `protocol.Range`, declared in the protocol
package: a start and an end position. -/
structure Range where
  Start : Position
  End : Position
deriving DecidableEq, Repr

/-- Modelled from the spec: the type `protocol.TextEdit`, declared in the
protocol package: a range and the text that replaces it. -/
structure TextEdit where
  Range : Range
  NewText : GoString
deriving DecidableEq, Repr

/-- The errors returned by `ApplyTextEdit` and `ApplyTextEdits`, one constructor
per `fmt.Errorf` site. -/
inductive EditError where
  /-- "failed to read file" -/
  | readFailed
  /-- "overlapping edits detected between edit %d and %d" -/
  | overlapping (i j : Nat)
  /-- "invalid start line: %d" (wrapped as "failed to apply edit" by the caller) -/
  | invalidStartLine (startLine : Nat)
  /-- "failed to write file" -/
  | writeFailed
deriving DecidableEq, Repr

/-! ## Go library routines -/

/-- Go `strings.Index(s, sep)` / `bytes.Index`: the offset of the first
occurrence of `sep` in `s`, `none` for Go's `-1`. -/
def goIndex (sep : GoString) : GoString → Option Nat
  | [] => if sep = [] then some 0 else none
  | c :: cs =>
    if sep.isPrefixOf (c :: cs) then some 0 else (goIndex sep cs).map (· + 1)

/-- Go `bytes.Contains(b, sub)`, which is `Index(b, sub) != -1`. -/
def goContains (s sub : GoString) : Bool := (goIndex sub s).isSome

/-- Go `strings.HasSuffix(s, suffix)`:
`len(s) >= len(suffix) && s[len(s)-len(suffix):] == suffix`. -/
def HasSuffix (s suffix : GoString) : Bool :=
  decide (s.length ≥ suffix.length) && decide (s.drop (s.length - suffix.length) = suffix)

/-- Go `strings.HasPrefix(s, p)`: `len(s) >= len(p) && s[:len(p)] == p`. -/
def HasPrefix (s p : GoString) : Bool :=
  decide (s.length ≥ p.length) && decide (s.take p.length = p)

/-- Go `strings.TrimPrefix(s, p)`. -/
def TrimPrefix (s p : GoString) : GoString :=
  if HasPrefix s p then s.drop p.length else s

/-- The loop of Go `strings.genSplit(s, sep, 0, -1)` for a non-empty `sep`: cut at
the first occurrence of `sep`, continue on the remainder.  The first
argument bounds the number of iterations. -/
def genSplit (sep : GoString) : Nat → GoString → List GoString
  | 0, s => [s]
  | n + 1, s =>
    match goIndex sep s with
    | none => [s]
    | some m => s.take m :: genSplit sep n (s.drop (m + sep.length))

/-- Go `strings.Split(s, sep)` for a non-empty `sep` (the only use in this
program).  Every iteration removes at least one byte, so `len(s)` iterations
are enough. -/
def Split (s sep : GoString) : List GoString := genSplit sep s.length s

/-- One pass of the inner loop of Go `insertionSort_func`: the new element `x`
moves left while `less x y` holds for its left neighbour `y`.  The sorted part
is passed, and returned, last element first. -/
def insertionStep {α : Type} (less : α → α → Bool) (x : α) : List α → List α
  | [] => [x]
  | y :: ys => if less x y then y :: insertionStep less x ys else x :: y :: ys

/-- Go `sort.Slice(xs, less)`, as the insertion sort that `pdqsort_func` runs
on slices of at most 12 elements.  On longer slices Go uses an unstable
pattern-defeating quicksort; the two agree whenever no two elements compare
equal. -/
def sortSlice {α : Type} (less : α → α → Bool) (xs : List α) : List α :=
  (xs.foldl (fun acc x => insertionStep less x acc) []).reverse

/-! ## `RangesOverlap` -/

/-- The function `RangesOverlap` (edit.go, lines 254-266). -/
def RangesOverlap (r1 r2 : Range) : Bool :=
  if r1.Start.Line > r2.End.Line ∨ r2.Start.Line > r1.End.Line then false
  else if r1.Start.Line = r2.End.Line ∧ r1.Start.Character > r2.End.Character then false
  else if r2.Start.Line = r1.End.Line ∧ r2.Start.Character > r1.End.Character then false
  else true

/-! ## `ApplyTextEdit` -/

/-- The function `ApplyTextEdit` (edit.go, lines 96-171).  `pfx` and `sfx` are the source's
`prefix` and `suffix`. -/
def ApplyTextEdit (lines : List GoString) (edit : TextEdit) (_lineEnding : GoString) :
    Except EditError (List GoString) :=
  let startLine := edit.Range.Start.Line
  let endLine := edit.Range.End.Line
  let startChar := edit.Range.Start.Character
  let endChar := edit.Range.End.Character
  -- Validate positions
  if startLine ≥ lines.length then .error (.invalidStartLine startLine) else
  let endLine := if endLine ≥ lines.length then lines.length - 1 else endLine
  -- Copy lines before edit
  let result := lines.take startLine
  -- Get the prefix of the start line
  let startLineContent := lines.getD startLine []
  let startChar := if startChar > startLineContent.length then startLineContent.length else startChar
  let pfx := startLineContent.take startChar
  -- Get the suffix of the end line
  let endLineContent := lines.getD endLine []
  let endChar := if endChar > endLineContent.length then endLineContent.length else endChar
  let sfx := endLineContent.drop endChar
  -- Handle the edit
  let result :=
    if edit.NewText = [] then
      if pfx ++ sfx ≠ [] then result ++ [pfx ++ sfx] else result
    else
      let newLines := Split edit.NewText LF
      if newLines.length = 1 then
        result ++ [pfx ++ newLines.getD 0 [] ++ sfx]
      else if endLine = startLine then
        let result := result ++ [pfx ++ newLines.getD 0 []]
        let result :=
          if newLines.length > 2 then result ++ (newLines.take (newLines.length - 1)).drop 1
          else result
        result ++ [newLines.getD (newLines.length - 1) [] ++ sfx]
      else
        let result := result ++ [pfx ++ newLines.getD 0 []]
        let result :=
          if newLines.length > 2 then result ++ (newLines.take (newLines.length - 1)).drop 1
          else result
        if sfx.length > 0 ∨ endLine < lines.length - 1 then
          result ++ [newLines.getD (newLines.length - 1) [] ++ sfx]
        else
          result ++ [newLines.getD (newLines.length - 1) []]
  -- Add remaining lines
  let result := if endLine + 1 < lines.length then result ++ lines.drop (endLine + 1) else result
  .ok result

/-! ## `ApplyTextEdits` -/

/-- The filesystem behind `osReadFile` and `osWriteFile`.  `files` gives the
content of each readable path, `writable` says where a write succeeds, and
`writes` records every write performed, oldest first. -/
structure FS where
  files : GoString → Option GoString
  writable : GoString → Bool
  writes : List (GoString × GoString)

/-- The hook `osReadFile`: `none` stands for a non-nil error. -/
def osReadFile (fs : FS) (path : GoString) : Option GoString := fs.files path

/-- The hook `osWriteFile`: the flag is `true` when the returned error is nil. -/
def osWriteFile (fs : FS) (path data : GoString) : Bool × FS :=
  if fs.writable path then
    (true, { fs with
      files := fun p => if p = path then some data else fs.files p
      writes := fs.writes ++ [(path, data)] })
  else (false, fs)

/-- Lines 34-39 of `ApplyTextEdits`: the detected line ending. -/
def detectLineEnding (content : GoString) : GoString :=
  if goContains content CRLF then CRLF else LF

/-- Line 42 of `ApplyTextEdits`: whether the file ends with its line ending. -/
def endsWithNewline (content : GoString) : Bool :=
  decide (content.length > 0) && HasSuffix content (detectLineEnding content)

/-- The inner loop of lines 48-54: the first `j`, counted from the index of the
head of the list, whose range overlaps `r`. -/
def firstOverlapFrom (r : Range) (j : Nat) : List TextEdit → Option Nat
  | [] => none
  | e :: es => if RangesOverlap r e.Range then some j else firstOverlapFrom r (j + 1) es

/-- The outer loop of lines 48-54, entered at index `i`: the pair reported by the
first `return`, if any. -/
def findOverlap (i : Nat) : List TextEdit → Option (Nat × Nat)
  | [] => none
  | e :: es =>
    match firstOverlapFrom e.Range (i + 1) es with
    | some j => some (i, j)
    | none => findOverlap (i + 1) es

/-- The comparison passed to `sort.Slice` (lines 59-64). -/
def editLess (a b : TextEdit) : Bool :=
  if a.Range.Start.Line ≠ b.Range.Start.Line then
    decide (a.Range.Start.Line > b.Range.Start.Line)
  else
    decide (a.Range.Start.Character > b.Range.Start.Character)

/-- Lines 57-64: the sorted copy of the edits. -/
def sortedEdits (edits : List TextEdit) : List TextEdit := sortSlice editLess edits

/-- The loop of lines 67-73: fold the edits through `ApplyTextEdit`, stopping at
the first error. -/
def foldEdits (lineEnding : GoString) : List GoString → List TextEdit →
    Except EditError (List GoString)
  | lines, [] => .ok lines
  | lines, e :: es =>
    match ApplyTextEdit lines e lineEnding with
    | .error err => .error err
    | .ok newLines => foldEdits lineEnding newLines es

/-- The `strings.Builder` written with `lineEnding` before every line but the
first (lines 76-82), from the second line on. -/
def joinRest (lineEnding : GoString) : List GoString → GoString
  | [] => []
  | l :: ls => lineEnding ++ l ++ joinRest lineEnding ls

/-- Lines 76-82: the lines joined with `lineEnding`. -/
def joinLines (lineEnding : GoString) : List GoString → GoString
  | [] => []
  | l :: ls => l ++ joinRest lineEnding ls

/-- Lines 85-87: the joined content, with one line ending appended when the
original ended with one and the joined content does not. -/
def finishContent (lineEnding : GoString) (ends : Bool) (joined : GoString) : GoString :=
  if ends && !HasSuffix joined lineEnding then joined ++ lineEnding else joined

/-- Lines 33-87 of `ApplyTextEdits`: from the bytes read to the bytes passed to
`osWriteFile`, or the error returned before any write. -/
def newContent (content : GoString) (edits : List TextEdit) : Except EditError GoString :=
  let lineEnding := detectLineEnding content
  let ends := endsWithNewline content
  let lines := Split content lineEnding
  match findOverlap 0 edits with
  | some (i, j) => .error (.overlapping i j)
  | none =>
    match foldEdits lineEnding lines (sortedEdits edits) with
    | .error err => .error err
    | .ok lines => .ok (finishContent lineEnding ends (joinLines lineEnding lines))

/-- The prefix "file://" stripped from the URI. -/
def fileScheme : GoString := [102, 105, 108, 101, 58, 47, 47]

/-- The function `ApplyTextEdits` (edit.go, lines 23-94): the returned error (`none` for nil)
and the filesystem afterwards. -/
def ApplyTextEdits (fs : FS) (uri : GoString) (edits : List TextEdit) : Option EditError × FS :=
  let path := TrimPrefix uri fileScheme
  match osReadFile fs path with
  | none => (some .readFailed, fs)
  | some content =>
    match newContent content edits with
    | .error err => (some err, fs)
    | .ok data =>
      match osWriteFile fs path data with
      | (true, fs1) => (none, fs1)
      | (false, fs1) => (some .writeFailed, fs1)

/-! ## `ApplyDocumentChange` -/

/-- Modelled from the spec: the type `protocol.CreateFileOptions`, declared in
the protocol package; the boolean flags `overwrite` and `ignoreIfExists`. -/
structure CreateFileOptions where
  Overwrite : Bool
  IgnoreIfExists : Bool
deriving DecidableEq, Repr

/-- Modelled from the spec: the type `protocol.CreateFile`, of which the code
reads the target URI and the optional options (a nil pointer is `none`). -/
structure CreateFile where
  URI : GoString
  Options : Option CreateFileOptions
deriving DecidableEq, Repr

/-- Modelled from the spec: the type `protocol.DeleteFileOptions`; the boolean
flags `recursive` and `ignoreIfNotExists`. -/
structure DeleteFileOptions where
  Recursive : Bool
  IgnoreIfNotExists : Bool
deriving DecidableEq, Repr

/-- Modelled from the spec: the type `protocol.DeleteFile`. -/
structure DeleteFile where
  URI : GoString
  Options : Option DeleteFileOptions
deriving DecidableEq, Repr

/-- Modelled from the spec: the type `protocol.RenameFileOptions`; the boolean
flags `overwrite` and `ignoreIfExists`. -/
structure RenameFileOptions where
  Overwrite : Bool
  IgnoreIfExists : Bool
deriving DecidableEq, Repr

/-- Modelled from the spec: the type `protocol.RenameFile`. -/
structure RenameFile where
  OldURI : GoString
  NewURI : GoString
  Options : Option RenameFileOptions
deriving DecidableEq, Repr

/-- Modelled from the spec: the identifier of the edited document, of which the
code reads the URI. -/
structure TextDocumentIdentifier where
  URI : GoString
deriving DecidableEq, Repr

/-- Modelled from the spec: the type `protocol.TextDocumentEdit`.  An element of
`Edits` is represented by the outcome of its method `AsTextEdit`, which is
defined in the protocol package: `none` stands for the error it may return. -/
structure TextDocumentEdit where
  TextDocument : TextDocumentIdentifier
  Edits : List (Option TextEdit)
deriving DecidableEq, Repr

/-- Modelled from the spec: the type `protocol.DocumentChange`, a record of four
pointers of which the producer sets one; a nil pointer is `none`. -/
structure DocumentChange where
  TextDocumentEdit : Option TextDocumentEdit
  CreateFile : Option CreateFile
  RenameFile : Option RenameFile
  DeleteFile : Option DeleteFile
deriving DecidableEq, Repr

/-- The errors returned by `ApplyDocumentChange`, one constructor per
`fmt.Errorf` site, and the error of `ApplyTextEdits` passed on unchanged. -/
inductive ChangeError where
  /-- "failed to create file" -/
  | createFailed
  /-- "failed to delete directory recursively" -/
  | deleteRecursiveFailed
  /-- "failed to delete file" -/
  | deleteFailed
  /-- "target file already exists and overwrite is not allowed" -/
  | targetExists
  /-- "failed to rename file" -/
  | renameFailed
  /-- "invalid edit type" -/
  | invalidEditType
  /-- The error returned by `ApplyTextEdits`. -/
  | textEdits (err : EditError)
deriving DecidableEq, Repr

/-- The hook `osStat`, of which the code only tests the error: `true` when it is
nil, that is when something exists at the path. -/
def osStat (fs : FS) (path : GoString) : Bool := (fs.files path).isSome

/-- The hook `osRemove`: removes the file at the path; the flag is `true` when
the returned error is nil, `false` when nothing exists there. -/
def osRemove (fs : FS) (path : GoString) : Bool × FS :=
  if (fs.files path).isSome then
    (true, { fs with files := fun p => if p = path then none else fs.files p })
  else (false, fs)

/-- The hook `osRemoveAll`: removes the path and every path below it; it
returns a nil error also when nothing exists there. -/
def osRemoveAll (fs : FS) (path : GoString) : Bool × FS :=
  (true, { fs with
    files := fun p => if p = path ∨ HasPrefix p (path ++ [47]) = true then none else fs.files p })

/-- The hook `osRename`: moves the file at `oldPath` to `newPath`, replacing
what is there; the flag is `false` when nothing exists at `oldPath`. -/
def osRename (fs : FS) (oldPath newPath : GoString) : Bool × FS :=
  match fs.files oldPath with
  | none => (false, fs)
  | some content =>
    (true, { fs with
      files := fun p =>
        if p = newPath then some content else if p = oldPath then none else fs.files p })

/-- The loop of lines 220-227: every element converted with `AsTextEdit`,
`none` as soon as one conversion fails. -/
def convertEdits : List (Option TextEdit) → Option (List TextEdit)
  | [] => some []
  | none :: _ => none
  | some e :: rest =>
    match convertEdits rest with
    | none => none
    | some es => some (e :: es)

/-- Lines 175-189 of `ApplyDocumentChange`: `.error` carries the value of a
`return`, `.ok` the filesystem with which the function goes on. -/
def createFileStep (fs : FS) : Option CreateFile → Except (Option ChangeError × FS) FS
  | none => .ok fs
  | some cf =>
    let path := TrimPrefix cf.URI fileScheme
    let ignored : Bool :=
      match cf.Options with
      | none => false
      | some options =>
        if options.Overwrite then false
        else if options.IgnoreIfExists then osStat fs path
        else false
    if ignored then .error (none, fs)
    else
      match osWriteFile fs path [] with
      | (true, fs1) => .ok fs1
      | (false, fs1) => .error (some .createFailed, fs1)

/-- Lines 191-202 of `ApplyDocumentChange`. -/
def deleteFileStep (fs : FS) : Option DeleteFile → Except (Option ChangeError × FS) FS
  | none => .ok fs
  | some df =>
    let path := TrimPrefix df.URI fileScheme
    let recursive : Bool :=
      match df.Options with
      | none => false
      | some options => options.Recursive
    if recursive then
      match osRemoveAll fs path with
      | (true, fs1) => .ok fs1
      | (false, fs1) => .error (some .deleteRecursiveFailed, fs1)
    else
      match osRemove fs path with
      | (true, fs1) => .ok fs1
      | (false, fs1) => .error (some .deleteFailed, fs1)

/-- Lines 204-217 of `ApplyDocumentChange`. -/
def renameFileStep (fs : FS) : Option RenameFile → Except (Option ChangeError × FS) FS
  | none => .ok fs
  | some rf =>
    let oldPath := TrimPrefix rf.OldURI fileScheme
    let newPath := TrimPrefix rf.NewURI fileScheme
    let refused : Bool :=
      match rf.Options with
      | none => false
      | some options => if !options.Overwrite then osStat fs newPath else false
    if refused then .error (some .targetExists, fs)
    else
      match osRename fs oldPath newPath with
      | (true, fs1) => .ok fs1
      | (false, fs1) => .error (some .renameFailed, fs1)

/-- Lines 219-231 of `ApplyDocumentChange`. -/
def textDocumentEditStep (fs : FS) : Option TextDocumentEdit → Option ChangeError × FS
  | none => (none, fs)
  | some tde =>
    match convertEdits tde.Edits with
    | none => (some .invalidEditType, fs)
    | some textEdits =>
      match ApplyTextEdits fs tde.TextDocument.URI textEdits with
      | (none, fs1) => (none, fs1)
      | (some err, fs1) => (some (.textEdits err), fs1)

/-- The function `ApplyDocumentChange` (edit.go, lines 173-232): the returned
error (`none` for nil) and the filesystem afterwards. -/
def ApplyDocumentChange (fs : FS) (change : DocumentChange) : Option ChangeError × FS :=
  match createFileStep fs change.CreateFile with
  | .error ret => ret
  | .ok fs1 =>
    match deleteFileStep fs1 change.DeleteFile with
    | .error ret => ret
    | .ok fs2 =>
      match renameFileStep fs2 change.RenameFile with
      | .error ret => ret
      | .ok fs3 => textDocumentEditStep fs3 change.TextDocumentEdit

/-- The URI "file:///g"; its path is "/g". -/
def otherUri : GoString := [102, 105, 108, 101, 58, 47, 47, 47, 103]

/-- A filesystem holding two writable files, "/f" and "/g", with the given
contents, and no write recorded. -/
def twoFileFS (contentF contentG : GoString) : FS where
  files := fun p =>
    if p = [47, 102] then some contentF else if p = [47, 103] then some contentG else none
  writable := fun p => decide (p = [47, 102] ∨ p = [47, 103])
  writes := []

/-! ## Notions used in the statements -/

/-- Position `p` is strictly before position `q` in document order. -/
def posLt (p q : Position) : Prop :=
  p.Line < q.Line ∨ (p.Line = q.Line ∧ p.Character < q.Character)

instance (p q : Position) : Decidable (posLt p q) := by unfold posLt; infer_instance

/-- Position `p` is at or before position `q` in document order. -/
def posLe (p q : Position) : Prop :=
  p.Line < q.Line ∨ (p.Line = q.Line ∧ p.Character ≤ q.Character)

instance (p q : Position) : Decidable (posLe p q) := by unfold posLe; infer_instance

deriving instance DecidableEq for Except

/-- The end line after the adjustment of lines 107-109. -/
def clampLine (lines : List GoString) (l : Nat) : Nat :=
  if l ≥ lines.length then lines.length - 1 else l

/-- A character offset after the adjustment of lines 119-121 and 126-128. -/
def clampChar (line : GoString) (c : Nat) : Nat :=
  if c > line.length then line.length else c

/-- The lines that lines 131-163 of `ApplyTextEdit` emit for the edited span,
given the kept head `pfx` of the start line and the kept tail `sfx` of the end
line. -/
def editMid (pfx sfx newText : GoString) : List GoString :=
  if newText = [] then (if pfx ++ sfx ≠ [] then [pfx ++ sfx] else [])
  else
    let newLines := Split newText LF
    if newLines.length = 1 then [pfx ++ newLines.getD 0 [] ++ sfx]
    else [pfx ++ newLines.getD 0 []] ++ (newLines.take (newLines.length - 1)).drop 1
      ++ [newLines.getD (newLines.length - 1) [] ++ sfx]

/-- Every line followed by the separator: the text that precedes a given line
in the joined document. -/
def joinLead (sep : GoString) : List GoString → GoString
  | [] => []
  | l :: ls => l ++ sep ++ joinLead sep ls

/-- A range is well formed when its start is not after its end. -/
def wellFormed (r : Range) : Prop := posLe r.Start r.End

instance (r : Range) : Decidable (wellFormed r) := by unfold wellFormed; infer_instance

/-- A position lies inside the line array: its line exists and its character
is at most the length of that line. -/
def posInBounds (lines : List GoString) (p : Position) : Prop :=
  p.Line < lines.length ∧ p.Character ≤ (lines.getD p.Line []).length

instance (lines : List GoString) (p : Position) : Decidable (posInBounds lines p) := by
  unfold posInBounds; infer_instance

/-- Both ends of a range lie inside the line array. -/
def inBounds (lines : List GoString) (r : Range) : Prop :=
  posInBounds lines r.Start ∧ posInBounds lines r.End

instance (lines : List GoString) (r : Range) : Decidable (inBounds lines r) := by
  unfold inBounds; infer_instance

/-- The offset of a position in the lines joined with a one-byte separator:
the lengths of the preceding lines, one separator each, plus the character. -/
def offsetOf (lines : List GoString) (p : Position) : Nat :=
  ((lines.take p.Line).map (fun l => l.length + 1)).sum + p.Character

/-- The text with the bytes from offset `a` up to offset `b` replaced by
`newText`. -/
def replaceSpan (text : GoString) (a b : Nat) (newText : GoString) : GoString :=
  text.take a ++ newText ++ text.drop b

/-- The URI "file:///f" used in the examples; its path is "/f". -/
def sampleUri : GoString := [102, 105, 108, 101, 58, 47, 47, 47, 102]

/-- A filesystem holding one writable file, at the path "/f", with the given
content, and no write recorded. -/
def singleFileFS (content : GoString) : FS where
  files := fun p => if p = [47, 102] then some content else none
  writable := fun p => decide (p = [47, 102])
  writes := []

/-- Edit `a` starts strictly after edit `b` in document order: the order in
which the sorted edits follow one another. -/
def startsDescending (a b : TextEdit) : Prop := posLt b.Range.Start a.Range.Start

instance : IsAntisymm TextEdit startsDescending where
  antisymm a b h1 h2 := by
    unfold startsDescending posLt at h1 h2
    omega

/-- The edit with its range clamped as the specification words it: the end
line replaced by `len(lines) - 1` when it is not below `len(lines)`, the start
character replaced by the length of the start line when it exceeds it, and
the end character replaced by the length of the (clamped) end line when it
exceeds it. -/
def clampedEdit (lines : List GoString) (edit : TextEdit) : TextEdit :=
  let endLine :=
    if edit.Range.End.Line ≥ lines.length then lines.length - 1 else edit.Range.End.Line
  let startChar :=
    if edit.Range.Start.Character > (lines.getD edit.Range.Start.Line []).length
    then (lines.getD edit.Range.Start.Line []).length else edit.Range.Start.Character
  let endChar :=
    if edit.Range.End.Character > (lines.getD endLine []).length
    then (lines.getD endLine []).length else edit.Range.End.Character
  { Range := { Start := { Line := edit.Range.Start.Line, Character := startChar },
               End := { Line := endLine, Character := endChar } },
    NewText := edit.NewText }

/-- The current line array `cur` still agrees with the snapshot `orig` up to
position `p`: the lines before the line of `p` are those of the snapshot, the
line of `p` exists, and it starts with the same `p.Character` bytes as in the
snapshot. -/
def agreesUpTo (orig cur : List GoString) (p : Position) : Prop :=
  cur.take p.Line = orig.take p.Line ∧ p.Line < cur.length ∧
    p.Character ≤ (cur.getD p.Line []).length ∧
    (cur.getD p.Line []).take p.Character = (orig.getD p.Line []).take p.Character

/-- The line array ends with a line break once joined: it has at least two
lines and an empty last line, or its last line itself ends with the line
ending. -/
def endsWithBreak (le : GoString) (ls : List GoString) : Bool :=
  (decide (2 ≤ ls.length) && decide (ls.getLast? = some [])) ||
    (match ls.getLast? with
     | some x => HasSuffix x le
     | none => false)

/-- The kept tail of the end line (the source's `suffix`), as computed by lines
107-109 and 125-129 of `ApplyTextEdit` on the line array `cur`. -/
def keptTail (cur : List GoString) (e : TextEdit) : GoString :=
  (cur.getD (clampLine cur e.Range.End.Line) []).drop
    (clampChar (cur.getD (clampLine cur e.Range.End.Line) []) e.Range.End.Character)

/-- The kept head of the start line (the source's `prefix`), as computed by lines
118-122 of `ApplyTextEdit` on the line array `cur`. -/
def keptHead (cur : List GoString) (e : TextEdit) : GoString :=
  (cur.getD e.Range.Start.Line []).take
    (clampChar (cur.getD e.Range.Start.Line []) e.Range.Start.Character)

/-- The non-empty text does not end with a byte of the line ending: its last
byte is not "\n" and, for the line ending "\r\n", not "\r" either. -/
def endsClear (le t : GoString) : Bool :=
  t != [] && t.getLast? != some 10 && (le != CRLF || t.getLast? != some 13)

/-- An edit that cannot leave a line break at the end of the line array `cur`:
it ends before the last line; or its `newText` is non-empty, ends with "\n" only
if something is kept after it, and, for the line ending "\r\n", does not end with
"\r" right before a kept tail that is exactly "\n"; or it is a deletion whose
kept text is non-empty and does not end with the line ending; or it is a
deletion whose kept text is empty (no line is emitted) and the lines before its
start line do not end with a line break. -/
def editKeepsEnding (le : GoString) (cur : List GoString) (e : TextEdit) : Bool :=
  decide (clampLine cur e.Range.End.Line + 1 < cur.length) ||
  (e.NewText != [] && (keptTail cur e != [] || e.NewText.getLast? != some 10) &&
    !(le == CRLF && keptTail cur e == [10] && e.NewText.getLast? == some 13)) ||
  (e.NewText == [] && keptHead cur e ++ keptTail cur e != [] &&
    !HasSuffix (keptHead cur e ++ keptTail cur e) le) ||
  (e.NewText == [] && keptHead cur e ++ keptTail cur e == [] &&
    !endsWithBreak le (cur.take e.Range.Start.Line))

/-- Every edit of the fold satisfies `editKeepsEnding` on the line array it is
applied to. -/
def foldKeepsEnding (le : GoString) : List GoString → List TextEdit → Bool
  | _, [] => true
  | cur, e :: es =>
    editKeepsEnding le cur e &&
      (match ApplyTextEdit cur e le with
       | .ok next => foldKeepsEnding le next es
       | .error _ => true)

/-- The position just after a text `t` inserted at `P`: on the line of `P`,
`len(t)` characters further, when `t` has no "\n"; otherwise on the line reached
after as many lines as `t` has "\n", at the length of what follows the last
"\n" of `t`. -/
def endOfInserted (P : Position) (t : GoString) : Position :=
  if (Split t LF).length = 1 then ⟨P.Line, P.Character + t.length⟩
  else ⟨P.Line + ((Split t LF).length - 1),
    ((Split t LF).getD ((Split t LF).length - 1) []).length⟩

/-! # Theorems -/

theorem rangesOverlap_eq_false_iff (r1 r2 : Range) :
    RangesOverlap r1 r2 = false ↔ posLt r1.End r2.Start ∨ posLt r2.End r1.Start := by
  unfold RangesOverlap posLt
  split_ifs <;> simp <;> omega

theorem rangesOverlap_comm (r1 r2 : Range) : RangesOverlap r1 r2 = RangesOverlap r2 r1 := by
  cases h : RangesOverlap r2 r1
  · rw [rangesOverlap_eq_false_iff] at *; tauto
  · cases h1 : RangesOverlap r1 r2
    · rw [rangesOverlap_eq_false_iff] at h1
      rw [← Bool.not_eq_false, rangesOverlap_eq_false_iff] at h
      tauto
    · rfl

/-! ## Joining and splitting -/

theorem joinRest_append (sep : GoString) (A B : List GoString) :
    joinRest sep (A ++ B) = joinRest sep A ++ joinRest sep B := by
  induction A with
  | nil => rfl
  | cons a A ih => simp [joinRest, ih]

theorem joinRest_cons_eq (sep : GoString) (x : GoString) (xs : List GoString) :
    joinRest sep (x :: xs) = sep ++ joinLines sep (x :: xs) := by
  simp [joinRest, joinLines]

theorem goIndex_spec (sep : GoString) : ∀ (s : GoString) (m : Nat), goIndex sep s = some m →
    s = s.take m ++ sep ++ s.drop (m + sep.length) := by
  intro s
  induction s with
  | nil =>
    intro m h
    simp only [goIndex] at h
    split_ifs at h with h0
    subst h0; simp
  | cons c cs ih =>
    intro m h
    simp only [goIndex] at h
    split_ifs at h with h0
    · simp only [Option.some.injEq] at h
      subst h
      rw [List.isPrefixOf_iff_prefix] at h0
      obtain ⟨t, ht⟩ := h0
      rw [← ht]; simp
    · cases hi : goIndex sep cs with
      | none => simp [hi] at h
      | some k =>
        simp [hi] at h
        subst h
        have := ih k hi
        simp only [List.take_succ_cons, List.cons_append]
        rw [show k + 1 + sep.length = (k + sep.length) + 1 by omega, List.drop_succ_cons]
        congr 1

theorem genSplit_ne_nil (sep : GoString) (n : Nat) (s : GoString) : genSplit sep n s ≠ [] := by
  cases n with
  | zero => simp [genSplit]
  | succ n => simp only [genSplit]; split <;> simp

theorem joinLines_genSplit (sep : GoString) : ∀ (n : Nat) (s : GoString),
    joinLines sep (genSplit sep n s) = s := by
  intro n
  induction n with
  | zero => intro s; simp [genSplit, joinLines, joinRest]
  | succ n ih =>
    intro s
    simp only [genSplit]
    cases hi : goIndex sep s with
    | none => simp [joinLines, joinRest]
    | some m =>
      simp only [joinLines]
      obtain ⟨x, xs, hx⟩ := List.exists_cons_of_ne_nil (genSplit_ne_nil sep n (s.drop (m + sep.length)))
      have := ih (s.drop (m + sep.length))
      rw [hx] at this ⊢
      rw [joinRest_cons_eq, this]
      have h2 := goIndex_spec sep s m hi
      simpa [List.append_assoc] using h2.symm

theorem joinLines_Split (s sep : GoString) : joinLines sep (Split s sep) = s :=
  joinLines_genSplit sep _ s

theorem Split_ne_nil (s sep : GoString) : Split s sep ≠ [] :=
  genSplit_ne_nil sep _ s

theorem joinLines_lead (sep : GoString) (B : List GoString) (m : GoString) (R : List GoString) :
    joinLines sep (B ++ m :: R) = joinLead sep B ++ joinLines sep (m :: R) := by
  induction B with
  | nil => rfl
  | cons b B ih =>
    cases B with
    | nil => simp [joinLines, joinLead, joinRest]
    | cons b2 B =>
      have := ih
      simp only [List.cons_append] at this ⊢
      simp only [joinLines, joinLead, joinRest] at this ⊢
      simp [List.append_assoc, this]

theorem joinLines_cons_append (sep : GoString) (m : GoString) (ms A : List GoString) :
    joinLines sep (m :: ms ++ A) = joinLines sep (m :: ms) ++ joinRest sep A := by
  simp [joinLines, joinRest_append]

theorem length_joinLead_LF (B : List GoString) :
    (joinLead LF B).length = (B.map (fun l => l.length + 1)).sum := by
  induction B with
  | nil => rfl
  | cons b B ih =>
    simp only [joinLead, List.map_cons, List.sum_cons, List.length_append, ih]
    have : LF.length = 1 := rfl
    omega

theorem split_at_line (lines : List GoString) (k : Nat) (h : k < lines.length) :
    lines = lines.take k ++ lines.getD k [] :: lines.drop (k + 1) := by
  rw [List.getD_eq_getElem lines [] h]
  simp

theorem joinLines_at (sep : GoString) (lines : List GoString) (k : Nat) (h : k < lines.length) :
    joinLines sep lines =
      joinLead sep (lines.take k) ++ (lines.getD k [] ++ joinRest sep (lines.drop (k + 1))) := by
  have h1 := congrArg (joinLines sep) (split_at_line lines k h)
  rw [joinLines_lead] at h1
  exact h1

theorem joinLines_editMid (pfx sfx t : GoString) (h : t ≠ [] ∨ pfx ++ sfx ≠ []) :
    editMid pfx sfx t ≠ [] ∧ joinLines LF (editMid pfx sfx t) = pfx ++ t ++ sfx := by
  unfold editMid
  by_cases ht : t = []
  · subst ht
    have h2 : pfx ++ sfx ≠ [] := by tauto
    simp only [if_true, if_pos h2]
    simp [joinLines, joinRest]
  · simp only [if_neg ht]
    have hj := joinLines_Split t LF
    have hn := Split_ne_nil t LF
    generalize Split t LF = nl at hj hn
    obtain ⟨x, rest, rfl⟩ := List.exists_cons_of_ne_nil hn
    rcases List.eq_nil_or_concat rest with rfl | ⟨init, last, rfl⟩
    · simp [joinLines, joinRest] at hj ⊢
      simp [hj]
    · simp only [List.concat_eq_append] at hj hn ⊢
      have hlen : (x :: (init ++ [last])).length = init.length + 2 := by simp
      have h1 : ¬ ((x :: (init ++ [last])).length = 1) := by rw [hlen]; omega
      rw [if_neg h1, hlen]
      have e1 : List.drop 1 (List.take (init.length + 2 - 1) (x :: (init ++ [last]))) = init := by
        simp [List.take_append]
      have e2 : (x :: (init ++ [last])).getD (init.length + 2 - 1) [] = last := by
        simp [List.getD_cons_succ, List.getD_append_right]
      rw [e1, e2]
      constructor
      · simp
      · rw [← hj]
        simp [joinLines, joinRest, joinRest_append, List.append_assoc]

/-! ## `ApplyTextEdit`: normal form -/

theorem applyTextEdit_normal (lines : List GoString) (edit : TextEdit) (le : GoString)
    (h : edit.Range.Start.Line < lines.length) :
    ApplyTextEdit lines edit le = .ok
      (lines.take edit.Range.Start.Line ++
        editMid
          ((lines.getD edit.Range.Start.Line []).take
            (clampChar (lines.getD edit.Range.Start.Line []) edit.Range.Start.Character))
          ((lines.getD (clampLine lines edit.Range.End.Line) []).drop
            (clampChar (lines.getD (clampLine lines edit.Range.End.Line) []) edit.Range.End.Character))
          edit.NewText ++
        lines.drop (clampLine lines edit.Range.End.Line + 1)) := by
  have hdrop : ∀ k, ¬ (k + 1 < lines.length) → lines.drop (k + 1) = [] := by
    intro k hk; exact List.drop_eq_nil_of_le (by omega)
  have htd : ∀ (l : List GoString), l.length ≤ 2 → (l.take (l.length - 1)).drop 1 = [] := by
    intro l hl; apply List.drop_eq_nil_of_le; simp; omega
  unfold ApplyTextEdit
  dsimp only
  rw [if_neg (by omega)]
  simp only [editMid, clampLine, clampChar, ge_iff_le, gt_iff_lt]
  generalize lines.getD edit.Range.Start.Line [] = sl
  generalize (if lines.length ≤ edit.Range.End.Line then lines.length - 1 else edit.Range.End.Line) = el
  generalize (lines.getD el []) = eline
  generalize (List.take (if sl.length < edit.Range.Start.Character then sl.length else edit.Range.Start.Character) sl) = pfx
  generalize (List.drop (if eline.length < edit.Range.End.Character then eline.length else edit.Range.End.Character) eline) = sfx
  generalize Split edit.NewText LF = nl
  have e1 : (if 2 < nl.length then
      List.take edit.Range.Start.Line lines ++ [pfx ++ nl.getD 0 []] ++
        List.drop 1 (List.take (nl.length - 1) nl)
      else List.take edit.Range.Start.Line lines ++ [pfx ++ nl.getD 0 []]) =
      List.take edit.Range.Start.Line lines ++ [pfx ++ nl.getD 0 []] ++
        List.drop 1 (List.take (nl.length - 1) nl) := by
    split_ifs with h2
    · rfl
    · rw [htd nl (by omega), List.append_nil]
  rw [e1]
  have e2 : (if 0 < sfx.length ∨ el < lines.length - 1 then
      List.take edit.Range.Start.Line lines ++ [pfx ++ nl.getD 0 []] ++
        List.drop 1 (List.take (nl.length - 1) nl) ++ [nl.getD (nl.length - 1) [] ++ sfx]
      else List.take edit.Range.Start.Line lines ++ [pfx ++ nl.getD 0 []] ++
        List.drop 1 (List.take (nl.length - 1) nl) ++ [nl.getD (nl.length - 1) []]) =
      List.take edit.Range.Start.Line lines ++ [pfx ++ nl.getD 0 []] ++
        List.drop 1 (List.take (nl.length - 1) nl) ++ [nl.getD (nl.length - 1) [] ++ sfx] := by
    split_ifs with h2
    · rfl
    · have : sfx = [] := by
        cases sfx with
        | nil => rfl
        | cons a t => exact absurd (Or.inl (by simp)) h2
      rw [this, List.append_nil]
  rw [e2]
  congr 1
  by_cases h1 : el + 1 < lines.length
  · rw [if_pos h1]; split_ifs <;> simp
  · rw [if_neg h1, hdrop el h1, List.append_nil]; split_ifs <;> simp

theorem applyTextEdit_inBounds (lines : List GoString) (edit : TextEdit) (le : GoString)
    (hb : inBounds lines edit.Range) :
    ApplyTextEdit lines edit le = .ok
      (lines.take edit.Range.Start.Line ++
        editMid ((lines.getD edit.Range.Start.Line []).take edit.Range.Start.Character)
          ((lines.getD edit.Range.End.Line []).drop edit.Range.End.Character) edit.NewText ++
        lines.drop (edit.Range.End.Line + 1)) := by
  obtain ⟨⟨h1, h2⟩, h3, h4⟩ := hb
  rw [applyTextEdit_normal lines edit le h1]
  have e1 : clampLine lines edit.Range.End.Line = edit.Range.End.Line := by
    unfold clampLine; rw [if_neg (by omega)]
  have e2 : clampChar (lines.getD edit.Range.Start.Line []) edit.Range.Start.Character
      = edit.Range.Start.Character := by
    unfold clampChar; rw [if_neg (by omega)]
  have e3 : clampChar (lines.getD edit.Range.End.Line []) edit.Range.End.Character
      = edit.Range.End.Character := by
    unfold clampChar; rw [if_neg (by omega)]
  rw [e1, e2, e3]

/-! ## C1: a text edit as a replacement in the joined text -/

/-- C1 (as amended): for every line array and every edit whose range is in
bounds, if `newText` is non-empty or the text kept around the range (the start
line before the start character followed by the end line from the end
character) is non-empty, then `ApplyTextEdit` succeeds and joining its result
with "\n" gives the joined text with the bytes between the offsets of the two
ends of the range replaced by `newText`; if both are empty, `ApplyTextEdit`
returns the lines before the start line followed by the lines after the end
line, emitting no line for the span. -/
theorem C1_applyTextEdit_replaces_span (lines : List GoString) (edit : TextEdit)
    (hb : inBounds lines edit.Range) :
    ((edit.NewText ≠ [] ∨
        (lines.getD edit.Range.Start.Line []).take edit.Range.Start.Character ++
          (lines.getD edit.Range.End.Line []).drop edit.Range.End.Character ≠ []) →
      ∃ res, ApplyTextEdit lines edit LF = .ok res ∧
        joinLines LF res = replaceSpan (joinLines LF lines) (offsetOf lines edit.Range.Start)
          (offsetOf lines edit.Range.End) edit.NewText) ∧
    ((edit.NewText = [] ∧
        (lines.getD edit.Range.Start.Line []).take edit.Range.Start.Character ++
          (lines.getD edit.Range.End.Line []).drop edit.Range.End.Character = []) →
      ApplyTextEdit lines edit LF =
        .ok (lines.take edit.Range.Start.Line ++ lines.drop (edit.Range.End.Line + 1))) := by
  have hn := applyTextEdit_inBounds lines edit LF hb
  obtain ⟨⟨h1, h2⟩, h3, h4⟩ := hb
  constructor
  · intro hne
    refine ⟨_, hn, ?_⟩
    obtain ⟨hm1, hm2⟩ := joinLines_editMid _ _ _ hne
    obtain ⟨m, ms, hm⟩ := List.exists_cons_of_ne_nil hm1
    rw [hm] at hm2 ⊢
    rw [List.append_assoc, List.cons_append, joinLines_lead, ← List.cons_append,
      joinLines_cons_append, hm2]
    unfold replaceSpan offsetOf
    rw [← length_joinLead_LF, ← length_joinLead_LF]
    have t1 := joinLines_at LF lines _ h1
    have t2 := joinLines_at LF lines _ h3
    rw [show List.take (List.length (joinLead LF (List.take edit.Range.Start.Line lines)) +
          edit.Range.Start.Character) (joinLines LF lines) =
        joinLead LF (List.take edit.Range.Start.Line lines) ++
          (lines.getD edit.Range.Start.Line []).take edit.Range.Start.Character by
      rw [t1, List.take_append, List.take_append_of_le_length h2]]
    rw [show List.drop (List.length (joinLead LF (List.take edit.Range.End.Line lines)) +
          edit.Range.End.Character) (joinLines LF lines) =
          (lines.getD edit.Range.End.Line []).drop edit.Range.End.Character ++
            joinRest LF (lines.drop (edit.Range.End.Line + 1)) by
      rw [t2, List.drop_append, List.drop_append_of_le_length h4]]
    simp only [List.append_assoc]
  · rintro ⟨ht, hp⟩
    rw [hn]
    unfold editMid
    rw [if_pos ht, if_neg (by simpa using hp)]
    simp

/-- C1, witness: inserting "X" at (0,1) in ["abc", "def"]. -/
theorem C1_applyTextEdit_replaces_span_witness :
    inBounds [[97, 98, 99], [100, 101, 102]] ⟨⟨0, 1⟩, ⟨0, 1⟩⟩ ∧
    ∃ res, ApplyTextEdit [[97, 98, 99], [100, 101, 102]] ⟨⟨⟨0, 1⟩, ⟨0, 1⟩⟩, [88]⟩ LF = .ok res ∧
      joinLines LF res =
        replaceSpan (joinLines LF [[97, 98, 99], [100, 101, 102]])
          (offsetOf [[97, 98, 99], [100, 101, 102]] ⟨0, 1⟩)
          (offsetOf [[97, 98, 99], [100, 101, 102]] ⟨0, 1⟩) [88] :=
  ⟨by decide,
    (C1_applyTextEdit_replaces_span [[97, 98, 99], [100, 101, 102]] ⟨⟨⟨0, 1⟩, ⟨0, 1⟩⟩, [88]⟩
      (by decide)).1 (by decide)⟩

/-- C1, counterexample: on the lines ["abc", "def"], which contain no "\n", the
well-formed in-bounds deletion of (0,0)-(0,3) yields ["def"], which joins to
"def", whereas replacing the bytes between offsets 0 and 3 of "abc\ndef" by
the empty text leaves "\ndef". -/
theorem C1_counterexample_delete_line_content :
    (∀ l ∈ ([[97, 98, 99], [100, 101, 102]] : List GoString), (10 : UInt8) ∉ l) ∧
    wellFormed ⟨⟨0, 0⟩, ⟨0, 3⟩⟩ ∧
    inBounds [[97, 98, 99], [100, 101, 102]] ⟨⟨0, 0⟩, ⟨0, 3⟩⟩ ∧
    ApplyTextEdit [[97, 98, 99], [100, 101, 102]] ⟨⟨⟨0, 0⟩, ⟨0, 3⟩⟩, []⟩ LF
      = .ok [[100, 101, 102]] ∧
    joinLines LF [[100, 101, 102]] = [100, 101, 102] ∧
    replaceSpan (joinLines LF [[97, 98, 99], [100, 101, 102]])
      (offsetOf [[97, 98, 99], [100, 101, 102]] ⟨0, 0⟩)
      (offsetOf [[97, 98, 99], [100, 101, 102]] ⟨0, 3⟩) [] = [10, 100, 101, 102] := by
  decide

/-! ## C6: `RangesOverlap` as "not strictly before" -/

/-- C6 (as amended): for all ranges, `RangesOverlap r1 r2` is false exactly when
the end of `r1` is strictly before the start of `r2` or the end of `r2` is
strictly before the start of `r1`, positions compared by (line, character);
two ranges with `r1.End = r2.Start` overlap exactly when the end of `r2` is not
strictly before the start of `r1`, hence always when both are well formed. -/
theorem C6_rangesOverlap_iff_not_strictly_before (r1 r2 : Range) :
    (RangesOverlap r1 r2 = false ↔ posLt r1.End r2.Start ∨ posLt r2.End r1.Start) ∧
    (r1.End = r2.Start → (RangesOverlap r1 r2 = true ↔ ¬ posLt r2.End r1.Start)) ∧
    (r1.End = r2.Start → wellFormed r1 → wellFormed r2 → RangesOverlap r1 r2 = true) := by
  have key := rangesOverlap_eq_false_iff r1 r2
  refine ⟨key, ?_, ?_⟩
  · intro he
    rw [← Bool.not_eq_false, key, he]
    unfold posLt
    constructor
    · intro h1 h2; exact h1 (Or.inr h2)
    · rintro h1 (h2 | h2)
      · omega
      · exact h1 h2
  · intro he w1 w2
    rw [← Bool.not_eq_false, key, he]
    unfold wellFormed posLe at w1 w2
    rw [he] at w1
    unfold posLt
    omega

/-- C6, witness: the well-formed ranges (0,0)-(1,2) and (1,2)-(3,0) touch and
overlap. -/
theorem C6_rangesOverlap_iff_not_strictly_before_witness :
    RangesOverlap ⟨⟨0, 0⟩, ⟨1, 2⟩⟩ ⟨⟨1, 2⟩, ⟨3, 0⟩⟩ = true :=
  (C6_rangesOverlap_iff_not_strictly_before ⟨⟨0, 0⟩, ⟨1, 2⟩⟩ ⟨⟨1, 2⟩, ⟨3, 0⟩⟩).2.2 rfl
    (by decide) (by decide)

/-- C6, counterexample: the end of (5,0)-(1,0) coincides with the start of
(1,0)-(2,0), yet `RangesOverlap` returns false, since line 5 > line 2. -/
theorem C6_counterexample_touching_malformed :
    (⟨⟨5, 0⟩, ⟨1, 0⟩⟩ : Range).End = (⟨⟨1, 0⟩, ⟨2, 0⟩⟩ : Range).Start ∧
    RangesOverlap ⟨⟨5, 0⟩, ⟨1, 0⟩⟩ ⟨⟨1, 0⟩, ⟨2, 0⟩⟩ = false := by
  decide

/-! ## C10: when `ApplyTextEdit` fails -/

/-- C10: for every line array, edit and line ending, `ApplyTextEdit` returns an
error exactly when the start line of the edit is not below `len(lines)`, and
returns a line array exactly when it is, whatever the end line, the
characters, or the order of start and end. -/
theorem C10_applyTextEdit_error_iff (lines : List GoString) (edit : TextEdit)
    (lineEnding : GoString) :
    ((∃ err, ApplyTextEdit lines edit lineEnding = .error err) ↔
      ¬ edit.Range.Start.Line < lines.length) ∧
    ((∃ res, ApplyTextEdit lines edit lineEnding = .ok res) ↔
      edit.Range.Start.Line < lines.length) := by
  by_cases h : edit.Range.Start.Line < lines.length
  · rw [applyTextEdit_normal lines edit lineEnding h]
    simp [h]
  · have e : ApplyTextEdit lines edit lineEnding =
        .error (.invalidStartLine edit.Range.Start.Line) := by
      unfold ApplyTextEdit
      dsimp only
      rw [if_pos (by omega)]
    rw [e]
    simp [h]

/-! ## C4: overlapping edits are rejected before any write -/

theorem firstOverlapFrom_none (r : Range) (j : Nat) (es : List TextEdit) :
    firstOverlapFrom r j es = none ↔ ∀ e ∈ es, RangesOverlap r e.Range = false := by
  induction es generalizing j with
  | nil => simp [firstOverlapFrom]
  | cons e es ih =>
    simp only [firstOverlapFrom, List.mem_cons, forall_eq_or_imp]
    by_cases h : RangesOverlap r e.Range = true
    · simp [h]
    · have h' : RangesOverlap r e.Range = false := by simpa using h
      simp only [h', if_false, true_and, Bool.false_eq_true]
      exact ih (j + 1)

theorem firstOverlapFrom_some (r : Range) (j : Nat) (es : List TextEdit) (k : Nat)
    (h : firstOverlapFrom r j es = some k) :
    ∃ q e, k = j + q ∧ es[q]? = some e ∧ RangesOverlap r e.Range = true ∧
      ∀ q' e', q' < q → es[q']? = some e' → RangesOverlap r e'.Range = false := by
  induction es generalizing j with
  | nil => simp [firstOverlapFrom] at h
  | cons e es ih =>
    simp only [firstOverlapFrom] at h
    by_cases ho : RangesOverlap r e.Range = true
    · simp only [ho, if_true, Option.some.injEq] at h
      exact ⟨0, e, by omega, by simp, ho, by intro q' e' hq; omega⟩
    · simp only [ho, if_false] at h
      obtain ⟨q, e1, hk, hq, hov, hmin⟩ := ih (j + 1) h
      refine ⟨q + 1, e1, by omega, by simpa using hq, hov, ?_⟩
      intro q' e' hlt hget
      cases q' with
      | zero =>
        simp at hget
        subst hget
        simpa using ho
      | succ q' =>
        exact hmin q' e' (by omega) (by simpa using hget)

theorem findOverlap_none (i : Nat) (es : List TextEdit) :
    findOverlap i es = none ↔
      es.Pairwise (fun a b => RangesOverlap a.Range b.Range = false) := by
  induction es generalizing i with
  | nil => simp [findOverlap]
  | cons e es ih =>
    simp only [findOverlap, List.pairwise_cons]
    cases hf : firstOverlapFrom e.Range (i + 1) es with
    | none =>
      simp only [ih]
      rw [firstOverlapFrom_none] at hf
      exact ⟨fun h => ⟨hf, h⟩, fun h => h.2⟩
    | some j =>
      simp only [false_iff, not_and, reduceCtorEq]
      intro hall
      have := (firstOverlapFrom_none e.Range (i + 1) es).mpr hall
      rw [hf] at this
      simp at this

theorem findOverlap_some (i : Nat) (es : List TextEdit) (a b : Nat)
    (h : findOverlap i es = some (a, b)) :
    ∃ p q e1 e2, a = i + p ∧ b = i + q ∧ p < q ∧ es[p]? = some e1 ∧ es[q]? = some e2 ∧
      RangesOverlap e1.Range e2.Range = true ∧
      ∀ p' q' e1' e2', p' < q' → es[p']? = some e1' → es[q']? = some e2' →
        RangesOverlap e1'.Range e2'.Range = true → p < p' ∨ (p = p' ∧ q ≤ q') := by
  induction es generalizing i with
  | nil => simp [findOverlap] at h
  | cons e es ih =>
    simp only [findOverlap] at h
    cases hf : firstOverlapFrom e.Range (i + 1) es with
    | some j =>
      simp only [hf, Option.some.injEq, Prod.mk.injEq] at h
      obtain ⟨q, e2, hj, hq, hov, hmin⟩ := firstOverlapFrom_some _ _ _ _ hf
      refine ⟨0, q + 1, e, e2, by omega, by omega, by omega, by simp, by simpa using hq, hov, ?_⟩
      intro p' q' e1' e2' hlt h1 h2 hov'
      cases p' with
      | succ p' => left; omega
      | zero =>
        right
        refine ⟨rfl, ?_⟩
        simp at h1
        subst h1
        cases q' with
        | zero => omega
        | succ q' =>
          by_contra hcon
          have := hmin q' e2' (by omega) (by simpa using h2)
          rw [this] at hov'
          exact Bool.false_ne_true hov'
    | none =>
      simp only [hf] at h
      obtain ⟨p, q, e1, e2, ha, hb, hpq, h1, h2, hov, hmin⟩ := ih (i + 1) h
      refine ⟨p + 1, q + 1, e1, e2, by omega, by omega, by omega, by simpa using h1,
        by simpa using h2, hov, ?_⟩
      intro p' q' e1' e2' hlt h1' h2' hov'
      cases p' with
      | zero =>
        exfalso
        simp at h1'
        subst h1'
        rw [firstOverlapFrom_none] at hf
        cases q' with
        | zero => omega
        | succ q' =>
          have hmem : e2' ∈ es := List.getElem?_mem (by simpa using h2' : es[q']? = some e2')
          rw [hf e2' hmem] at hov'
          exact Bool.false_ne_true hov'
      | succ p' =>
        cases q' with
        | zero => omega
        | succ q' =>
          have := hmin p' q' e1' e2' (by omega) (by simpa using h1') (by simpa using h2') hov'
          omega

theorem findOverlap_ne_none (edits : List TextEdit)
    (hov : ∃ (i j : Nat) (e1 e2 : TextEdit), i < j ∧ edits[i]? = some e1 ∧ edits[j]? = some e2 ∧
      RangesOverlap e1.Range e2.Range = true) : findOverlap 0 edits ≠ none := by
  intro hnone
  rw [findOverlap_none, List.pairwise_iff_getElem] at hnone
  obtain ⟨i, j, e1, e2, hij, h1, h2, hov⟩ := hov
  obtain ⟨hi, rfl⟩ := List.getElem?_eq_some.mp h1
  obtain ⟨hj, rfl⟩ := List.getElem?_eq_some.mp h2
  rw [hnone i j hi hj hij] at hov
  exact Bool.false_ne_true hov

/-- C4: for every readable file and every edit list in which some pair of edits
`i < j` satisfies `RangesOverlap` (touching ranges included), `ApplyTextEdits`
returns the error naming an overlapping pair `(i, j)`, the lexicographically
first one, and leaves the filesystem as it was: no write is performed and the
file content is unchanged. -/
theorem C4_overlap_rejected_without_write (fs : FS) (uri : GoString) (edits : List TextEdit)
    (content : GoString) (hr : osReadFile fs (TrimPrefix uri fileScheme) = some content)
    (hov : ∃ (i j : Nat) (e1 e2 : TextEdit), i < j ∧ edits[i]? = some e1 ∧ edits[j]? = some e2 ∧
      RangesOverlap e1.Range e2.Range = true) :
    ∃ (i j : Nat) (e1 e2 : TextEdit), ApplyTextEdits fs uri edits = (some (.overlapping i j), fs) ∧
      i < j ∧ edits[i]? = some e1 ∧ edits[j]? = some e2 ∧
      RangesOverlap e1.Range e2.Range = true ∧
      ∀ (i' j' : Nat) (e1' e2' : TextEdit), i' < j' → edits[i']? = some e1' → edits[j']? = some e2' →
        RangesOverlap e1'.Range e2'.Range = true → i < i' ∨ (i = i' ∧ j ≤ j') := by
  have hne := findOverlap_ne_none edits hov
  cases hf : findOverlap 0 edits with
  | none => exact absurd hf hne
  | some ab =>
    obtain ⟨a, b⟩ := ab
    obtain ⟨p, q, e1, e2, ha, hb, hpq, h1, h2, ho, hmin⟩ := findOverlap_some 0 edits a b hf
    have ha' : a = p := by omega
    have hb' : b = q := by omega
    subst ha' hb'
    refine ⟨a, b, e1, e2, ?_, hpq, h1, h2, ho, hmin⟩
    unfold ApplyTextEdits
    simp only [hr, newContent, hf]

/-- C4, witness: on a file holding "abc", the edits (0,0)-(0,1) and (0,1)-(0,2)
touch at (0,1) and are rejected. -/
theorem C4_overlap_rejected_without_write_witness :
    ∃ (i j : Nat) (e1 e2 : TextEdit),
      ApplyTextEdits (singleFileFS [97, 98, 99]) sampleUri
          [⟨⟨⟨0, 0⟩, ⟨0, 1⟩⟩, [120]⟩, ⟨⟨⟨0, 1⟩, ⟨0, 2⟩⟩, [121]⟩]
        = (some (.overlapping i j), singleFileFS [97, 98, 99]) ∧
      i < j ∧
      [(⟨⟨⟨0, 0⟩, ⟨0, 1⟩⟩, [120]⟩ : TextEdit), ⟨⟨⟨0, 1⟩, ⟨0, 2⟩⟩, [121]⟩][i]? = some e1 ∧
      [(⟨⟨⟨0, 0⟩, ⟨0, 1⟩⟩, [120]⟩ : TextEdit), ⟨⟨⟨0, 1⟩, ⟨0, 2⟩⟩, [121]⟩][j]? = some e2 ∧
      RangesOverlap e1.Range e2.Range = true ∧
      ∀ (i' j' : Nat) (e1' e2' : TextEdit), i' < j' →
        [(⟨⟨⟨0, 0⟩, ⟨0, 1⟩⟩, [120]⟩ : TextEdit), ⟨⟨⟨0, 1⟩, ⟨0, 2⟩⟩, [121]⟩][i']? = some e1' →
        [(⟨⟨⟨0, 0⟩, ⟨0, 1⟩⟩, [120]⟩ : TextEdit), ⟨⟨⟨0, 1⟩, ⟨0, 2⟩⟩, [121]⟩][j']? = some e2' →
        RangesOverlap e1'.Range e2'.Range = true → i < i' ∨ (i = i' ∧ j ≤ j') :=
  C4_overlap_rejected_without_write (singleFileFS [97, 98, 99]) sampleUri
    [⟨⟨⟨0, 0⟩, ⟨0, 1⟩⟩, [120]⟩, ⟨⟨⟨0, 1⟩, ⟨0, 2⟩⟩, [121]⟩] [97, 98, 99] (by decide)
    ⟨0, 1, ⟨⟨⟨0, 0⟩, ⟨0, 1⟩⟩, [120]⟩, ⟨⟨⟨0, 1⟩, ⟨0, 2⟩⟩, [121]⟩, by decide, rfl, rfl, by decide⟩

/-! ## The content written by `ApplyTextEdits` -/

theorem hasSuffix_append_self (x le : GoString) : HasSuffix (x ++ le) le = true := by
  unfold HasSuffix
  simp

theorem finishContent_hasSuffix (le joined : GoString) :
    HasSuffix (finishContent le true joined) le = true := by
  unfold finishContent
  by_cases h : HasSuffix joined le = true
  · simp [h]
  · have h' : HasSuffix joined le = false := by simpa using h
    simp [h', hasSuffix_append_self]

theorem newContent_nil (content : GoString) : newContent content [] = .ok content := by
  unfold newContent
  simp only [findOverlap, sortedEdits, sortSlice, List.foldl_nil, List.reverse_nil, foldEdits,
    joinLines_Split]
  unfold finishContent endsWithNewline
  by_cases h : HasSuffix content (detectLineEnding content) = true
  · simp [h]
  · have h' : HasSuffix content (detectLineEnding content) = false := by simpa using h
    simp [h']

theorem osWriteFile_files (fs : FS) (path data : GoString) (hw : fs.writable path = true) :
    osWriteFile fs path data = (true, (osWriteFile fs path data).2) ∧
    osReadFile (osWriteFile fs path data).2 path = some data ∧
    (osWriteFile fs path data).2.writes = fs.writes ++ [(path, data)] := by
  unfold osWriteFile osReadFile
  simp [hw]

theorem applyTextEdits_success (fs : FS) (uri : GoString) (edits : List TextEdit)
    (content : GoString) (hr : osReadFile fs (TrimPrefix uri fileScheme) = some content)
    (hs : (ApplyTextEdits fs uri edits).1 = none) :
    ∃ data, newContent content edits = .ok data ∧
      fs.writable (TrimPrefix uri fileScheme) = true ∧
      (ApplyTextEdits fs uri edits).2 = (osWriteFile fs (TrimPrefix uri fileScheme) data).2 := by
  unfold ApplyTextEdits at hs ⊢
  simp only [hr] at hs ⊢
  cases hn : newContent content edits with
  | error err => simp [hn] at hs
  | ok data =>
    simp only [hn] at hs ⊢
    refine ⟨data, rfl, ?_⟩
    by_cases hw : fs.writable (TrimPrefix uri fileScheme) = true
    · refine ⟨hw, ?_⟩
      have := (osWriteFile_files fs (TrimPrefix uri fileScheme) data hw).1
      rw [this]
    · exfalso
      have hw' : fs.writable (TrimPrefix uri fileScheme) = false := by simpa using hw
      simp [osWriteFile, hw'] at hs

theorem newContent_ok (content : GoString) (edits : List TextEdit) (data : GoString)
    (h : newContent content edits = .ok data) :
    ∃ lines, foldEdits (detectLineEnding content) (Split content (detectLineEnding content))
        (sortedEdits edits) = .ok lines ∧
      data = finishContent (detectLineEnding content) (endsWithNewline content)
        (joinLines (detectLineEnding content) lines) := by
  unfold newContent at h
  dsimp only at h
  cases hf : findOverlap 0 edits with
  | some ab => simp [hf] at h
  | none =>
    simp only [hf] at h
    cases hfold : foldEdits (detectLineEnding content) (Split content (detectLineEnding content))
        (sortedEdits edits) with
    | error err => simp [hfold] at h
    | ok lines =>
      simp only [hfold, Except.ok.injEq] at h
      exact ⟨lines, rfl, h.symm⟩

/-! ## C3: the empty batch -/

/-- C3: for every readable file content (any mix of line endings, with or
without a trailing one, the empty file included), `ApplyTextEdits` with an
empty edit list computes exactly the content it read; where the write is
permitted it returns no error, performs that one write, and the file holds the
same bytes as before. -/
theorem C3_empty_batch_round_trip (fs : FS) (uri content : GoString)
    (hr : osReadFile fs (TrimPrefix uri fileScheme) = some content)
    (hw : fs.writable (TrimPrefix uri fileScheme) = true) :
    newContent content [] = .ok content ∧
    (ApplyTextEdits fs uri []).1 = none ∧
    (ApplyTextEdits fs uri []).2.writes = fs.writes ++ [(TrimPrefix uri fileScheme, content)] ∧
    osReadFile (ApplyTextEdits fs uri []).2 (TrimPrefix uri fileScheme) = some content := by
  have hn := newContent_nil content
  obtain ⟨h1, h2, h3⟩ := osWriteFile_files fs (TrimPrefix uri fileScheme) content hw
  have e : ApplyTextEdits fs uri [] = (none, (osWriteFile fs (TrimPrefix uri fileScheme) content).2) := by
    unfold ApplyTextEdits
    simp only [hr, hn]
    rw [h1]
  rw [e]
  exact ⟨hn, rfl, h3, h2⟩

/-- C3, witness: the file "a\r\nb\n", which mixes both endings. -/
theorem C3_empty_batch_round_trip_witness :
    osReadFile (singleFileFS [97, 13, 10, 98, 10]) (TrimPrefix sampleUri fileScheme)
      = some [97, 13, 10, 98, 10] ∧
    (singleFileFS [97, 13, 10, 98, 10]).writable (TrimPrefix sampleUri fileScheme) = true ∧
    newContent [97, 13, 10, 98, 10] [] = .ok [97, 13, 10, 98, 10] ∧
    (ApplyTextEdits (singleFileFS [97, 13, 10, 98, 10]) sampleUri []).1 = none ∧
    (ApplyTextEdits (singleFileFS [97, 13, 10, 98, 10]) sampleUri []).2.writes =
      (singleFileFS [97, 13, 10, 98, 10]).writes ++
        [(TrimPrefix sampleUri fileScheme, [97, 13, 10, 98, 10])] ∧
    osReadFile (ApplyTextEdits (singleFileFS [97, 13, 10, 98, 10]) sampleUri []).2
      (TrimPrefix sampleUri fileScheme) = some [97, 13, 10, 98, 10] :=
  ⟨by decide, by decide,
    C3_empty_batch_round_trip (singleFileFS [97, 13, 10, 98, 10]) sampleUri
      [97, 13, 10, 98, 10] (by decide) (by decide)⟩

/-! ## C8: the trailing line ending is kept -/

/-- C8: for every non-empty file content that ends with its detected line
ending and every edit list for which `ApplyTextEdits` succeeds, the content
written ends with that line ending; it is the joined final line array when
that already ends with the line ending, and the joined final line array
followed by exactly one line ending otherwise. -/
theorem C8_trailing_newline_kept (fs : FS) (uri content : GoString) (edits : List TextEdit)
    (hr : osReadFile fs (TrimPrefix uri fileScheme) = some content)
    (hne : content ≠ [])
    (hend : HasSuffix content (detectLineEnding content) = true)
    (hs : (ApplyTextEdits fs uri edits).1 = none) :
    ∃ lines data,
      foldEdits (detectLineEnding content) (Split content (detectLineEnding content))
        (sortedEdits edits) = .ok lines ∧
      (ApplyTextEdits fs uri edits).2.writes =
        fs.writes ++ [(TrimPrefix uri fileScheme, data)] ∧
      osReadFile (ApplyTextEdits fs uri edits).2 (TrimPrefix uri fileScheme) = some data ∧
      HasSuffix data (detectLineEnding content) = true ∧
      data = (if HasSuffix (joinLines (detectLineEnding content) lines) (detectLineEnding content)
        then joinLines (detectLineEnding content) lines
        else joinLines (detectLineEnding content) lines ++ detectLineEnding content) := by
  obtain ⟨data, hn, hw, hfs⟩ := applyTextEdits_success fs uri edits content hr hs
  obtain ⟨lines, hfold, hdata⟩ := newContent_ok content edits data hn
  obtain ⟨_, h2, h3⟩ := osWriteFile_files fs (TrimPrefix uri fileScheme) data hw
  have hends : endsWithNewline content = true := by
    unfold endsWithNewline
    have : content.length > 0 := List.length_pos.mpr hne
    simp [this, hend]
  rw [hends] at hdata
  refine ⟨lines, data, hfold, by rw [hfs]; exact h3, by rw [hfs]; exact h2, ?_, ?_⟩
  · rw [hdata]; exact finishContent_hasSuffix _ _
  · rw [hdata]; unfold finishContent
    by_cases h : HasSuffix (joinLines (detectLineEnding content) lines) (detectLineEnding content) = true
    · simp [h]
    · have h' : HasSuffix (joinLines (detectLineEnding content) lines) (detectLineEnding content) = false := by
        simpa using h
      simp [h']

/-- C8, witness: replacing "b" by "c" in the file "ab\n". -/
theorem C8_trailing_newline_kept_witness :
    osReadFile (singleFileFS [97, 98, 10]) (TrimPrefix sampleUri fileScheme)
      = some [97, 98, 10] ∧
    ([97, 98, 10] : GoString) ≠ [] ∧
    HasSuffix [97, 98, 10] (detectLineEnding [97, 98, 10]) = true ∧
    (ApplyTextEdits (singleFileFS [97, 98, 10]) sampleUri [⟨⟨⟨0, 1⟩, ⟨0, 2⟩⟩, [99]⟩]).1 = none ∧
    ∃ lines data,
      foldEdits (detectLineEnding [97, 98, 10])
        (Split [97, 98, 10] (detectLineEnding [97, 98, 10]))
        (sortedEdits [⟨⟨⟨0, 1⟩, ⟨0, 2⟩⟩, [99]⟩]) = .ok lines ∧
      (ApplyTextEdits (singleFileFS [97, 98, 10]) sampleUri
          [⟨⟨⟨0, 1⟩, ⟨0, 2⟩⟩, [99]⟩]).2.writes =
        (singleFileFS [97, 98, 10]).writes ++ [(TrimPrefix sampleUri fileScheme, data)] ∧
      osReadFile
          (ApplyTextEdits (singleFileFS [97, 98, 10]) sampleUri [⟨⟨⟨0, 1⟩, ⟨0, 2⟩⟩, [99]⟩]).2
          (TrimPrefix sampleUri fileScheme) = some data ∧
      HasSuffix data (detectLineEnding [97, 98, 10]) = true ∧
      data = (if HasSuffix (joinLines (detectLineEnding [97, 98, 10]) lines)
            (detectLineEnding [97, 98, 10])
        then joinLines (detectLineEnding [97, 98, 10]) lines
        else joinLines (detectLineEnding [97, 98, 10]) lines ++ detectLineEnding [97, 98, 10]) :=
  ⟨by decide, by decide, by decide, by decide,
    C8_trailing_newline_kept (singleFileFS [97, 98, 10]) sampleUri [97, 98, 10]
      [⟨⟨⟨0, 1⟩, ⟨0, 2⟩⟩, [99]⟩] (by decide) (by decide) (by decide) (by decide)⟩

/-! ## C9: the line-ending style of the output -/

theorem mem_genSplit (sep : GoString) (n : Nat) (s l : GoString) (b : UInt8)
    (hl : l ∈ genSplit sep n s) (hb : b ∈ l) : b ∈ s := by
  induction n generalizing s with
  | zero =>
    simp only [genSplit, List.mem_singleton] at hl
    subst hl; exact hb
  | succ n ih =>
    simp only [genSplit] at hl
    cases hi : goIndex sep s with
    | none =>
      simp only [hi, List.mem_singleton] at hl
      subst hl; exact hb
    | some m =>
      simp only [hi, List.mem_cons] at hl
      rcases hl with rfl | hl
      · exact List.mem_of_mem_take hb
      · exact List.mem_of_mem_drop (ih _ hl)

theorem mem_getD_nil (nl : List GoString) (i : Nat) (b : UInt8) (hb : b ∈ nl.getD i []) :
    ∃ l ∈ nl, b ∈ l := by
  by_cases h : i < nl.length
  · rw [List.getD_eq_getElem nl [] h] at hb
    exact ⟨nl[i], List.getElem_mem h, hb⟩
  · rw [List.getD_eq_default nl [] (by omega)] at hb
    simp at hb

theorem mem_editMid (pfx sfx t l : GoString) (b : UInt8)
    (hl : l ∈ editMid pfx sfx t) (hb : b ∈ l) : b ∈ pfx ∨ b ∈ sfx ∨ b ∈ t := by
  have key : ∀ l' ∈ Split t LF, b ∈ l' → b ∈ t := fun l' h1 h2 => mem_genSplit _ _ _ _ _ h1 h2
  have keyD : ∀ i, b ∈ (Split t LF).getD i [] → b ∈ t := by
    intro i hi
    obtain ⟨l', h1, h2⟩ := mem_getD_nil _ _ _ hi
    exact key l' h1 h2
  unfold editMid at hl
  dsimp only at hl
  split_ifs at hl with h1 h2 h3
  · simp only [List.mem_singleton] at hl
    subst hl
    rcases List.mem_append.mp hb with h | h
    · exact Or.inl h
    · exact Or.inr (Or.inl h)
  · simp at hl
  · simp only [List.mem_singleton] at hl
    subst hl
    simp only [List.mem_append] at hb
    rcases hb with (h | h) | h
    · exact Or.inl h
    · exact Or.inr (Or.inr (keyD _ h))
    · exact Or.inr (Or.inl h)
  · simp only [List.mem_append, List.mem_singleton] at hl
    rcases hl with (rfl | hl) | rfl
    · simp only [List.mem_append] at hb
      rcases hb with h | h
      · exact Or.inl h
      · exact Or.inr (Or.inr (keyD _ h))
    · exact Or.inr (Or.inr (key l (List.mem_of_mem_take (List.mem_of_mem_drop hl)) hb))
    · simp only [List.mem_append] at hb
      rcases hb with h | h
      · exact Or.inr (Or.inr (keyD _ h))
      · exact Or.inr (Or.inl h)

theorem mem_applyTextEdit (lines : List GoString) (e : TextEdit) (le : GoString)
    (res : List GoString) (h : ApplyTextEdit lines e le = .ok res) (l : GoString) (b : UInt8)
    (hl : l ∈ res) (hb : b ∈ l) : (∃ l' ∈ lines, b ∈ l') ∨ b ∈ e.NewText := by
  by_cases hs : e.Range.Start.Line < lines.length
  · rw [applyTextEdit_normal lines e le hs] at h
    simp only [Except.ok.injEq] at h
    subst h
    simp only [List.mem_append] at hl
    rcases hl with (hl | hl) | hl
    · exact Or.inl ⟨l, List.mem_of_mem_take hl, hb⟩
    · rcases mem_editMid _ _ _ _ _ hl hb with h | h | h
      · obtain ⟨l', h1, h2⟩ := mem_getD_nil _ _ _ (List.mem_of_mem_take h)
        exact Or.inl ⟨l', h1, h2⟩
      · obtain ⟨l', h1, h2⟩ := mem_getD_nil _ _ _ (List.mem_of_mem_drop h)
        exact Or.inl ⟨l', h1, h2⟩
      · exact Or.inr h
    · exact Or.inl ⟨l, List.mem_of_mem_drop hl, hb⟩
  · unfold ApplyTextEdit at h
    dsimp only at h
    rw [if_pos (by omega)] at h
    simp at h

theorem foldEdits_bytes (P : UInt8 → Prop) (le : GoString) (edits : List TextEdit) :
    ∀ (lines res : List GoString), (∀ l ∈ lines, ∀ b ∈ l, P b) →
      (∀ e ∈ edits, ∀ b ∈ e.NewText, P b) → foldEdits le lines edits = .ok res →
      ∀ l ∈ res, ∀ b ∈ l, P b := by
  induction edits with
  | nil =>
    intro lines res h1 _ h
    simp only [foldEdits, Except.ok.injEq] at h
    subst h; exact h1
  | cons e es ih =>
    intro lines res h1 h2 h
    simp only [foldEdits] at h
    cases ha : ApplyTextEdit lines e le with
    | error err => simp [ha] at h
    | ok mid =>
      simp only [ha] at h
      refine ih mid res ?_ (fun e' he' => h2 e' (List.mem_cons_of_mem _ he')) h
      intro l hl b hb
      rcases mem_applyTextEdit lines e le mid ha l b hl hb with ⟨l', h3, h4⟩ | h3
      · exact h1 l' h3 b h4
      · exact h2 e (List.mem_cons_self _ _) b h3

theorem mem_joinRest (sep : GoString) (lines : List GoString) (b : UInt8)
    (h : b ∈ joinRest sep lines) : b ∈ sep ∨ ∃ l ∈ lines, b ∈ l := by
  induction lines with
  | nil => simp [joinRest] at h
  | cons l ls ih =>
    simp only [joinRest, List.mem_append] at h
    rcases h with (h | h) | h
    · exact Or.inl h
    · exact Or.inr ⟨l, List.mem_cons_self _ _, h⟩
    · rcases ih h with h | ⟨l', h1, h2⟩
      · exact Or.inl h
      · exact Or.inr ⟨l', List.mem_cons_of_mem _ h1, h2⟩

theorem mem_joinLines (sep : GoString) (lines : List GoString) (b : UInt8)
    (h : b ∈ joinLines sep lines) : b ∈ sep ∨ ∃ l ∈ lines, b ∈ l := by
  cases lines with
  | nil => simp [joinLines] at h
  | cons l ls =>
    simp only [joinLines, List.mem_append] at h
    rcases h with h | h
    · exact Or.inr ⟨l, List.mem_cons_self _ _, h⟩
    · rcases mem_joinRest sep ls b h with h | ⟨l', h1, h2⟩
      · exact Or.inl h
      · exact Or.inr ⟨l', List.mem_cons_of_mem _ h1, h2⟩

theorem mem_finishContent (le : GoString) (ends : Bool) (joined : GoString) (b : UInt8)
    (h : b ∈ finishContent le ends joined) : b ∈ joined ∨ b ∈ le := by
  unfold finishContent at h
  split_ifs at h
  · exact List.mem_append.mp h
  · exact Or.inl h

theorem perm_insertionStep {α : Type} (less : α → α → Bool) (x : α) (acc : List α) :
    (insertionStep less x acc).Perm (x :: acc) := by
  induction acc with
  | nil => exact List.Perm.refl _
  | cons y ys ih =>
    simp only [insertionStep]
    split_ifs
    · exact (List.Perm.cons y ih).trans (List.Perm.swap x y ys)
    · exact List.Perm.refl _

theorem perm_foldl_insertionStep {α : Type} (less : α → α → Bool) (xs : List α) :
    ∀ acc : List α, (xs.foldl (fun acc x => insertionStep less x acc) acc).Perm (xs ++ acc) := by
  induction xs with
  | nil => intro acc; exact List.Perm.refl _
  | cons x xs ih =>
    intro acc
    simp only [List.foldl_cons, List.cons_append]
    exact (ih _).trans ((List.Perm.append_left xs (perm_insertionStep less x acc)).trans
      List.perm_middle)

theorem perm_sortSlice {α : Type} (less : α → α → Bool) (xs : List α) :
    (sortSlice less xs).Perm xs := by
  unfold sortSlice
  refine (List.reverse_perm _).trans ?_
  simpa using perm_foldl_insertionStep less xs []

theorem goIndex_none_of_not_mem (sep s : GoString) (b : UInt8) (hb : b ∈ sep) (hs : b ∉ s) :
    goIndex sep s = none := by
  cases h : goIndex sep s with
  | none => rfl
  | some m =>
    exfalso
    have := goIndex_spec sep s m h
    apply hs
    rw [this]
    simp [hb]

theorem detectLineEnding_of_no_CR (s : GoString) (h : (13 : UInt8) ∉ s) :
    goContains s CRLF = false ∧ detectLineEnding s = LF := by
  have : goContains s CRLF = false := by
    unfold goContains
    rw [goIndex_none_of_not_mem CRLF s 13 (by decide) h]
    rfl
  exact ⟨this, by unfold detectLineEnding; simp [this]⟩

theorem newContent_no_CR (content : GoString) (edits : List TextEdit) (data : GoString)
    (hc : (13 : UInt8) ∉ content) (he : ∀ e ∈ edits, (13 : UInt8) ∉ e.NewText)
    (h : newContent content edits = .ok data) : (13 : UInt8) ∉ data := by
  obtain ⟨lines, hfold, hdata⟩ := newContent_ok content edits data h
  have hle := (detectLineEnding_of_no_CR content hc).2
  rw [hle] at hfold hdata
  have hlines : ∀ l ∈ lines, ∀ b ∈ l, b ≠ 13 := by
    refine foldEdits_bytes (fun b => b ≠ 13) LF (sortedEdits edits) _ lines ?_ ?_ hfold
    · intro l hl b hb hb13
      subst hb13
      exact hc (mem_genSplit _ _ _ _ _ hl hb)
    · intro e hemem b hb hb13
      subst hb13
      exact he e ((perm_sortSlice editLess edits).mem_iff.mp hemem) hb
  intro hmem
  rw [hdata] at hmem
  rcases mem_finishContent _ _ _ _ hmem with h1 | h1
  · rcases mem_joinLines _ _ _ h1 with h2 | ⟨l, h2, h3⟩
    · revert h2; decide
    · exact hlines l h2 13 h3 rfl
  · revert h1; decide

/-- C9 (as amended): for every file content that contains no carriage return
and every edit list none of whose `newText` contains a carriage return, if
`ApplyTextEdits` succeeds then the content written contains no carriage
return, hence no "\r\n", and the line ending detected on the output is the
one detected on the input ("\n"). -/
theorem C9_no_carriage_return_introduced (fs : FS) (uri content : GoString)
    (edits : List TextEdit)
    (hr : osReadFile fs (TrimPrefix uri fileScheme) = some content)
    (hc : (13 : UInt8) ∉ content) (he : ∀ e ∈ edits, (13 : UInt8) ∉ e.NewText)
    (hs : (ApplyTextEdits fs uri edits).1 = none) :
    ∃ data,
      (ApplyTextEdits fs uri edits).2.writes =
        fs.writes ++ [(TrimPrefix uri fileScheme, data)] ∧
      osReadFile (ApplyTextEdits fs uri edits).2 (TrimPrefix uri fileScheme) = some data ∧
      (13 : UInt8) ∉ data ∧ goContains data CRLF = false ∧
      detectLineEnding data = detectLineEnding content := by
  obtain ⟨data, hn, hw, hfs⟩ := applyTextEdits_success fs uri edits content hr hs
  obtain ⟨_, h2, h3⟩ := osWriteFile_files fs (TrimPrefix uri fileScheme) data hw
  have hd := newContent_no_CR content edits data hc he hn
  refine ⟨data, by rw [hfs]; exact h3, by rw [hfs]; exact h2, hd,
    (detectLineEnding_of_no_CR data hd).1, ?_⟩
  rw [(detectLineEnding_of_no_CR data hd).2, (detectLineEnding_of_no_CR content hc).2]

/-- C9, witness: inserting "x\ny" at (0,1) in the file "ab\n". -/
theorem C9_no_carriage_return_introduced_witness :
    osReadFile (singleFileFS [97, 98, 10]) (TrimPrefix sampleUri fileScheme)
      = some [97, 98, 10] ∧
    (13 : UInt8) ∉ ([97, 98, 10] : GoString) ∧
    (∀ e ∈ [(⟨⟨⟨0, 1⟩, ⟨0, 1⟩⟩, [120, 10, 121]⟩ : TextEdit)], (13 : UInt8) ∉ e.NewText) ∧
    (ApplyTextEdits (singleFileFS [97, 98, 10]) sampleUri
      [⟨⟨⟨0, 1⟩, ⟨0, 1⟩⟩, [120, 10, 121]⟩]).1 = none ∧
    ∃ data,
      (ApplyTextEdits (singleFileFS [97, 98, 10]) sampleUri
          [⟨⟨⟨0, 1⟩, ⟨0, 1⟩⟩, [120, 10, 121]⟩]).2.writes =
        (singleFileFS [97, 98, 10]).writes ++ [(TrimPrefix sampleUri fileScheme, data)] ∧
      osReadFile
          (ApplyTextEdits (singleFileFS [97, 98, 10]) sampleUri
            [⟨⟨⟨0, 1⟩, ⟨0, 1⟩⟩, [120, 10, 121]⟩]).2
          (TrimPrefix sampleUri fileScheme) = some data ∧
      (13 : UInt8) ∉ data ∧ goContains data CRLF = false ∧
      detectLineEnding data = detectLineEnding [97, 98, 10] :=
  ⟨by decide, by decide, by decide, by decide,
    C9_no_carriage_return_introduced (singleFileFS [97, 98, 10]) sampleUri [97, 98, 10]
      [⟨⟨⟨0, 1⟩, ⟨0, 1⟩⟩, [120, 10, 121]⟩] (by decide) (by decide) (by decide) (by decide)⟩

/-- C9, counterexample: (1) the file "a" contains no "\r\n"; inserting the text
"\r\n" at (0,1) succeeds and writes "a\r\n", on which CRLF is detected.
(2) the file "x\ra\ny" contains no "\r\n"; deleting "a", the range
(0,2)-(0,3), with an empty `newText` succeeds and writes "x\r\ny". -/
theorem C9_counterexample_crlf_created :
    (goContains [97] CRLF = false ∧
      osReadFile (singleFileFS [97]) (TrimPrefix sampleUri fileScheme) = some [97] ∧
      (ApplyTextEdits (singleFileFS [97]) sampleUri [⟨⟨⟨0, 1⟩, ⟨0, 1⟩⟩, [13, 10]⟩]).1 = none ∧
      osReadFile (ApplyTextEdits (singleFileFS [97]) sampleUri [⟨⟨⟨0, 1⟩, ⟨0, 1⟩⟩, [13, 10]⟩]).2
        (TrimPrefix sampleUri fileScheme) = some [97, 13, 10] ∧
      goContains [97, 13, 10] CRLF = true ∧
      detectLineEnding [97, 13, 10] ≠ detectLineEnding [97]) ∧
    (goContains [120, 13, 97, 10, 121] CRLF = false ∧
      osReadFile (singleFileFS [120, 13, 97, 10, 121]) (TrimPrefix sampleUri fileScheme)
        = some [120, 13, 97, 10, 121] ∧
      (ApplyTextEdits (singleFileFS [120, 13, 97, 10, 121]) sampleUri
        [⟨⟨⟨0, 2⟩, ⟨0, 3⟩⟩, []⟩]).1 = none ∧
      osReadFile (ApplyTextEdits (singleFileFS [120, 13, 97, 10, 121]) sampleUri
          [⟨⟨⟨0, 2⟩, ⟨0, 3⟩⟩, []⟩]).2
        (TrimPrefix sampleUri fileScheme) = some [120, 13, 10, 121] ∧
      goContains [120, 13, 10, 121] CRLF = true) := by
  decide

/-! ## C5: the order of the edit list -/

theorem editLess_iff (a b : TextEdit) :
    editLess a b = true ↔ posLt b.Range.Start a.Range.Start := by
  unfold editLess posLt
  split_ifs with h
  · simp only [decide_eq_true_eq]; omega
  · simp only [decide_eq_true_eq]; omega

theorem editLess_eq_false_iff (a b : TextEdit) :
    editLess a b = false ↔ posLe a.Range.Start b.Range.Start := by
  rw [← Bool.not_eq_true, editLess_iff]
  unfold posLe posLt
  omega

theorem pairwise_insertionStep (x : TextEdit) (acc : List TextEdit)
    (h : acc.Pairwise (fun a b => posLe a.Range.Start b.Range.Start)) :
    (insertionStep editLess x acc).Pairwise (fun a b => posLe a.Range.Start b.Range.Start) := by
  induction acc with
  | nil => simp [insertionStep]
  | cons y ys ih =>
    rw [List.pairwise_cons] at h
    simp only [insertionStep]
    by_cases hl : editLess x y = true
    · simp only [hl, if_true]
      rw [List.pairwise_cons]
      refine ⟨?_, ih h.2⟩
      intro z hz
      rcases List.mem_cons.mp ((perm_insertionStep editLess x ys).mem_iff.mp hz) with rfl | hz
      · rw [editLess_iff] at hl
        unfold posLe; unfold posLt at hl; omega
      · exact h.1 z hz
    · have hl' : editLess x y = false := by simpa using hl
      simp only [hl', if_false, Bool.false_eq_true]
      rw [editLess_eq_false_iff] at hl'
      rw [List.pairwise_cons]
      refine ⟨?_, List.pairwise_cons.mpr h⟩
      intro z hz
      rcases List.mem_cons.mp hz with rfl | hz
      · exact hl'
      · have := h.1 z hz
        unfold posLe at this hl' ⊢
        omega

theorem pairwise_foldl_insertionStep (xs : List TextEdit) :
    ∀ acc : List TextEdit, acc.Pairwise (fun a b => posLe a.Range.Start b.Range.Start) →
      (xs.foldl (fun acc x => insertionStep editLess x acc) acc).Pairwise
        (fun a b => posLe a.Range.Start b.Range.Start) := by
  induction xs with
  | nil => intro acc h; exact h
  | cons x xs ih =>
    intro acc h
    exact ih _ (pairwise_insertionStep x acc h)

theorem sortedEdits_pairwise (edits : List TextEdit) :
    (sortedEdits edits).Pairwise (fun a b => posLe b.Range.Start a.Range.Start) := by
  unfold sortedEdits sortSlice
  rw [List.pairwise_reverse]
  exact pairwise_foldl_insertionStep edits [] List.Pairwise.nil

theorem starts_ne_of_not_overlap (a b : TextEdit) (ha : wellFormed a.Range)
    (hb : wellFormed b.Range) (h : RangesOverlap a.Range b.Range = false) :
    a.Range.Start ≠ b.Range.Start := by
  intro he
  rw [rangesOverlap_eq_false_iff] at h
  unfold wellFormed posLe at ha hb
  unfold posLt at h
  rw [he] at ha h
  omega

theorem sortedEdits_strict (edits : List TextEdit) (hwf : ∀ e ∈ edits, wellFormed e.Range)
    (hno : edits.Pairwise (fun a b => RangesOverlap a.Range b.Range = false)) :
    (sortedEdits edits).Pairwise startsDescending := by
  have hne : edits.Pairwise (fun a b => a.Range.Start ≠ b.Range.Start) := by
    refine (List.Pairwise.and_mem.mp hno).imp ?_
    rintro a b ⟨ha, hb, h⟩
    exact starts_ne_of_not_overlap a b (hwf a ha) (hwf b hb) h
  have hne2 : (sortedEdits edits).Pairwise (fun a b => a.Range.Start ≠ b.Range.Start) :=
    hne.perm (perm_sortSlice editLess edits).symm (fun h => h.symm)
  refine ((sortedEdits_pairwise edits).and hne2).imp ?_
  rintro a b ⟨h1, h2⟩
  unfold startsDescending posLt
  unfold posLe at h1
  have : ¬ (b.Range.Start.Line = a.Range.Start.Line ∧
      b.Range.Start.Character = a.Range.Start.Character) := by
    rintro ⟨h3, h4⟩
    apply h2
    cases hA : a.Range.Start; cases hB : b.Range.Start
    rw [hA, hB] at h3 h4
    simp only at h3 h4
    rw [h3, h4]
  omega

theorem sortedEdits_perm_eq (edits1 edits2 : List TextEdit) (hp : edits1.Perm edits2)
    (hwf : ∀ e ∈ edits1, wellFormed e.Range)
    (hno : edits1.Pairwise (fun a b => RangesOverlap a.Range b.Range = false)) :
    edits2.Pairwise (fun a b => RangesOverlap a.Range b.Range = false) ∧
    sortedEdits edits1 = sortedEdits edits2 := by
  have hno2 : edits2.Pairwise (fun a b => RangesOverlap a.Range b.Range = false) :=
    hno.perm hp (fun h => by rw [rangesOverlap_comm]; exact h)
  have hwf2 : ∀ e ∈ edits2, wellFormed e.Range := fun e he => hwf e (hp.mem_iff.mpr he)
  refine ⟨hno2, ?_⟩
  have hperm : (sortedEdits edits1).Perm (sortedEdits edits2) :=
    ((perm_sortSlice editLess edits1).trans hp).trans (perm_sortSlice editLess edits2).symm
  exact List.eq_of_perm_of_sorted hperm (sortedEdits_strict edits1 hwf hno)
    (sortedEdits_strict edits2 hwf2 hno2)

/-- Any arrangement of well-formed, pairwise non-overlapping edits that a
correct sort with the comparison `editLess` may return (a permutation in
which no edit is less than an earlier one) is the list `sortedEdits`: on such
edit lists the result of `sort.Slice` does not depend on the sorting
algorithm. -/
theorem sortedEdits_unique (edits l : List TextEdit) (hp : l.Perm edits)
    (hs : l.Pairwise (fun a b => editLess b a = false))
    (hwf : ∀ e ∈ edits, wellFormed e.Range)
    (hno : edits.Pairwise (fun a b => RangesOverlap a.Range b.Range = false)) :
    l = sortedEdits edits := by
  have hne : edits.Pairwise (fun a b => a.Range.Start ≠ b.Range.Start) := by
    refine (List.Pairwise.and_mem.mp hno).imp ?_
    rintro a b ⟨ha, hb, h⟩
    exact starts_ne_of_not_overlap a b (hwf a ha) (hwf b hb) h
  have hne2 : l.Pairwise (fun a b => a.Range.Start ≠ b.Range.Start) :=
    hne.perm hp.symm (fun h => h.symm)
  have hstrict : l.Pairwise startsDescending := by
    refine (hs.and hne2).imp ?_
    rintro a b ⟨h1, h2⟩
    rw [editLess_eq_false_iff] at h1
    unfold startsDescending posLt
    unfold posLe at h1
    have : ¬ (b.Range.Start.Line = a.Range.Start.Line ∧
        b.Range.Start.Character = a.Range.Start.Character) := by
      rintro ⟨h3, h4⟩
      apply h2
      cases hA : a.Range.Start; cases hB : b.Range.Start
      rw [hA, hB] at h3 h4
      simp only at h3 h4
      rw [h3, h4]
    omega
  exact List.eq_of_perm_of_sorted (hp.trans (perm_sortSlice editLess edits).symm) hstrict
    (sortedEdits_strict edits hwf hno)

/-- C5 (as amended): for every filesystem and file, and every two edit lists
that are permutations of one another, whose ranges are all well formed
(start <= end) and in which no two edits overlap (per `RangesOverlap`),
`ApplyTextEdits` has the same outcome for both lists: the same error, or
success with identical content written. -/
theorem C5_order_independent (fs : FS) (uri : GoString) (edits1 edits2 : List TextEdit)
    (hp : edits1.Perm edits2) (hwf : ∀ e ∈ edits1, wellFormed e.Range)
    (hno : edits1.Pairwise (fun a b => RangesOverlap a.Range b.Range = false)) :
    ApplyTextEdits fs uri edits1 = ApplyTextEdits fs uri edits2 := by
  obtain ⟨hno2, hs⟩ := sortedEdits_perm_eq edits1 edits2 hp hwf hno
  have h1 := (findOverlap_none 0 edits1).mpr hno
  have h2 := (findOverlap_none 0 edits2).mpr hno2
  have hn : ∀ content, newContent content edits1 = newContent content edits2 := by
    intro content
    unfold newContent
    simp only [h1, h2, hs]
  unfold ApplyTextEdits
  simp only [hn]

/-- C5, witness: replacing "a" by "x" and "d" by "y" in the file "abc\ndef", in
either order. -/
theorem C5_order_independent_witness :
    [(⟨⟨⟨0, 0⟩, ⟨0, 1⟩⟩, [120]⟩ : TextEdit), ⟨⟨⟨1, 0⟩, ⟨1, 1⟩⟩, [121]⟩].Perm
      [⟨⟨⟨1, 0⟩, ⟨1, 1⟩⟩, [121]⟩, ⟨⟨⟨0, 0⟩, ⟨0, 1⟩⟩, [120]⟩] ∧
    (∀ e ∈ [(⟨⟨⟨0, 0⟩, ⟨0, 1⟩⟩, [120]⟩ : TextEdit), ⟨⟨⟨1, 0⟩, ⟨1, 1⟩⟩, [121]⟩],
      wellFormed e.Range) ∧
    [(⟨⟨⟨0, 0⟩, ⟨0, 1⟩⟩, [120]⟩ : TextEdit), ⟨⟨⟨1, 0⟩, ⟨1, 1⟩⟩, [121]⟩].Pairwise
      (fun a b => RangesOverlap a.Range b.Range = false) ∧
    ApplyTextEdits (singleFileFS [97, 98, 99, 10, 100, 101, 102]) sampleUri
        [⟨⟨⟨0, 0⟩, ⟨0, 1⟩⟩, [120]⟩, ⟨⟨⟨1, 0⟩, ⟨1, 1⟩⟩, [121]⟩] =
      ApplyTextEdits (singleFileFS [97, 98, 99, 10, 100, 101, 102]) sampleUri
        [⟨⟨⟨1, 0⟩, ⟨1, 1⟩⟩, [121]⟩, ⟨⟨⟨0, 0⟩, ⟨0, 1⟩⟩, [120]⟩] :=
  ⟨List.Perm.swap _ _ _, by decide, by decide,
    C5_order_independent (singleFileFS [97, 98, 99, 10, 100, 101, 102]) sampleUri
      [⟨⟨⟨0, 0⟩, ⟨0, 1⟩⟩, [120]⟩, ⟨⟨⟨1, 0⟩, ⟨1, 1⟩⟩, [121]⟩]
      [⟨⟨⟨1, 0⟩, ⟨1, 1⟩⟩, [121]⟩, ⟨⟨⟨0, 0⟩, ⟨0, 1⟩⟩, [120]⟩]
      (List.Perm.swap _ _ _) (by decide) (by decide)⟩

/-- C5, counterexample: on the file "abc\ndef" the edits A = (1,1)-(0,0) "X" and
B = (1,1)-(0,0) "Y" do not overlap per `RangesOverlap` (each starts on line 1,
after the other ends on line 0).  They have the same start, so the sort keeps
them in the order given: the list [A, B] writes "abc\ndYabc\ndXabc\ndef" and
its permutation [B, A] writes "abc\ndXabc\ndYabc\ndef". -/
theorem C5_counterexample_same_start :
    [(⟨⟨⟨1, 1⟩, ⟨0, 0⟩⟩, [88]⟩ : TextEdit), ⟨⟨⟨1, 1⟩, ⟨0, 0⟩⟩, [89]⟩].Perm
      [⟨⟨⟨1, 1⟩, ⟨0, 0⟩⟩, [89]⟩, ⟨⟨⟨1, 1⟩, ⟨0, 0⟩⟩, [88]⟩] ∧
    [(⟨⟨⟨1, 1⟩, ⟨0, 0⟩⟩, [88]⟩ : TextEdit), ⟨⟨⟨1, 1⟩, ⟨0, 0⟩⟩, [89]⟩].Pairwise
      (fun a b => RangesOverlap a.Range b.Range = false) ∧
    [(⟨⟨⟨1, 1⟩, ⟨0, 0⟩⟩, [89]⟩ : TextEdit), ⟨⟨⟨1, 1⟩, ⟨0, 0⟩⟩, [88]⟩].Pairwise
      (fun a b => RangesOverlap a.Range b.Range = false) ∧
    (ApplyTextEdits (singleFileFS [97, 98, 99, 10, 100, 101, 102]) sampleUri
      [⟨⟨⟨1, 1⟩, ⟨0, 0⟩⟩, [88]⟩, ⟨⟨⟨1, 1⟩, ⟨0, 0⟩⟩, [89]⟩]).1 = none ∧
    osReadFile (ApplyTextEdits (singleFileFS [97, 98, 99, 10, 100, 101, 102]) sampleUri
        [⟨⟨⟨1, 1⟩, ⟨0, 0⟩⟩, [88]⟩, ⟨⟨⟨1, 1⟩, ⟨0, 0⟩⟩, [89]⟩]).2
      (TrimPrefix sampleUri fileScheme) =
      some [97, 98, 99, 10, 100, 89, 97, 98, 99, 10, 100, 88, 97, 98, 99, 10, 100, 101, 102] ∧
    (ApplyTextEdits (singleFileFS [97, 98, 99, 10, 100, 101, 102]) sampleUri
      [⟨⟨⟨1, 1⟩, ⟨0, 0⟩⟩, [89]⟩, ⟨⟨⟨1, 1⟩, ⟨0, 0⟩⟩, [88]⟩]).1 = none ∧
    osReadFile (ApplyTextEdits (singleFileFS [97, 98, 99, 10, 100, 101, 102]) sampleUri
        [⟨⟨⟨1, 1⟩, ⟨0, 0⟩⟩, [89]⟩, ⟨⟨⟨1, 1⟩, ⟨0, 0⟩⟩, [88]⟩]).2
      (TrimPrefix sampleUri fileScheme) =
      some [97, 98, 99, 10, 100, 88, 97, 98, 99, 10, 100, 89, 97, 98, 99, 10, 100, 101, 102] :=
  ⟨List.Perm.swap _ _ _, by decide, by decide, by decide, by decide, by decide, by decide⟩

/-! ## Splitting joined lines -/

theorem goIndex_nil_of_ne (sep : GoString) (h : sep ≠ []) : goIndex sep [] = none := by
  simp [goIndex, h]

theorem goIndex_take_none (sep : GoString) (hsep : sep ≠ []) :
    ∀ (s : GoString) (m : Nat), goIndex sep s = some m → goIndex sep (s.take m) = none := by
  intro s
  induction s with
  | nil => intro m h; simp [goIndex, hsep] at h
  | cons c cs ih =>
    intro m h
    simp only [goIndex] at h
    by_cases hp : sep.isPrefixOf (c :: cs) = true
    · simp only [hp, if_true, Option.some.injEq] at h
      subst h
      simpa using goIndex_nil_of_ne sep hsep
    · simp only [hp, if_false, Bool.false_eq_true] at h
      cases hk : goIndex sep cs with
      | none => simp [hk] at h
      | some k =>
        simp only [hk, Option.map_some', Option.some.injEq] at h
        subst h
        simp only [List.take_succ_cons, goIndex]
        have hp2 : ¬ (sep.isPrefixOf (c :: List.take k cs) = true) := by
          intro h2
          apply hp
          rw [List.isPrefixOf_iff_prefix] at h2 ⊢
          exact h2.trans ((List.prefix_cons_inj c).mpr (List.take_prefix k cs))
        simp only [hp2, if_false, Bool.false_eq_true, ih k hk, Option.map_none']

theorem goIndex_bound (sep s : GoString) (m : Nat) (hsep : sep ≠ [])
    (h : goIndex sep s = some m) : m + sep.length ≤ s.length := by
  have h1 := congrArg List.length (goIndex_spec sep s m h)
  simp only [List.length_append, List.length_take, List.length_drop] at h1
  have hpos : 0 < sep.length := List.length_pos.mpr hsep
  omega

theorem genSplit_pieces_none (sep : GoString) (hsep : sep ≠ []) :
    ∀ (n : Nat) (s : GoString), s.length ≤ n → ∀ l ∈ genSplit sep n s, goIndex sep l = none := by
  intro n
  induction n with
  | zero =>
    intro s hs l hl
    simp only [genSplit, List.mem_singleton] at hl
    subst hl
    have : l = [] := List.length_eq_zero.mp (by omega)
    subst this
    exact goIndex_nil_of_ne sep hsep
  | succ n ih =>
    intro s hs l hl
    simp only [genSplit] at hl
    cases hi : goIndex sep s with
    | none =>
      simp only [hi, List.mem_singleton] at hl
      subst hl; exact hi
    | some m =>
      simp only [hi, List.mem_cons] at hl
      have hb := goIndex_bound sep s m hsep hi
      have hpos : 0 < sep.length := List.length_pos.mpr hsep
      rcases hl with rfl | hl
      · exact goIndex_take_none sep hsep s m hi
      · refine ih _ ?_ l hl
        simp only [List.length_drop]
        omega

theorem Split_pieces_none (s sep : GoString) (hsep : sep ≠ []) :
    ∀ l ∈ Split s sep, goIndex sep l = none :=
  genSplit_pieces_none sep hsep _ s (le_refl _)
theorem goIndex_cons_none (sep : GoString) (c : UInt8) (cs : GoString) :
    goIndex sep (c :: cs) = none ↔ sep.isPrefixOf (c :: cs) = false ∧ goIndex sep cs = none := by
  simp only [goIndex]
  cases hp : sep.isPrefixOf (c :: cs) with
  | true => simp
  | false => simp

theorem isPrefixOf_LF (c : UInt8) (cs : GoString) :
    LF.isPrefixOf (c :: cs) = (10 == c) := by
  simp only [LF, List.isPrefixOf, Bool.and_true]

theorem isPrefixOf_CRLF (c d : UInt8) (cs : GoString) :
    CRLF.isPrefixOf (c :: d :: cs) = (13 == c && 10 == d) := by
  simp only [CRLF, List.isPrefixOf, Bool.and_true]

theorem isPrefixOf_CRLF_single (c : UInt8) : CRLF.isPrefixOf [c] = false := by
  simp only [CRLF, List.isPrefixOf, Bool.and_false]

theorem goIndex_append_sep (sep : GoString) (hsep : sep = LF ∨ sep = CRLF) (x : GoString) :
    ∀ l : GoString, goIndex sep l = none → goIndex sep (l ++ sep ++ x) = some l.length := by
  intro l
  induction l with
  | nil =>
    intro _
    rcases hsep with rfl | rfl
    · show goIndex LF (10 :: x) = some 0
      rw [goIndex, isPrefixOf_LF]; rfl
    · show goIndex CRLF (13 :: 10 :: x) = some 0
      rw [goIndex, isPrefixOf_CRLF]; rfl
  | cons c l ih =>
    intro h
    rw [goIndex_cons_none] at h
    obtain ⟨hp, hl⟩ := h
    have hp2 : sep.isPrefixOf (c :: (l ++ sep ++ x)) = false := by
      rcases hsep with rfl | rfl
      · rw [isPrefixOf_LF] at hp ⊢; exact hp
      · cases l with
        | nil =>
          show CRLF.isPrefixOf (c :: 13 :: 10 :: x) = false
          rw [isPrefixOf_CRLF]
          simp
        | cons d l =>
          simp only [List.cons_append] at hp ⊢
          rw [isPrefixOf_CRLF] at hp ⊢; exact hp
    simp only [List.cons_append, List.append_assoc] at hp2 ⊢
    simp only [goIndex, hp2, if_false, Bool.false_eq_true]
    have := ih hl
    simp only [List.append_assoc] at this
    rw [this]
    rfl

theorem lineEnding_ne_nil (sep : GoString) (hsep : sep = LF ∨ sep = CRLF) : sep ≠ [] := by
  rcases hsep with rfl | rfl <;> decide

theorem genSplit_joinLines (sep : GoString) (hsep : sep = LF ∨ sep = CRLF) :
    ∀ (ls : List GoString) (l0 : GoString) (n : Nat),
      (∀ l ∈ l0 :: ls, goIndex sep l = none) → (joinLines sep (l0 :: ls)).length ≤ n →
      genSplit sep n (joinLines sep (l0 :: ls)) = l0 :: ls := by
  intro ls
  induction ls with
  | nil =>
    intro l0 n hns _
    have h0 : goIndex sep l0 = none := hns l0 (List.mem_cons_self _ _)
    have e : joinLines sep [l0] = l0 := by simp [joinLines, joinRest]
    rw [e]
    cases n with
    | zero => rfl
    | succ n => simp only [genSplit, h0]
  | cons l1 ls ih =>
    intro l0 n hns hn
    have h0 : goIndex sep l0 = none := hns l0 (List.mem_cons_self _ _)
    have e : joinLines sep (l0 :: l1 :: ls) = l0 ++ sep ++ joinLines sep (l1 :: ls) := by
      simp [joinLines, joinRest]
    rw [e] at hn ⊢
    have hpos : 0 < sep.length := List.length_pos.mpr (lineEnding_ne_nil sep hsep)
    simp only [List.length_append] at hn
    cases n with
    | zero => omega
    | succ n =>
      simp only [genSplit, goIndex_append_sep sep hsep _ l0 h0]
      have e1 : List.take l0.length (l0 ++ sep ++ joinLines sep (l1 :: ls)) = l0 := by
        rw [List.append_assoc, List.take_left]
      have e2 : List.drop (l0.length + sep.length) (l0 ++ sep ++ joinLines sep (l1 :: ls))
          = joinLines sep (l1 :: ls) := by
        rw [← List.length_append, List.drop_left]
      rw [e1, e2, ih l1 n (fun l hl => hns l (List.mem_cons_of_mem _ hl)) (by omega)]

theorem Split_joinLines (sep : GoString) (hsep : sep = LF ∨ sep = CRLF) (ls : List GoString)
    (hne : ls ≠ []) (hns : ∀ l ∈ ls, goIndex sep l = none) :
    Split (joinLines sep ls) sep = ls := by
  obtain ⟨l0, rest, rfl⟩ := List.exists_cons_of_ne_nil hne
  exact genSplit_joinLines sep hsep rest l0 _ hns (le_refl _)

theorem goIndex_append_ne_none (sep b : GoString) :
    ∀ a : GoString, goIndex sep (a ++ sep ++ b) ≠ none := by
  intro a
  induction a with
  | nil =>
    cases hs : sep ++ b with
    | nil =>
      have : sep = [] := (List.append_eq_nil.mp hs).1
      subst this
      simp [goIndex, hs]
    | cons c r =>
      simp only [List.nil_append, hs, goIndex]
      have : sep.isPrefixOf (c :: r) = true := by
        rw [List.isPrefixOf_iff_prefix, ← hs]; exact List.prefix_append _ _
      simp [this]
  | cons c a ih =>
    simp only [List.cons_append, List.append_assoc, goIndex]
    split_ifs
    · simp
    · simp only [List.append_assoc] at ih
      simpa using ih

theorem hasSuffix_iff_reverse (s suf : GoString) :
    HasSuffix s suf = true ↔ suf.reverse <+: s.reverse := by
  rw [List.reverse_prefix, List.suffix_iff_eq_drop]
  unfold HasSuffix
  simp only [Bool.and_eq_true, decide_eq_true_eq]
  constructor
  · rintro ⟨_, h⟩; exact h.symm
  · intro h
    refine ⟨?_, h.symm⟩
    have := congrArg List.length h
    simp only [List.length_drop] at this
    omega

theorem joinLead_concat (sep : GoString) (init : List GoString) (z : GoString) :
    joinLead sep (init ++ [z]) = joinLead sep init ++ z ++ sep := by
  induction init with
  | nil => simp [joinLead]
  | cons a init ih => simp [joinLead, ih, List.append_assoc]

theorem newContent_single (content : GoString) (e : TextEdit) (res : List GoString)
    (h : ApplyTextEdit (Split content (detectLineEnding content)) e (detectLineEnding content)
      = .ok res) :
    newContent content [e] = .ok (finishContent (detectLineEnding content)
      (endsWithNewline content) (joinLines (detectLineEnding content) res)) := by
  unfold newContent
  simp only [findOverlap, firstOverlapFrom, sortedEdits, sortSlice, List.foldl_cons,
    List.foldl_nil, insertionStep, List.reverse_cons, List.reverse_nil, List.nil_append,
    foldEdits, h]

theorem applyTextEdit_at (A B : List GoString) (X : GoString) (c1 c2 : Nat)
    (hc1 : c1 ≤ X.length) (hc2 : c2 ≤ X.length) (t le : GoString) :
    ApplyTextEdit (A ++ X :: B) ⟨⟨⟨A.length, c1⟩, ⟨A.length, c2⟩⟩, t⟩ le =
      .ok (A ++ editMid (X.take c1) (X.drop c2) t ++ B) := by
  have hg : (A ++ X :: B).getD A.length [] = X := by
    rw [List.getD_append_right _ _ _ _ (le_refl _)]; simp
  rw [applyTextEdit_inBounds]
  · simp only [hg]
    rw [List.take_left, show A.length + 1 = (A ++ [X]).length by simp,
      show A ++ X :: B = (A ++ [X]) ++ B by simp, List.drop_left]
  · refine ⟨⟨?_, ?_⟩, ?_, ?_⟩
    · simp
    · simp only [hg]; exact hc1
    · simp
    · simp only [hg]; exact hc2

theorem Split_no_newline (t : GoString) (h10 : (10 : UInt8) ∉ t) : Split t LF = [t] := by
  have : goIndex LF t = none := goIndex_none_of_not_mem LF t 10 (by decide) h10
  unfold Split
  cases t.length with
  | zero => rfl
  | succ n => simp only [genSplit, this]

theorem editMid_single_line (pfx sfx t : GoString) (ht : t ≠ []) (h10 : (10 : UInt8) ∉ t) :
    editMid pfx sfx t = [pfx ++ t ++ sfx] := by
  unfold editMid
  rw [if_neg ht]
  simp [Split_no_newline t h10]

theorem editMid_delete (pfx sfx : GoString) (h : pfx ++ sfx ≠ []) :
    editMid pfx sfx [] = [pfx ++ sfx] := by
  unfold editMid
  simp [h]

theorem getD_last_concat (init : List GoString) (last : GoString) :
    (init ++ [last]).getD ((init ++ [last]).length - 1) [] = last := by
  simp

theorem detectLineEnding_cases (content : GoString) :
    detectLineEnding content = LF ∨ detectLineEnding content = CRLF := by
  unfold detectLineEnding
  split_ifs
  · exact Or.inr rfl
  · exact Or.inl rfl

theorem finishContent_of_imp (le : GoString) (ends : Bool) (joined : GoString)
    (h : ends = true → HasSuffix joined le = true) : finishContent le ends joined = joined := by
  unfold finishContent
  cases ends with
  | false => simp
  | true => simp [h rfl]

theorem applyTextEdits_of_ok (fs : FS) (uri content data : GoString) (edits : List TextEdit)
    (hr : osReadFile fs (TrimPrefix uri fileScheme) = some content)
    (hw : fs.writable (TrimPrefix uri fileScheme) = true)
    (hn : newContent content edits = .ok data) :
    ApplyTextEdits fs uri edits = (none, (osWriteFile fs (TrimPrefix uri fileScheme) data).2) := by
  unfold ApplyTextEdits
  simp only [hr, hn]
  rw [(osWriteFile_files fs (TrimPrefix uri fileScheme) data hw).1]

theorem osWriteFile_writable (fs : FS) (path data : GoString) :
    (osWriteFile fs path data).2.writable = fs.writable := by
  unfold osWriteFile
  split_ifs <;> rfl

/-! ## C11, C12, C13: the shape of the result of `ApplyTextEdit` -/

theorem not_mem_of_goIndex_LF_none (s : GoString) (h : goIndex LF s = none) :
    (10 : UInt8) ∉ s := by
  induction s with
  | nil => simp
  | cons c cs ih =>
    rw [goIndex_cons_none, isPrefixOf_LF] at h
    obtain ⟨h1, h2⟩ := h
    simp only [List.mem_cons, not_or]
    exact ⟨by simpa using h1, ih h2⟩

theorem length_genSplit_LF : ∀ (n : Nat) (s : GoString), s.length ≤ n →
    (genSplit LF n s).length = s.count 10 + 1 := by
  intro n
  induction n with
  | zero =>
    intro s hs
    have : s = [] := List.length_eq_zero.mp (by omega)
    subst this
    rfl
  | succ n ih =>
    intro s hs
    simp only [genSplit]
    cases hi : goIndex LF s with
    | none =>
      have := not_mem_of_goIndex_LF_none s hi
      simp [List.count_eq_zero_of_not_mem this]
    | some m =>
      have hb := goIndex_bound LF s m (by decide) hi
      have hspec := goIndex_spec LF s m hi
      have htake := not_mem_of_goIndex_LF_none _ (goIndex_take_none LF (by decide) s m hi)
      have hlen : (List.drop (m + LF.length) s).length ≤ n := by
        simp only [List.length_drop]
        have : LF.length = 1 := rfl
        omega
      simp only [List.length_cons, ih _ hlen]
      conv_rhs => rw [hspec]
      simp only [List.count_append, List.count_eq_zero_of_not_mem htake]
      have : List.count (10 : UInt8) LF = 1 := by decide
      omega

theorem length_Split_LF (t : GoString) : (Split t LF).length = t.count 10 + 1 :=
  length_genSplit_LF _ t (le_refl _)

theorem editMid_multi_line (pfx sfx t : GoString) (h : (10 : UInt8) ∈ t) :
    editMid pfx sfx t = [pfx ++ (Split t LF).getD 0 []] ++
      ((Split t LF).take ((Split t LF).length - 1)).drop 1 ++
      [(Split t LF).getD ((Split t LF).length - 1) [] ++ sfx] := by
  have hne : t ≠ [] := List.ne_nil_of_mem h
  have hc : 0 < t.count 10 := List.count_pos_iff.mpr h
  have hl := length_Split_LF t
  unfold editMid
  rw [if_neg hne]
  dsimp only
  rw [if_neg (by omega)]

/-- C11: for every line array and every in-bounds edit whose `newText` is
non-empty and contains no "\n", `ApplyTextEdit` returns the lines before the
start line, then the one line made of the start line up to the start
character, `newText`, and the end line from the end character on, then the
lines after the end line; in particular ["abc", "def"] with the range
(0,1)-(0,2) and `newText` "X" gives ["aXc", "def"].  (Well-formedness of the
range is not needed.) -/
theorem C11_single_line_replacement (lines : List GoString) (edit : TextEdit)
    (lineEnding : GoString) (hb : inBounds lines edit.Range)
    (hne : edit.NewText ≠ []) (h10 : (10 : UInt8) ∉ edit.NewText) :
    ApplyTextEdit lines edit lineEnding = .ok
      (lines.take edit.Range.Start.Line ++
        [(lines.getD edit.Range.Start.Line []).take edit.Range.Start.Character ++
          edit.NewText ++
          (lines.getD edit.Range.End.Line []).drop edit.Range.End.Character] ++
        lines.drop (edit.Range.End.Line + 1)) ∧
    ApplyTextEdit [[97, 98, 99], [100, 101, 102]] ⟨⟨⟨0, 1⟩, ⟨0, 2⟩⟩, [88]⟩ LF =
      .ok [[97, 88, 99], [100, 101, 102]] := by
  refine ⟨?_, by decide⟩
  rw [applyTextEdit_inBounds lines edit lineEnding hb, editMid_single_line _ _ _ hne h10]

/-- C11, witness: replacing the line break between "abc" and "def" by "-". -/
theorem C11_single_line_replacement_witness :
    inBounds [[97, 98, 99], [100, 101, 102]] ⟨⟨0, 3⟩, ⟨1, 0⟩⟩ ∧
    ([45] : GoString) ≠ [] ∧ (10 : UInt8) ∉ ([45] : GoString) ∧
    ApplyTextEdit [[97, 98, 99], [100, 101, 102]] ⟨⟨⟨0, 3⟩, ⟨1, 0⟩⟩, [45]⟩ LF = .ok
      (List.take 0 [[97, 98, 99], [100, 101, 102]] ++
        [(List.getD [[97, 98, 99], [100, 101, 102]] 0 []).take 3 ++ [45] ++
          (List.getD [[97, 98, 99], [100, 101, 102]] 1 []).drop 0] ++
        List.drop (1 + 1) [[97, 98, 99], [100, 101, 102]]) :=
  ⟨by decide, by decide, by decide,
    (C11_single_line_replacement [[97, 98, 99], [100, 101, 102]] ⟨⟨⟨0, 3⟩, ⟨1, 0⟩⟩, [45]⟩ LF
      (by decide) (by decide) (by decide)).1⟩

/-- C12: for every line array and every in-bounds, well-formed edit whose
`newText` contains at least one "\n", with `newLines` the split of `newText` on
"\n", `ApplyTextEdit` returns the lines before the start line, then the kept
head of the start line followed by `newLines[0]`, then the interior new lines
verbatim, then `newLines[last]` followed by the kept tail of the end line, then
the lines after the end line, in every case; the result has
`len(lines) - (endLine - startLine)` plus the number of "\n" in `newText`
lines; in particular ["one", "two", "three"] with the range (1,0)-(1,3) and
`newText` "a\nb" gives ["one", "a", "b", "three"]. -/
theorem C12_multi_line_replacement (lines : List GoString) (edit : TextEdit)
    (lineEnding : GoString) (hb : inBounds lines edit.Range) (hwf : wellFormed edit.Range)
    (h10 : (10 : UInt8) ∈ edit.NewText) :
    (∃ res, ApplyTextEdit lines edit lineEnding = .ok res ∧
      res = lines.take edit.Range.Start.Line ++
        [(lines.getD edit.Range.Start.Line []).take edit.Range.Start.Character ++
          (Split edit.NewText LF).getD 0 []] ++
        ((Split edit.NewText LF).take ((Split edit.NewText LF).length - 1)).drop 1 ++
        [(Split edit.NewText LF).getD ((Split edit.NewText LF).length - 1) [] ++
          (lines.getD edit.Range.End.Line []).drop edit.Range.End.Character] ++
        lines.drop (edit.Range.End.Line + 1) ∧
      res.length = lines.length - (edit.Range.End.Line - edit.Range.Start.Line) +
        edit.NewText.count 10) ∧
    ApplyTextEdit [[111, 110, 101], [116, 119, 111], [116, 104, 114, 101, 101]]
        ⟨⟨⟨1, 0⟩, ⟨1, 3⟩⟩, [97, 10, 98]⟩ LF =
      .ok [[111, 110, 101], [97], [98], [116, 104, 114, 101, 101]] := by
  refine ⟨?_, by decide⟩
  refine ⟨_, applyTextEdit_inBounds lines edit lineEnding hb, ?_, ?_⟩
  · rw [editMid_multi_line _ _ _ h10]
    simp only [List.append_assoc]
  · rw [editMid_multi_line _ _ _ h10]
    have hc : 0 < edit.NewText.count 10 := List.count_pos_iff.mpr h10
    have hl := length_Split_LF edit.NewText
    obtain ⟨⟨h1, _⟩, h3, _⟩ := hb
    have hle : edit.Range.Start.Line ≤ edit.Range.End.Line := by
      unfold wellFormed posLe at hwf; omega
    simp only [List.length_append, List.length_take, List.length_drop, List.length_cons,
      List.length_nil]
    omega

/-- C12, witness: replacing "c\nd" by "1\n2\n3" in ["abc", "def"], an edit that
spans two lines and ends on the last one. -/
theorem C12_multi_line_replacement_witness :
    inBounds [[97, 98, 99], [100, 101, 102]] ⟨⟨0, 2⟩, ⟨1, 1⟩⟩ ∧
    wellFormed ⟨⟨0, 2⟩, ⟨1, 1⟩⟩ ∧
    (10 : UInt8) ∈ ([49, 10, 50, 10, 51] : GoString) ∧
    ∃ res, ApplyTextEdit [[97, 98, 99], [100, 101, 102]]
        ⟨⟨⟨0, 2⟩, ⟨1, 1⟩⟩, [49, 10, 50, 10, 51]⟩ LF = .ok res ∧
      res = List.take 0 [[97, 98, 99], [100, 101, 102]] ++
        [(List.getD [[97, 98, 99], [100, 101, 102]] 0 []).take 2 ++
          (Split [49, 10, 50, 10, 51] LF).getD 0 []] ++
        ((Split [49, 10, 50, 10, 51] LF).take
          ((Split [49, 10, 50, 10, 51] LF).length - 1)).drop 1 ++
        [(Split [49, 10, 50, 10, 51] LF).getD ((Split [49, 10, 50, 10, 51] LF).length - 1) [] ++
          (List.getD [[97, 98, 99], [100, 101, 102]] 1 []).drop 1] ++
        List.drop (1 + 1) [[97, 98, 99], [100, 101, 102]] ∧
      res.length = [[97, 98, 99], [100, 101, 102]].length - (1 - 0) +
        List.count 10 [49, 10, 50, 10, 51] :=
  ⟨by decide, by decide, by decide,
    (C12_multi_line_replacement [[97, 98, 99], [100, 101, 102]]
      ⟨⟨⟨0, 2⟩, ⟨1, 1⟩⟩, [49, 10, 50, 10, 51]⟩ LF (by decide) (by decide) (by decide)).1⟩

/-- C13: for every line array and every in-bounds edit with empty `newText`,
`ApplyTextEdit` returns the lines before the start line, then the single line
made of the kept head of the start line and the kept tail of the end line if
that string is non-empty and no line at all if it is empty, then the lines
after the end line; in particular ["abc", "def"] with the range (0,3)-(1,0)
gives ["abcdef"].  (Well-formedness of the range is not needed.) -/
theorem C13_deletion (lines : List GoString) (edit : TextEdit) (lineEnding : GoString)
    (hb : inBounds lines edit.Range) (hnt : edit.NewText = []) :
    ApplyTextEdit lines edit lineEnding = .ok
      (lines.take edit.Range.Start.Line ++
        (if (lines.getD edit.Range.Start.Line []).take edit.Range.Start.Character ++
            (lines.getD edit.Range.End.Line []).drop edit.Range.End.Character ≠ []
          then [(lines.getD edit.Range.Start.Line []).take edit.Range.Start.Character ++
            (lines.getD edit.Range.End.Line []).drop edit.Range.End.Character]
          else []) ++
        lines.drop (edit.Range.End.Line + 1)) ∧
    ApplyTextEdit [[97, 98, 99], [100, 101, 102]] ⟨⟨⟨0, 3⟩, ⟨1, 0⟩⟩, []⟩ LF =
      .ok [[97, 98, 99, 100, 101, 102]] := by
  refine ⟨?_, by decide⟩
  rw [applyTextEdit_inBounds lines edit lineEnding hb]
  unfold editMid
  rw [if_pos hnt]

/-- C13, witness: deleting the whole content of the middle line of
["a", "bc", "d"] leaves ["a", "d"]. -/
theorem C13_deletion_witness :
    inBounds [[97], [98, 99], [100]] ⟨⟨1, 0⟩, ⟨1, 2⟩⟩ ∧
    ApplyTextEdit [[97], [98, 99], [100]] ⟨⟨⟨1, 0⟩, ⟨1, 2⟩⟩, []⟩ LF = .ok
      (List.take 1 [[97], [98, 99], [100]] ++
        (if (List.getD [[97], [98, 99], [100]] 1 []).take 0 ++
            (List.getD [[97], [98, 99], [100]] 1 []).drop 2 ≠ []
          then [(List.getD [[97], [98, 99], [100]] 1 []).take 0 ++
            (List.getD [[97], [98, 99], [100]] 1 []).drop 2]
          else []) ++
        List.drop (1 + 1) [[97], [98, 99], [100]]) :=
  ⟨by decide, (C13_deletion [[97], [98, 99], [100]] ⟨⟨⟨1, 0⟩, ⟨1, 2⟩⟩, []⟩ LF
    (by decide) rfl).1⟩

/-! ## C18: clamping -/

theorem clampLine_lt (lines : List GoString) (l : Nat) (h : 0 < lines.length) :
    clampLine lines l < lines.length := by
  unfold clampLine; split_ifs <;> omega

theorem clampChar_le (line : GoString) (c : Nat) : clampChar line c ≤ line.length := by
  unfold clampChar; split_ifs <;> omega

theorem clampedEdit_eq (lines : List GoString) (edit : TextEdit) :
    clampedEdit lines edit =
      ⟨⟨⟨edit.Range.Start.Line,
          clampChar (lines.getD edit.Range.Start.Line []) edit.Range.Start.Character⟩,
        ⟨clampLine lines edit.Range.End.Line,
          clampChar (lines.getD (clampLine lines edit.Range.End.Line) [])
            edit.Range.End.Character⟩⟩, edit.NewText⟩ := rfl

/-- C18: for every line array and every edit with a valid start line,
`ApplyTextEdit` gives the same result on the edit and on the edit clamped as
described (end line to the last line, start character to the length of the
start line, end character to the length of the clamped end line), and the
clamped edit is in bounds; when only the end line is clamped the end character
is kept as given. -/
theorem C18_clamping_is_normalisation (lines : List GoString) (edit : TextEdit)
    (lineEnding : GoString) (h : edit.Range.Start.Line < lines.length) :
    ApplyTextEdit lines edit lineEnding =
      ApplyTextEdit lines (clampedEdit lines edit) lineEnding ∧
    inBounds lines (clampedEdit lines edit).Range ∧
    (lines.length ≤ edit.Range.End.Line →
      edit.Range.End.Character ≤ (lines.getD (lines.length - 1) []).length →
      (clampedEdit lines edit).Range.End = ⟨lines.length - 1, edit.Range.End.Character⟩) := by
  have hpos : 0 < lines.length := by omega
  have h1 := clampLine_lt lines edit.Range.End.Line hpos
  have h2 := clampChar_le (lines.getD edit.Range.Start.Line []) edit.Range.Start.Character
  have h3 := clampChar_le (lines.getD (clampLine lines edit.Range.End.Line) [])
    edit.Range.End.Character
  have hb : inBounds lines (clampedEdit lines edit).Range := by
    rw [clampedEdit_eq]
    exact ⟨⟨h, h2⟩, h1, h3⟩
  refine ⟨?_, hb, ?_⟩
  · rw [applyTextEdit_normal lines edit lineEnding h,
      applyTextEdit_inBounds lines (clampedEdit lines edit) lineEnding hb, clampedEdit_eq]
  · intro hl hc
    rw [clampedEdit_eq]
    have e1 : clampLine lines edit.Range.End.Line = lines.length - 1 := by
      unfold clampLine; rw [if_pos hl]
    simp only [e1]
    unfold clampChar
    rw [if_neg (by omega)]

/-- C18, witness: on ["abc", "def"] the edit (0,9)-(7,9) acts as (0,3)-(1,3). -/
theorem C18_clamping_is_normalisation_witness :
    (0 : Nat) < ([[97, 98, 99], [100, 101, 102]] : List GoString).length ∧
    clampedEdit [[97, 98, 99], [100, 101, 102]] ⟨⟨⟨0, 9⟩, ⟨7, 9⟩⟩, [88]⟩ =
      ⟨⟨⟨0, 3⟩, ⟨1, 3⟩⟩, [88]⟩ ∧
    ApplyTextEdit [[97, 98, 99], [100, 101, 102]] ⟨⟨⟨0, 9⟩, ⟨7, 9⟩⟩, [88]⟩ LF =
      ApplyTextEdit [[97, 98, 99], [100, 101, 102]]
        (clampedEdit [[97, 98, 99], [100, 101, 102]] ⟨⟨⟨0, 9⟩, ⟨7, 9⟩⟩, [88]⟩) LF :=
  ⟨by decide, by decide,
    (C18_clamping_is_normalisation [[97, 98, 99], [100, 101, 102]]
      ⟨⟨⟨0, 9⟩, ⟨7, 9⟩⟩, [88]⟩ LF (by decide)).1⟩

/-! ## C14: a start line beyond the snapshot -/

theorem applyTextEdit_error (lines : List GoString) (e : TextEdit) (le : GoString)
    (h : lines.length ≤ e.Range.Start.Line) :
    ApplyTextEdit lines e le = .error (.invalidStartLine e.Range.Start.Line) := by
  unfold ApplyTextEdit
  dsimp only
  rw [if_pos (by omega)]

theorem sortedEdits_head_max (edits : List TextEdit) (e : TextEdit) (he : e ∈ edits) :
    ∃ x rest, sortedEdits edits = x :: rest ∧ e.Range.Start.Line ≤ x.Range.Start.Line := by
  have hmem : e ∈ sortedEdits edits := (perm_sortSlice editLess edits).mem_iff.mpr he
  have hp := sortedEdits_pairwise edits
  cases hs : sortedEdits edits with
  | nil => rw [hs] at hmem; simp at hmem
  | cons x rest =>
    rw [hs] at hmem hp
    refine ⟨x, rest, rfl, ?_⟩
    rcases List.mem_cons.mp hmem with rfl | hr
    · exact le_refl _
    · have := (List.pairwise_cons.mp hp).1 e hr
      unfold posLe at this
      omega

theorem newContent_error_of_start_out (content : GoString) (edits : List TextEdit)
    (h : ∃ e ∈ edits, (Split content (detectLineEnding content)).length ≤ e.Range.Start.Line) :
    ∃ err, newContent content edits = .error err := by
  obtain ⟨e, he, hlen⟩ := h
  unfold newContent
  dsimp only
  cases hf : findOverlap 0 edits with
  | some ab => exact ⟨_, rfl⟩
  | none =>
    obtain ⟨x, rest, hs, hx⟩ := sortedEdits_head_max edits e he
    simp only [hs, foldEdits]
    rw [applyTextEdit_error _ x _ (by omega)]
    exact ⟨_, rfl⟩

/-- C14: for every readable file and every edit list containing at least one
edit whose start line is not below the number of lines of the snapshot,
`ApplyTextEdits` returns an error and leaves the filesystem as it was: no write
is performed, so no edit of the batch reaches the file. -/
theorem C14_out_of_bounds_start_untouched (fs : FS) (uri content : GoString)
    (edits : List TextEdit)
    (hr : osReadFile fs (TrimPrefix uri fileScheme) = some content)
    (h : ∃ e ∈ edits, (Split content (detectLineEnding content)).length ≤ e.Range.Start.Line) :
    ∃ err, ApplyTextEdits fs uri edits = (some err, fs) := by
  obtain ⟨err, herr⟩ := newContent_error_of_start_out content edits h
  refine ⟨err, ?_⟩
  unfold ApplyTextEdits
  simp only [hr, herr]

/-- C14, witness: on the two-line file "a\nb", a batch made of a valid insertion
and an edit starting on line 5. -/
theorem C14_out_of_bounds_start_untouched_witness :
    osReadFile (singleFileFS [97, 10, 98]) (TrimPrefix sampleUri fileScheme)
      = some [97, 10, 98] ∧
    (∃ e ∈ [(⟨⟨⟨0, 0⟩, ⟨0, 0⟩⟩, [120]⟩ : TextEdit), ⟨⟨⟨5, 0⟩, ⟨5, 0⟩⟩, [121]⟩],
      (Split [97, 10, 98] (detectLineEnding [97, 10, 98])).length ≤ e.Range.Start.Line) ∧
    ∃ err, ApplyTextEdits (singleFileFS [97, 10, 98]) sampleUri
        [⟨⟨⟨0, 0⟩, ⟨0, 0⟩⟩, [120]⟩, ⟨⟨⟨5, 0⟩, ⟨5, 0⟩⟩, [121]⟩] =
      (some err, singleFileFS [97, 10, 98]) :=
  ⟨by decide, by decide,
    C14_out_of_bounds_start_untouched (singleFileFS [97, 10, 98]) sampleUri [97, 10, 98]
      [⟨⟨⟨0, 0⟩, ⟨0, 0⟩⟩, [120]⟩, ⟨⟨⟨5, 0⟩, ⟨5, 0⟩⟩, [121]⟩] (by decide) (by decide)⟩

/-! ## C17: the order in which the edits are folded -/

/-- C17 (as amended): for every edit list that passes the pairwise overlap
check, the sequence that `ApplyTextEdits` folds through `ApplyTextEdit` is a
permutation of the input list in which the start of each edit is at or after
the start of every edit applied after it; when all ranges are well formed
(start <= end) the start of each edit is strictly after the start of every
edit applied after it. -/
theorem C17_sorted_descending (edits : List TextEdit) (hpass : findOverlap 0 edits = none) :
    (sortedEdits edits).Perm edits ∧
    (sortedEdits edits).Pairwise (fun a b => posLe b.Range.Start a.Range.Start) ∧
    ((∀ e ∈ edits, wellFormed e.Range) → (sortedEdits edits).Pairwise startsDescending) :=
  ⟨perm_sortSlice editLess edits, sortedEdits_pairwise edits,
    fun hwf => sortedEdits_strict edits hwf ((findOverlap_none 0 edits).mp hpass)⟩

/-- C17, witness: the edits (0,0)-(0,1) and (1,0)-(1,1), given in ascending
order. -/
theorem C17_sorted_descending_witness :
    findOverlap 0 [(⟨⟨⟨0, 0⟩, ⟨0, 1⟩⟩, [120]⟩ : TextEdit), ⟨⟨⟨1, 0⟩, ⟨1, 1⟩⟩, [121]⟩] = none ∧
    (∀ e ∈ [(⟨⟨⟨0, 0⟩, ⟨0, 1⟩⟩, [120]⟩ : TextEdit), ⟨⟨⟨1, 0⟩, ⟨1, 1⟩⟩, [121]⟩],
      wellFormed e.Range) ∧
    (sortedEdits [⟨⟨⟨0, 0⟩, ⟨0, 1⟩⟩, [120]⟩, ⟨⟨⟨1, 0⟩, ⟨1, 1⟩⟩, [121]⟩]).Pairwise
      startsDescending :=
  ⟨by decide, by decide,
    (C17_sorted_descending [⟨⟨⟨0, 0⟩, ⟨0, 1⟩⟩, [120]⟩, ⟨⟨⟨1, 0⟩, ⟨1, 1⟩⟩, [121]⟩]
      (by decide)).2.2 (by decide)⟩

/-- C17, counterexample: the edits A = (1,1)-(0,0) "X" and B = (1,1)-(0,0) "Y"
pass the overlap check (each starts on line 1, after the other ends on line
0); the sorted sequence is [A, B], and the start of A is not strictly after
the start of B: the two starts are equal. -/
theorem C17_counterexample_equal_starts :
    findOverlap 0 [(⟨⟨⟨1, 1⟩, ⟨0, 0⟩⟩, [88]⟩ : TextEdit), ⟨⟨⟨1, 1⟩, ⟨0, 0⟩⟩, [89]⟩] = none ∧
    sortedEdits [⟨⟨⟨1, 1⟩, ⟨0, 0⟩⟩, [88]⟩, ⟨⟨⟨1, 1⟩, ⟨0, 0⟩⟩, [89]⟩] =
      [⟨⟨⟨1, 1⟩, ⟨0, 0⟩⟩, [88]⟩, ⟨⟨⟨1, 1⟩, ⟨0, 0⟩⟩, [89]⟩] ∧
    ¬ startsDescending ⟨⟨⟨1, 1⟩, ⟨0, 0⟩⟩, [88]⟩ ⟨⟨⟨1, 1⟩, ⟨0, 0⟩⟩, [89]⟩ ∧
    (⟨⟨⟨1, 1⟩, ⟨0, 0⟩⟩, [88]⟩ : TextEdit).Range.Start =
      (⟨⟨⟨1, 1⟩, ⟨0, 0⟩⟩, [89]⟩ : TextEdit).Range.Start := by
  refine ⟨by decide, by decide, ?_, rfl⟩
  unfold startsDescending posLt
  decide

/-! ## C20: the fold on a valid batch -/

theorem getD_eq_of_take_eq (l1 l2 : List GoString) (n i : Nat) (h : l1.take n = l2.take n)
    (hi : i < n) : l1.getD i [] = l2.getD i [] := by
  have h1 : (l1.take n)[i]? = l1[i]? := by simp [List.getElem?_take, hi]
  have h2 : (l2.take n)[i]? = l2[i]? := by simp [List.getElem?_take, hi]
  rw [h] at h1
  simp only [List.getD_eq_getElem?_getD]
  rw [← h1, ← h2]

theorem take_eq_of_take_eq (l1 l2 : List GoString) (n i : Nat) (h : l1.take n = l2.take n)
    (hi : i ≤ n) : l1.take i = l2.take i := by
  have := congrArg (List.take i) h
  simpa [List.take_take, Nat.min_eq_left hi] using this

theorem agreesUpTo_refl (orig : List GoString) (p : Position) (h : posInBounds orig p) :
    agreesUpTo orig orig p := ⟨rfl, h.1, h.2, rfl⟩

theorem editMid_head (pfx sfx t : GoString) (h : pfx ≠ []) :
    ∃ x rest, editMid pfx sfx t = (pfx ++ x) :: rest := by
  unfold editMid
  by_cases ht : t = []
  · rw [if_pos ht, if_pos (by simp [h])]
    exact ⟨sfx, [], rfl⟩
  · rw [if_neg ht]
    dsimp only
    split_ifs
    · exact ⟨(Split t LF).getD 0 [] ++ sfx, [], by simp⟩
    · exact ⟨(Split t LF).getD 0 [],
        ((Split t LF).take ((Split t LF).length - 1)).drop 1 ++
          [(Split t LF).getD ((Split t LF).length - 1) [] ++ sfx], by simp⟩

theorem applyTextEdit_agrees (orig cur : List GoString) (e : TextEdit) (le : GoString)
    (h : agreesUpTo orig cur e.Range.Start) :
    ∃ res, ApplyTextEdit cur e le = .ok res ∧
      ∀ q, posLt q e.Range.Start → posInBounds orig q → agreesUpTo orig res q := by
  obtain ⟨ht, hl, hc, hp⟩ := h
  refine ⟨_, applyTextEdit_normal cur e le hl, ?_⟩
  intro q hq hqb
  have hcl : clampChar (cur.getD e.Range.Start.Line []) e.Range.Start.Character
      = e.Range.Start.Character := by
    unfold clampChar; rw [if_neg (by omega)]
  rw [hcl]
  have hlt : (List.take e.Range.Start.Line cur).length = e.Range.Start.Line := by
    rw [List.length_take]; omega
  generalize (List.drop (clampChar (cur.getD (clampLine cur e.Range.End.Line) [])
    e.Range.End.Character) (cur.getD (clampLine cur e.Range.End.Line) [])) = sfx
  generalize List.drop (clampLine cur e.Range.End.Line + 1) cur = tail
  rcases hq with hq | ⟨hq1, hq2⟩
  · -- an earlier line
    have e1 : ∀ M : List GoString,
        List.take q.Line (List.take e.Range.Start.Line cur ++ M ++ tail) = List.take q.Line cur := by
      intro M
      rw [List.append_assoc, List.take_append_of_le_length (by omega), List.take_take,
        Nat.min_eq_left (by omega)]
    have e2 : List.take q.Line cur = List.take q.Line orig :=
      take_eq_of_take_eq cur orig _ _ ht (by omega)
    have e3 : ∀ M : List GoString,
        (List.take e.Range.Start.Line cur ++ M ++ tail).getD q.Line [] = orig.getD q.Line [] := by
      intro M
      rw [← getD_eq_of_take_eq cur orig _ _ ht hq]
      apply getD_eq_of_take_eq _ _ e.Range.Start.Line _ _ hq
      rw [List.append_assoc, List.take_append_of_le_length (by omega), List.take_take,
        Nat.min_self]
    refine ⟨by rw [e1, e2], ?_, ?_, ?_⟩
    · simp only [List.length_append]; omega
    · rw [e3]; exact hqb.2
    · rw [e3]
  · -- the same line, an earlier character
    have hpne : List.take e.Range.Start.Character (cur.getD e.Range.Start.Line []) ≠ [] := by
      intro hnil
      have := congrArg List.length hnil
      simp only [List.length_take, List.length_nil] at this
      omega
    obtain ⟨x, rest, hm⟩ := editMid_head _ sfx e.NewText hpne
    rw [hm]
    have e1 : List.take q.Line (List.take e.Range.Start.Line cur ++
        (List.take e.Range.Start.Character (cur.getD e.Range.Start.Line []) ++ x) :: rest
          ++ tail) = List.take q.Line orig := by
      rw [hq1, ← ht, List.append_assoc, List.take_append_of_le_length (by omega),
        List.take_take, Nat.min_self]
    have e3 : (List.take e.Range.Start.Line cur ++
        (List.take e.Range.Start.Character (cur.getD e.Range.Start.Line []) ++ x) :: rest
          ++ tail).getD q.Line [] =
        List.take e.Range.Start.Character (cur.getD e.Range.Start.Line []) ++ x := by
      rw [hq1, List.append_assoc, List.getD_append_right _ _ _ _ (by omega), hlt]
      simp
    refine ⟨e1, ?_, ?_, ?_⟩
    · simp only [List.length_append, List.length_cons]; omega
    · rw [e3]
      simp only [List.length_append, List.length_take]
      omega
    · rw [e3, List.take_append_of_le_length (by simp only [List.length_take]; omega),
        List.take_take, Nat.min_eq_left (by omega), hq1]
      have := congrArg (List.take q.Character) hp
      simpa [List.take_take, Nat.min_eq_left (le_of_lt hq2)] using this

theorem foldEdits_ok_of_agrees (orig : List GoString) (le : GoString) :
    ∀ (es : List TextEdit) (cur : List GoString), es.Pairwise startsDescending →
      (∀ e ∈ es, posInBounds orig e.Range.Start) →
      (∀ e ∈ es, agreesUpTo orig cur e.Range.Start) →
      ∃ res, foldEdits le cur es = .ok res := by
  intro es
  induction es with
  | nil => intro cur _ _ _; exact ⟨cur, rfl⟩
  | cons e rest ih =>
    intro cur hp hb ha
    obtain ⟨res, hres, hnext⟩ := applyTextEdit_agrees orig cur e le (ha e (List.mem_cons_self _ _))
    simp only [foldEdits, hres]
    rw [List.pairwise_cons] at hp
    refine ih res hp.2 (fun e2 h2 => hb e2 (List.mem_cons_of_mem _ h2)) ?_
    intro e2 h2
    exact hnext _ (hp.1 e2 h2) (hb e2 (List.mem_cons_of_mem _ h2))

theorem foldEdits_ok_of_valid (lines : List GoString) (le : GoString) (edits : List TextEdit)
    (hwf : ∀ e ∈ edits, wellFormed e.Range)
    (hb : ∀ e ∈ edits, inBounds lines e.Range)
    (hno : edits.Pairwise (fun a b => RangesOverlap a.Range b.Range = false)) :
    ∃ res, foldEdits le lines (sortedEdits edits) = .ok res := by
  have hmem : ∀ e ∈ sortedEdits edits, e ∈ edits :=
    fun e he => (perm_sortSlice editLess edits).mem_iff.mp he
  exact foldEdits_ok_of_agrees lines le _ lines (sortedEdits_strict edits hwf hno)
    (fun e he => (hb e (hmem e he)).1)
    (fun e he => agreesUpTo_refl lines _ (hb e (hmem e he)).1)

/-- C20: for every readable file content and every edit list whose ranges are
all well formed, all in bounds of the snapshot and pairwise non-overlapping
(per `RangesOverlap`), every `ApplyTextEdit` call made by the loop of
`ApplyTextEdits` succeeds: the fold returns a line array, the content to write
is computed, and `ApplyTextEdits` either succeeds or fails in the write. -/
theorem C20_fold_cannot_fail (fs : FS) (uri content : GoString) (edits : List TextEdit)
    (hr : osReadFile fs (TrimPrefix uri fileScheme) = some content)
    (hwf : ∀ e ∈ edits, wellFormed e.Range)
    (hb : ∀ e ∈ edits, inBounds (Split content (detectLineEnding content)) e.Range)
    (hno : edits.Pairwise (fun a b => RangesOverlap a.Range b.Range = false)) :
    (∃ res, foldEdits (detectLineEnding content) (Split content (detectLineEnding content))
      (sortedEdits edits) = .ok res) ∧
    (∃ data, newContent content edits = .ok data) ∧
    ((ApplyTextEdits fs uri edits).1 = none ∨
      (ApplyTextEdits fs uri edits).1 = some .writeFailed) := by
  obtain ⟨res, hres⟩ := foldEdits_ok_of_valid _ (detectLineEnding content) edits hwf hb hno
  have hf := (findOverlap_none 0 edits).mpr hno
  have hn : newContent content edits = .ok (finishContent (detectLineEnding content)
      (endsWithNewline content) (joinLines (detectLineEnding content) res)) := by
    unfold newContent
    simp only [hf, hres]
  refine ⟨⟨res, hres⟩, ⟨_, hn⟩, ?_⟩
  unfold ApplyTextEdits
  simp only [hr, hn]
  cases hw : osWriteFile fs (TrimPrefix uri fileScheme) (finishContent (detectLineEnding content)
      (endsWithNewline content) (joinLines (detectLineEnding content) res)) with
  | mk ok fs1 =>
    cases ok with
    | true => exact Or.inl rfl
    | false => exact Or.inr rfl

/-- C20, witness: on the file "abc\ndef", deleting the whole second line (which
removes a line from the array) and replacing "a" by "x". -/
theorem C20_fold_cannot_fail_witness :
    osReadFile (singleFileFS [97, 98, 99, 10, 100, 101, 102]) (TrimPrefix sampleUri fileScheme)
      = some [97, 98, 99, 10, 100, 101, 102] ∧
    (∀ e ∈ [(⟨⟨⟨0, 0⟩, ⟨0, 1⟩⟩, [120]⟩ : TextEdit), ⟨⟨⟨1, 0⟩, ⟨1, 3⟩⟩, []⟩],
      wellFormed e.Range) ∧
    (∀ e ∈ [(⟨⟨⟨0, 0⟩, ⟨0, 1⟩⟩, [120]⟩ : TextEdit), ⟨⟨⟨1, 0⟩, ⟨1, 3⟩⟩, []⟩],
      inBounds (Split [97, 98, 99, 10, 100, 101, 102]
        (detectLineEnding [97, 98, 99, 10, 100, 101, 102])) e.Range) ∧
    [(⟨⟨⟨0, 0⟩, ⟨0, 1⟩⟩, [120]⟩ : TextEdit), ⟨⟨⟨1, 0⟩, ⟨1, 3⟩⟩, []⟩].Pairwise
      (fun a b => RangesOverlap a.Range b.Range = false) ∧
    (∃ res, foldEdits (detectLineEnding [97, 98, 99, 10, 100, 101, 102])
      (Split [97, 98, 99, 10, 100, 101, 102] (detectLineEnding [97, 98, 99, 10, 100, 101, 102]))
      (sortedEdits [⟨⟨⟨0, 0⟩, ⟨0, 1⟩⟩, [120]⟩, ⟨⟨⟨1, 0⟩, ⟨1, 3⟩⟩, []⟩]) = .ok res) ∧
    (∃ data, newContent [97, 98, 99, 10, 100, 101, 102]
      [⟨⟨⟨0, 0⟩, ⟨0, 1⟩⟩, [120]⟩, ⟨⟨⟨1, 0⟩, ⟨1, 3⟩⟩, []⟩] = .ok data) ∧
    ((ApplyTextEdits (singleFileFS [97, 98, 99, 10, 100, 101, 102]) sampleUri
        [⟨⟨⟨0, 0⟩, ⟨0, 1⟩⟩, [120]⟩, ⟨⟨⟨1, 0⟩, ⟨1, 3⟩⟩, []⟩]).1 = none ∨
      (ApplyTextEdits (singleFileFS [97, 98, 99, 10, 100, 101, 102]) sampleUri
        [⟨⟨⟨0, 0⟩, ⟨0, 1⟩⟩, [120]⟩, ⟨⟨⟨1, 0⟩, ⟨1, 3⟩⟩, []⟩]).1 = some .writeFailed) :=
  ⟨by decide, by decide, by decide, by decide,
    C20_fold_cannot_fail (singleFileFS [97, 98, 99, 10, 100, 101, 102]) sampleUri
      [97, 98, 99, 10, 100, 101, 102]
      [⟨⟨⟨0, 0⟩, ⟨0, 1⟩⟩, [120]⟩, ⟨⟨⟨1, 0⟩, ⟨1, 3⟩⟩, []⟩]
      (by decide) (by decide) (by decide) (by decide)⟩

/-! ## C15 and C16: file operations of `ApplyDocumentChange` -/

/-- A `RenameFile` change whose options are present with `overwrite` false is
refused when something exists at the destination: the error is returned and
the filesystem is left as it was. -/
theorem applyDocumentChange_rename_refused (fs : FS) (rf : RenameFile)
    (options : RenameFileOptions) (ho : rf.Options = some options)
    (hov : options.Overwrite = false)
    (he : osStat fs (TrimPrefix rf.NewURI fileScheme) = true) :
    ApplyDocumentChange fs ⟨none, none, some rf, none⟩ = (some .targetExists, fs) := by
  unfold ApplyDocumentChange
  simp [createFileStep, deleteFileStep, renameFileStep, ho, hov, he]

/-- C15, the code at the failing input: with the files "/f" = "a" and "/g" = "b",
the change RenameFile "/f" -> "/g" without options returns no error, and
afterwards "/g" holds "a" and "/f" is gone; the same change with options present
and `overwrite` false is refused and both files are kept. -/
theorem C15_rename_without_options_clobbers :
    ((ApplyDocumentChange (twoFileFS [97] [98])
        ⟨none, none, some ⟨sampleUri, otherUri, none⟩, none⟩).1 = none ∧
      (ApplyDocumentChange (twoFileFS [97] [98])
        ⟨none, none, some ⟨sampleUri, otherUri, none⟩, none⟩).2.files [47, 103] = some [97] ∧
      (ApplyDocumentChange (twoFileFS [97] [98])
        ⟨none, none, some ⟨sampleUri, otherUri, none⟩, none⟩).2.files [47, 102] = none) ∧
    ((ApplyDocumentChange (twoFileFS [97] [98])
        ⟨none, none, some ⟨sampleUri, otherUri, some ⟨false, false⟩⟩, none⟩).1
        = some .targetExists ∧
      (ApplyDocumentChange (twoFileFS [97] [98])
        ⟨none, none, some ⟨sampleUri, otherUri, some ⟨false, false⟩⟩, none⟩).2.files [47, 103]
        = some [98] ∧
      (ApplyDocumentChange (twoFileFS [97] [98])
        ⟨none, none, some ⟨sampleUri, otherUri, some ⟨false, false⟩⟩, none⟩).2.files [47, 102]
        = some [97]) := by
  decide

/-- C16 (as amended): for every filesystem state and every change whose
`CreateFile` has options with `ignoreIfExists` set and `overwrite` not set, and
whose target path already exists, `ApplyDocumentChange` returns success and
leaves the filesystem as it was: no write is performed and the existing file
keeps its content. -/
theorem C16_create_ignored_is_noop (fs : FS) (change : DocumentChange) (cf : CreateFile)
    (options : CreateFileOptions) (hc : change.CreateFile = some cf)
    (ho : cf.Options = some options) (hi : options.IgnoreIfExists = true)
    (hov : options.Overwrite = false)
    (he : osStat fs (TrimPrefix cf.URI fileScheme) = true) :
    ApplyDocumentChange fs change = (none, fs) := by
  unfold ApplyDocumentChange
  simp [hc, createFileStep, ho, hi, hov, he]

/-- C16, witness: CreateFile "/f" with `ignoreIfExists` on a filesystem where "/f"
holds "abc". -/
theorem C16_create_ignored_is_noop_witness :
    (⟨none, some ⟨sampleUri, some ⟨false, true⟩⟩, none, none⟩ : DocumentChange).CreateFile
      = some ⟨sampleUri, some ⟨false, true⟩⟩ ∧
    osStat (singleFileFS [97, 98, 99]) (TrimPrefix sampleUri fileScheme) = true ∧
    ApplyDocumentChange (singleFileFS [97, 98, 99])
        ⟨none, some ⟨sampleUri, some ⟨false, true⟩⟩, none, none⟩ =
      (none, singleFileFS [97, 98, 99]) :=
  ⟨rfl, by decide,
    C16_create_ignored_is_noop (singleFileFS [97, 98, 99])
      ⟨none, some ⟨sampleUri, some ⟨false, true⟩⟩, none, none⟩
      ⟨sampleUri, some ⟨false, true⟩⟩ ⟨false, true⟩ rfl rfl rfl rfl (by decide)⟩

/-- C16, counterexample: CreateFile "/f" with both `overwrite` and
`ignoreIfExists` set, on a filesystem where "/f" holds "abc": the call succeeds,
one write is performed and the file is left empty. -/
theorem C16_counterexample_overwrite_wins :
    osStat (singleFileFS [97, 98, 99]) (TrimPrefix sampleUri fileScheme) = true ∧
    (ApplyDocumentChange (singleFileFS [97, 98, 99])
      ⟨none, some ⟨sampleUri, some ⟨true, true⟩⟩, none, none⟩).1 = none ∧
    (ApplyDocumentChange (singleFileFS [97, 98, 99])
      ⟨none, some ⟨sampleUri, some ⟨true, true⟩⟩, none, none⟩).2.writes
      = [(TrimPrefix sampleUri fileScheme, [])] ∧
    osReadFile (ApplyDocumentChange (singleFileFS [97, 98, 99])
      ⟨none, some ⟨sampleUri, some ⟨true, true⟩⟩, none, none⟩).2
      (TrimPrefix sampleUri fileScheme) = some [] := by
  decide

/-! ## C19: line breaks inside `newText` -/

/-- C19, the code at the failing input: on the line array ["x"] with the line
ending "\r\n", inserting "a\r\nb" at (0,0) returns the lines "a\r" and "bx";
the first contains a carriage return, and the lines rejoined with "\r\n" read
"a\r\r\nbx"; through `ApplyTextEdits` the CRLF file "x\r\ny" becomes
"a\r\r\nbx\r\ny". -/
theorem C19_crlf_newText_keeps_carriage_return :
    inBounds [[120]] ⟨⟨0, 0⟩, ⟨0, 0⟩⟩ ∧
    ApplyTextEdit [[120]] ⟨⟨⟨0, 0⟩, ⟨0, 0⟩⟩, [97, 13, 10, 98]⟩ CRLF =
      .ok [[97, 13], [98, 120]] ∧
    (13 : UInt8) ∈ ([97, 13] : GoString) ∧
    joinLines CRLF [[97, 13], [98, 120]] = [97, 13, 13, 10, 98, 120] ∧
    detectLineEnding [120, 13, 10, 121] = CRLF ∧
    newContent [120, 13, 10, 121] [⟨⟨⟨0, 0⟩, ⟨0, 0⟩⟩, [97, 13, 10, 98]⟩] =
      .ok [97, 13, 13, 10, 98, 120, 13, 10, 121] := by
  decide

/-! ## C21: symmetry of `RangesOverlap` -/

/-- The loop over the pairs `i < j` reports an overlap exactly when some ordered
pair of distinct indices overlaps. -/
theorem findOverlap_isSome_iff_ordered_pair (edits : List TextEdit) :
    findOverlap 0 edits ≠ none ↔
      ∃ (i j : Nat) (e1 e2 : TextEdit), i ≠ j ∧ edits[i]? = some e1 ∧ edits[j]? = some e2 ∧
        RangesOverlap e1.Range e2.Range = true := by
  constructor
  · intro h
    cases hf : findOverlap 0 edits with
    | none => exact absurd hf h
    | some ab =>
      obtain ⟨a, b⟩ := ab
      obtain ⟨p, q, e1, e2, _, _, hpq, h1, h2, ho, _⟩ := findOverlap_some 0 edits a b hf
      exact ⟨p, q, e1, e2, by omega, h1, h2, ho⟩
  · rintro ⟨i, j, e1, e2, hij, h1, h2, ho⟩
    rcases Nat.lt_or_gt_of_ne hij with hlt | hgt
    · exact findOverlap_ne_none edits ⟨i, j, e1, e2, hlt, h1, h2, ho⟩
    · exact findOverlap_ne_none edits
        ⟨j, i, e2, e1, hgt, h2, h1, by rw [rangesOverlap_comm]; exact ho⟩

/-- C21: for all ranges `r1` and `r2`, `RangesOverlap r1 r2 = RangesOverlap r2 r1`;
hence the check of `ApplyTextEdits`, which visits only the pairs `i < j`, finds
an overlap exactly when some ordered pair of distinct edits overlaps, and on a
readable file `ApplyTextEdits` rejects a batch with the overlap error exactly
when some ordered pair of distinct edits overlaps. -/
theorem C21_rangesOverlap_symmetric (r1 r2 : Range) (fs : FS) (uri content : GoString)
    (edits : List TextEdit) :
    RangesOverlap r1 r2 = RangesOverlap r2 r1 ∧
    (findOverlap 0 edits ≠ none ↔
      ∃ (i j : Nat) (e1 e2 : TextEdit), i ≠ j ∧ edits[i]? = some e1 ∧ edits[j]? = some e2 ∧
        RangesOverlap e1.Range e2.Range = true) ∧
    (osReadFile fs (TrimPrefix uri fileScheme) = some content →
      ((∃ i j, ApplyTextEdits fs uri edits = (some (.overlapping i j), fs)) ↔
        ∃ (i j : Nat) (e1 e2 : TextEdit), i ≠ j ∧ edits[i]? = some e1 ∧
          edits[j]? = some e2 ∧ RangesOverlap e1.Range e2.Range = true)) := by
  refine ⟨rangesOverlap_comm r1 r2, findOverlap_isSome_iff_ordered_pair edits, ?_⟩
  intro hr
  rw [← findOverlap_isSome_iff_ordered_pair]
  constructor
  · rintro ⟨i, j, h⟩ hnone
    unfold ApplyTextEdits at h
    simp only [hr, newContent, hnone] at h
    cases hfold : foldEdits (detectLineEnding content) (Split content (detectLineEnding content))
        (sortedEdits edits) with
    | error err =>
      simp only [hfold, Prod.mk.injEq, Option.some.injEq] at h
      have herr := h.1
      subst herr
      -- the fold never reports an overlap
      have : ∀ (es : List TextEdit) (ls : List GoString),
          foldEdits (detectLineEnding content) ls es ≠ .error (.overlapping i j) := by
        intro es
        induction es with
        | nil => intro ls; simp [foldEdits]
        | cons e es ih =>
          intro ls
          simp only [foldEdits]
          by_cases hs : e.Range.Start.Line < ls.length
          · rw [applyTextEdit_normal ls e _ hs]
            exact ih _
          · rw [applyTextEdit_error ls e _ (by omega)]
            simp
      exact this _ _ hfold
    | ok lines =>
      simp only [hfold] at h
      cases hw : osWriteFile fs (TrimPrefix uri fileScheme)
          (finishContent (detectLineEnding content) (endsWithNewline content)
            (joinLines (detectLineEnding content) lines)) with
      | mk ok fs1 =>
        rw [hw] at h
        cases ok <;> simp at h
  · intro hne
    cases hf : findOverlap 0 edits with
    | none => exact absurd hf hne
    | some ab =>
      obtain ⟨a, b⟩ := ab
      refine ⟨a, b, ?_⟩
      unfold ApplyTextEdits
      simp only [hr, newContent, hf]

/-- C21, witness: on a file holding "abc", the edits (0,1)-(0,2) and (0,0)-(0,1)
overlap as the ordered pair (1, 0), and the batch is rejected. -/
theorem C21_rangesOverlap_symmetric_witness :
    osReadFile (singleFileFS [97, 98, 99]) (TrimPrefix sampleUri fileScheme)
      = some [97, 98, 99] ∧
    RangesOverlap ⟨⟨0, 0⟩, ⟨0, 1⟩⟩ ⟨⟨0, 1⟩, ⟨0, 2⟩⟩ = true ∧
    ∃ i j, ApplyTextEdits (singleFileFS [97, 98, 99]) sampleUri
        [⟨⟨⟨0, 1⟩, ⟨0, 2⟩⟩, [120]⟩, ⟨⟨⟨0, 0⟩, ⟨0, 1⟩⟩, [121]⟩] =
      (some (.overlapping i j), singleFileFS [97, 98, 99]) :=
  ⟨by decide, by decide,
    ((C21_rangesOverlap_symmetric ⟨⟨0, 0⟩, ⟨0, 1⟩⟩ ⟨⟨0, 1⟩, ⟨0, 2⟩⟩ (singleFileFS [97, 98, 99])
      sampleUri [97, 98, 99]
      [⟨⟨⟨0, 1⟩, ⟨0, 2⟩⟩, [120]⟩, ⟨⟨⟨0, 0⟩, ⟨0, 1⟩⟩, [121]⟩]).2.2 (by decide)).mpr
      ⟨1, 0, ⟨⟨⟨0, 0⟩, ⟨0, 1⟩⟩, [121]⟩, ⟨⟨⟨0, 1⟩, ⟨0, 2⟩⟩, [120]⟩, by decide, rfl, rfl,
        by decide⟩⟩

/-! ## Line arrays that end with a line break -/

theorem hasSuffix_append_of_le (x y suf : GoString) (h : suf.length ≤ y.length) :
    HasSuffix (x ++ y) suf = HasSuffix y suf := by
  unfold HasSuffix
  have e : List.drop ((x ++ y).length - suf.length) (x ++ y) = List.drop (y.length - suf.length) y := by
    rw [List.length_append, show x.length + y.length - suf.length = x.length + (y.length - suf.length) by omega,
      List.drop_append]
  rw [e]
  simp only [List.length_append]
  have h1 : decide (x.length + y.length ≥ suf.length) = true := by simp; omega
  have h2 : decide (y.length ≥ suf.length) = true := by simp; omega
  rw [h1, h2]

theorem hasSuffix_joinLead_concat (le : GoString) (hle : le = LF ∨ le = CRLF)
    (init : List GoString) (last : GoString) (hl : last ≠ []) :
    HasSuffix (joinLead le init ++ last) le = HasSuffix last le := by
  by_cases hlen : le.length ≤ last.length
  · exact hasSuffix_append_of_le _ _ _ hlen
  · -- only for "\r\n" and a one-byte last line
    rcases hle with rfl | rfl
    · exfalso
      apply hlen
      have : 0 < last.length := List.length_pos.mpr hl
      exact this
    · have hlen1 : last.length = 1 := by
        have : 0 < last.length := List.length_pos.mpr hl
        have : CRLF.length = 2 := rfl
        omega
      obtain ⟨b, rfl⟩ := List.length_eq_one.mp hlen1
      have h2 : HasSuffix [b] CRLF = false := by
        unfold HasSuffix; simp [CRLF]
      rw [h2, ← Bool.not_eq_true, hasSuffix_iff_reverse]
      rcases List.eq_nil_or_concat init with rfl | ⟨init2, z, rfl⟩
      · simp [joinLead, CRLF]
      · simp only [List.concat_eq_append]
        rw [joinLead_concat]
        simp [CRLF]

theorem hasSuffix_joinLines_general (le : GoString) (hle : le = LF ∨ le = CRLF)
    (ls : List GoString) : HasSuffix (joinLines le ls) le = endsWithBreak le ls := by
  rcases List.eq_nil_or_concat ls with rfl | ⟨init, last, rfl⟩
  · rcases hle with rfl | rfl <;> decide
  simp only [List.concat_eq_append]
  have ej : joinLines le (init ++ [last]) = joinLead le init ++ last := by
    rw [joinLines_lead]; simp [joinLines, joinRest]
  rw [ej]
  unfold endsWithBreak
  have eg : (init ++ [last]).getLast? = some last := by simp
  rw [eg]
  simp only [List.length_append, List.length_singleton, Option.some.injEq]
  by_cases hl : last = []
  · subst hl
    rw [List.append_nil]
    have h0 : HasSuffix [] le = false := by rcases hle with rfl | rfl <;> decide
    rcases List.eq_nil_or_concat init with rfl | ⟨init2, z, rfl⟩
    · simp [joinLead, h0]
    · simp only [List.concat_eq_append]
      rw [joinLead_concat, hasSuffix_append_self]
      simp
  · rw [hasSuffix_joinLead_concat le hle init last hl]
    simp [hl]

theorem split_LF_cases (t : GoString) :
    (Split t LF = [t] ∧ (10 : UInt8) ∉ t) ∨
    ∃ n0 mid nk, Split t LF = n0 :: (mid ++ [nk]) ∧ (10 : UInt8) ∈ t := by
  by_cases h : (10 : UInt8) ∈ t
  · right
    have hl := length_Split_LF t
    have hc : 0 < t.count 10 := List.count_pos_iff.mpr h
    cases hs : Split t LF with
    | nil => rw [hs] at hl; simp at hl
    | cons n0 rest =>
      rcases List.eq_nil_or_concat rest with rfl | ⟨mid, nk, rfl⟩
      · rw [hs] at hl; simp at hl; omega
      · exact ⟨n0, mid, nk, by simp, h⟩
  · left
    exact ⟨Split_no_newline t h, h⟩

theorem editMid_of_split (pfx sfx t n0 nk : GoString) (mid : List GoString)
    (h : Split t LF = n0 :: (mid ++ [nk])) :
    editMid pfx sfx t = (pfx ++ n0) :: (mid ++ [nk ++ sfx]) := by
  have ht : t ≠ [] := by
    rintro rfl
    have : (Split ([] : GoString) LF).length = 1 := rfl
    rw [h] at this
    simp at this
  unfold editMid
  rw [if_neg ht]
  simp only [h]
  have hlen : (n0 :: (mid ++ [nk])).length ≠ 1 := by simp
  rw [if_neg hlen]
  have e1 : (n0 :: (mid ++ [nk])).getD 0 [] = n0 := rfl
  have e2 : (n0 :: (mid ++ [nk])).getD ((n0 :: (mid ++ [nk])).length - 1) [] = nk := by
    have : n0 :: (mid ++ [nk]) = (n0 :: mid) ++ [nk] := rfl
    rw [this, getD_last_concat]
  have e3 : ((n0 :: (mid ++ [nk])).take ((n0 :: (mid ++ [nk])).length - 1)).drop 1 = mid := by
    simp
  rw [e1, e2, e3]
  simp

theorem text_of_split (t n0 nk : GoString) (mid : List GoString)
    (h : Split t LF = n0 :: (mid ++ [nk])) : t = joinLead LF (n0 :: mid) ++ nk := by
  have := joinLines_Split t LF
  rw [h, show n0 :: (mid ++ [nk]) = (n0 :: mid) ++ [nk] from rfl, joinLines_lead] at this
  rw [← this]
  simp [joinLines, joinRest]

theorem getLast?_joinLead_LF (ls : List GoString) (hne : ls ≠ []) :
    (joinLead LF ls).getLast? = some 10 := by
  rcases List.eq_nil_or_concat ls with rfl | ⟨init, z, rfl⟩
  · exact absurd rfl hne
  · simp only [List.concat_eq_append]
    rw [joinLead_concat]
    simp [LF]

theorem editMid_last (pfx sfx t : GoString) (h : t ≠ [] ∨ pfx ++ sfx ≠ []) :
    ∃ (M : List GoString) (Y : GoString), editMid pfx sfx t = M ++ [Y ++ sfx] ∧
      (t = [] → Y = pfx) ∧
      (t ≠ [] → t.getLast? ≠ some 10 → Y ≠ [] ∧ Y.getLast? = t.getLast?) ∧
      (t.getLast? = some 10 → Y = []) := by
  by_cases ht : t = []
  · subst ht
    have hp : pfx ++ sfx ≠ [] := by
      rcases h with h | h
      · exact absurd rfl h
      · exact h
    exact ⟨[], pfx, by rw [editMid_delete pfx sfx hp]; rfl, fun _ => rfl, fun hh => absurd rfl hh,
      fun hh => by simp at hh⟩
  · rcases split_LF_cases t with ⟨_, h10⟩ | ⟨n0, mid, nk, hs, _⟩
    · refine ⟨[], pfx ++ t, ?_, fun hh => absurd hh ht, fun _ _ => ⟨by simp [ht], ?_⟩, ?_⟩
      · rw [editMid_single_line pfx sfx t ht h10]; rfl
      · rw [List.getLast?_append_of_ne_nil _ ht]
      · intro hl
        exact absurd (List.mem_of_mem_getLast? hl) h10
    · have ht2 := text_of_split t n0 nk mid hs
      have hnk10 : (10 : UInt8) ∉ nk :=
        not_mem_of_goIndex_LF_none nk (by
          have := Split_pieces_none t LF (by decide)
          rw [hs] at this
          exact this nk (by simp))
      refine ⟨(pfx ++ n0) :: mid, nk, ?_, fun hh => absurd hh ht, ?_, ?_⟩
      · rw [editMid_of_split pfx sfx t n0 nk mid hs]; simp
      · intro _ hl
        by_cases hnk : nk = []
        · exfalso
          apply hl
          rw [ht2, hnk, List.append_nil]
          exact getLast?_joinLead_LF _ (by simp)
        · refine ⟨hnk, ?_⟩
          conv_rhs => rw [ht2]
          rw [List.getLast?_append_of_ne_nil _ hnk]
      · intro hl
        by_contra hnk
        rw [ht2, List.getLast?_append_of_ne_nil _ hnk] at hl
        exact hnk10 (List.mem_of_mem_getLast? hl)

theorem endsWithBreak_concat (le : GoString) (X : List GoString) (z : GoString) :
    endsWithBreak le (X ++ [z]) = ((decide (1 ≤ X.length) && decide (z = [])) || HasSuffix z le) := by
  unfold endsWithBreak
  have eg : (X ++ [z]).getLast? = some z := by simp
  rw [eg]
  simp only [List.length_append, List.length_singleton, Option.some.injEq]
  congr 2
  simp

/-! ## C7: a file without a trailing line ending -/

theorem hasSuffix_clear (le : GoString) (hle : le = LF ∨ le = CRLF) (Y sfx : GoString)
    (hY : Y ≠ []) (h10 : Y.getLast? ≠ some 10)
    (h13 : le = CRLF → ¬ (sfx = [10] ∧ Y.getLast? = some 13))
    (hs : sfx.length < le.length) : HasSuffix (Y ++ sfx) le = false := by
  rcases List.eq_nil_or_concat Y with rfl | ⟨Y2, b, rfl⟩
  · exact absurd rfl hY
  simp only [List.concat_eq_append] at h10 h13 ⊢
  have eg : (Y2 ++ [b]).getLast? = some b := by simp
  rw [eg] at h10 h13
  simp only [ne_eq, Option.some.injEq] at h10 h13
  rw [← Bool.not_eq_true, hasSuffix_iff_reverse]
  rcases hle with rfl | rfl
  · have : sfx = [] := by
      cases sfx with
      | nil => rfl
      | cons a t => simp [LF] at hs
    subst this
    simp [LF]
    intro h; exact h10 h.symm
  · have h13 := h13 rfl
    match sfx, hs, h13 with
    | [], _, _ =>
      simp [CRLF]
      intro h; exact absurd h.symm h10
    | [s], _, h13 =>
      simp [CRLF]
      intro h1 h2
      apply h13
      exact ⟨by rw [h1], h2.symm⟩
    | _ :: _ :: _, hs, _ => exact absurd hs (by simp [CRLF])

theorem endsWithBreak_step (le : GoString) (hle : le = LF ∨ le = CRLF)
    (cur next : List GoString) (e : TextEdit)
    (hstep : ApplyTextEdit cur e le = .ok next)
    (hk : editKeepsEnding le cur e = true)
    (hcur : endsWithBreak le cur = false) : endsWithBreak le next = false := by
  have hsl : e.Range.Start.Line < cur.length := by
    by_contra hc
    rw [applyTextEdit_error cur e le (by omega)] at hstep
    cases hstep
  rw [applyTextEdit_normal cur e le hsl] at hstep
  have hnext := (Except.ok.inj hstep).symm
  have hpos : 0 < cur.length := by omega
  have hel := clampLine_lt cur e.Range.End.Line hpos
  have hlepos : 0 < le.length := by rcases hle with rfl | rfl <;> decide
  -- the last line of the current array
  rcases List.eq_nil_or_concat cur with hnil | ⟨init, last, hcl⟩
  · rw [hnil] at hpos; simp at hpos
  simp only [List.concat_eq_append] at hcl
  have hcur2 := hcur
  rw [hcl, endsWithBreak_concat] at hcur2
  simp only [Bool.or_eq_false_iff, Bool.and_eq_false_iff, decide_eq_false_iff_not] at hcur2
  obtain ⟨hc1, hc2⟩ := hcur2
  by_cases ha : clampLine cur e.Range.End.Line + 1 < cur.length
  · -- lines remain after the end line: the last line is the old one
    have htl : cur.drop (clampLine cur e.Range.End.Line + 1) ≠ [] := by
      intro h0
      have := List.drop_eq_nil_iff.mp h0
      omega
    rcases List.eq_nil_or_concat (cur.drop (clampLine cur e.Range.End.Line + 1)) with h0 | ⟨T, z, hT⟩
    · exact absurd h0 htl
    simp only [List.concat_eq_append] at hT
    have hz : z = last ∧ 1 ≤ init.length := by
      have h1 : cur = cur.take (clampLine cur e.Range.End.Line + 1) ++ (T ++ [z]) := by
        rw [← hT, List.take_append_drop]
      have h2 : cur.take (clampLine cur e.Range.End.Line + 1) ++ (T ++ [z]) =
          (cur.take (clampLine cur e.Range.End.Line + 1) ++ T) ++ [z] := by simp
      rw [h2] at h1
      have h3 : init ++ [last] = (cur.take (clampLine cur e.Range.End.Line + 1) ++ T) ++ [z] := by
        rw [← hcl]; exact h1
      have h4 := List.append_inj' h3 (by simp)
      refine ⟨(List.singleton_inj.mp h4.2).symm, ?_⟩
      rw [h4.1]
      simp only [List.length_append, List.length_take]
      omega
    rw [hnext, hT, ← List.append_assoc, endsWithBreak_concat, hz.1]
    simp only [Bool.or_eq_false_iff, Bool.and_eq_false_iff, decide_eq_false_iff_not]
    refine ⟨?_, hc2⟩
    rcases hc1 with h | h
    · exact absurd hz.2 h
    · exact Or.inr h
  · -- the edit reaches the last line
    have htl : cur.drop (clampLine cur e.Range.End.Line + 1) = [] :=
      List.drop_eq_nil_of_le (by omega)
    have hlast : cur.getD (clampLine cur e.Range.End.Line) [] = last := by
      have : clampLine cur e.Range.End.Line = cur.length - 1 := by omega
      rw [this, hcl, getD_last_concat]
    rw [htl, List.append_nil] at hnext
    have hsfxle : le.length ≤ (keptTail cur e).length → HasSuffix (keptTail cur e) le = false := by
      intro hlen
      have : last = last.take (clampChar last e.Range.End.Character) ++ keptTail cur e := by
        unfold keptTail; rw [hlast, List.take_append_drop]
      rw [this, hasSuffix_append_of_le _ _ _ hlen] at hc2
      exact hc2
    -- the last emitted line is non-empty and does not end with the line ending, or no line
    -- is emitted and the lines before the edit do not end with a line break
    have key : (∃ (M : List GoString) (x : GoString),
        editMid (keptHead cur e) (keptTail cur e) e.NewText = M ++ [x] ∧ x ≠ [] ∧
          HasSuffix x le = false) ∨
        (editMid (keptHead cur e) (keptTail cur e) e.NewText = [] ∧
          endsWithBreak le (cur.take e.Range.Start.Line) = false) := by
      unfold editKeepsEnding at hk
      simp only [Bool.or_eq_true, decide_eq_true_eq, Bool.and_eq_true, bne_iff_ne, ne_eq,
        beq_iff_eq, Bool.not_eq_true'] at hk
      rcases hk with ((hk | hk) | hk) | hk
      · exact absurd hk ha
      · left
        obtain ⟨⟨ht, h1⟩, h2⟩ := hk
        obtain ⟨M, Y, hM, _, hY, hY0⟩ := editMid_last (keptHead cur e) (keptTail cur e)
          e.NewText (Or.inl ht)
        refine ⟨M, Y ++ keptTail cur e, hM, ?_, ?_⟩
        · rcases h1 with h1 | h1
          · simp [h1]
          · simp [(hY ht h1).1]
        · by_cases hlen : le.length ≤ (keptTail cur e).length
          · rw [hasSuffix_append_of_le _ _ _ hlen]; exact hsfxle hlen
          · by_cases h10 : e.NewText.getLast? = some 10
            · rw [hY0 h10, List.nil_append]
              unfold HasSuffix
              have : decide ((keptTail cur e).length ≥ le.length) = false := by
                simp; omega
              rw [this, Bool.false_and]
            · obtain ⟨hY1, hY2⟩ := hY ht h10
              apply hasSuffix_clear le hle Y _ hY1 (by rw [hY2]; exact h10) ?_ (by omega)
              intro hcr hh
              rw [hY2] at hh
              simp only [Bool.and_eq_false_iff, beq_eq_false_iff_ne, ne_eq] at h2
              rcases h2 with (h2 | h2) | h2
              · exact h2 hcr
              · exact h2 hh.1
              · exact h2 hh.2
      · left
        obtain ⟨⟨ht, hne⟩, hsuf⟩ := hk
        obtain ⟨M, Y, hM, hY, _⟩ := editMid_last (keptHead cur e) (keptTail cur e) e.NewText
          (Or.inr hne)
        have := hY ht
        subst this
        exact ⟨M, _, hM, hne, hsuf⟩
      · right
        obtain ⟨⟨ht, hemp⟩, hbefore⟩ := hk
        refine ⟨?_, hbefore⟩
        unfold editMid
        rw [ht, hemp]
        simp
    rcases key with ⟨M, x, hM, hx, hxs⟩ | ⟨hM, hbefore⟩
    · unfold keptHead keptTail at hM
      rw [hnext, hM, ← List.append_assoc, endsWithBreak_concat, hxs]
      simp [hx]
    · unfold keptHead keptTail at hM
      rw [hnext, hM, List.append_nil]
      exact hbefore

theorem endsWithBreak_fold (le : GoString) (hle : le = LF ∨ le = CRLF) :
    ∀ (es : List TextEdit) (cur res : List GoString),
      foldEdits le cur es = .ok res → foldKeepsEnding le cur es = true →
      endsWithBreak le cur = false → endsWithBreak le res = false := by
  intro es
  induction es with
  | nil =>
    intro cur res hf _ hc
    simp only [foldEdits] at hf
    cases hf
    exact hc
  | cons e es ih =>
    intro cur res hf hk hc
    simp only [foldEdits] at hf
    simp only [foldKeepsEnding, Bool.and_eq_true] at hk
    cases hstep : ApplyTextEdit cur e le with
    | error err => rw [hstep] at hf; cases hf
    | ok next =>
      rw [hstep] at hf
      have hk2 := hk.2
      rw [hstep] at hk2
      exact ih next res hf hk2 (endsWithBreak_step le hle cur next e hstep hk.1 hc)

theorem foldKeepsEnding_of_clear (le : GoString) :
    ∀ (es : List TextEdit) (cur : List GoString),
      (∀ e ∈ es, endsClear le e.NewText = true) → foldKeepsEnding le cur es = true := by
  intro es
  induction es with
  | nil => intro _ _; rfl
  | cons e es ih =>
    intro cur h
    simp only [foldKeepsEnding, Bool.and_eq_true]
    refine ⟨?_, ?_⟩
    · have hc := h e (List.mem_cons_self _ _)
      unfold endsClear at hc
      simp only [Bool.and_eq_true, bne_iff_ne, ne_eq, Bool.or_eq_true] at hc
      obtain ⟨⟨ht, h10⟩, h13⟩ := hc
      unfold editKeepsEnding
      simp only [Bool.or_eq_true, decide_eq_true_eq, Bool.and_eq_true, bne_iff_ne, ne_eq,
        beq_iff_eq, Bool.not_eq_true', Bool.and_eq_false_iff]
      left; left; right
      refine ⟨⟨ht, Or.inr h10⟩, ?_⟩
      rcases h13 with h13 | h13
      · exact Or.inl (Or.inl (by simpa using h13))
      · exact Or.inr (by simpa using h13)
    · cases ApplyTextEdit cur e le with
      | error err => rfl
      | ok next => exact ih next (fun e2 he2 => h e2 (List.mem_cons_of_mem _ he2))

/-- C7 (as amended): for every file content that does not end with its detected
line ending and every edit list for which `ApplyTextEdits` succeeds, no line
ending is appended: the content written is the final line array joined with
the line ending, and it ends with the line ending exactly when that array has
at least two lines and an empty last line, or a last line that itself ends
with the line ending.  The written content does not end with the line ending
whenever every edit, on the line array it is applied to, ends before the last
line; or has a non-empty `newText` that ends with "\n" only if something is
kept after it and, in a file with "\r\n" endings, does not end with "\r" right
before a kept tail that is exactly "\n"; or is a deletion whose kept text is
non-empty and does not end with the line ending; or is a deletion that emits no
line while the lines before its start line do not end with a line break.  In
particular it does not end with the line ending whenever every `newText` is
non-empty and ends neither with "\n" nor, in a file with "\r\n" endings, with
"\r". -/
theorem C7_no_trailing_ending_kept (fs : FS) (uri content : GoString) (edits : List TextEdit)
    (hr : osReadFile fs (TrimPrefix uri fileScheme) = some content)
    (hend : HasSuffix content (detectLineEnding content) = false)
    (hs : (ApplyTextEdits fs uri edits).1 = none) :
    ∃ lines,
      foldEdits (detectLineEnding content) (Split content (detectLineEnding content))
        (sortedEdits edits) = .ok lines ∧
      (ApplyTextEdits fs uri edits).2.writes =
        fs.writes ++ [(TrimPrefix uri fileScheme, joinLines (detectLineEnding content) lines)] ∧
      osReadFile (ApplyTextEdits fs uri edits).2 (TrimPrefix uri fileScheme) =
        some (joinLines (detectLineEnding content) lines) ∧
      HasSuffix (joinLines (detectLineEnding content) lines) (detectLineEnding content) =
        endsWithBreak (detectLineEnding content) lines ∧
      (foldKeepsEnding (detectLineEnding content) (Split content (detectLineEnding content))
          (sortedEdits edits) = true →
        HasSuffix (joinLines (detectLineEnding content) lines) (detectLineEnding content)
          = false) ∧
      ((∀ e ∈ edits, endsClear (detectLineEnding content) e.NewText = true) →
        HasSuffix (joinLines (detectLineEnding content) lines) (detectLineEnding content)
          = false) := by
  obtain ⟨data, hn, hw, hfs⟩ := applyTextEdits_success fs uri edits content hr hs
  obtain ⟨lines, hfold, hdata⟩ := newContent_ok content edits data hn
  obtain ⟨_, h2, h3⟩ := osWriteFile_files fs (TrimPrefix uri fileScheme) data hw
  have hle := detectLineEnding_cases content
  have hends : endsWithNewline content = false := by
    unfold endsWithNewline
    simp [hend]
  rw [hends] at hdata
  have hd : data = joinLines (detectLineEnding content) lines := by
    rw [hdata]; simp [finishContent]
  subst hd
  have hstart : endsWithBreak (detectLineEnding content)
      (Split content (detectLineEnding content)) = false := by
    rw [← hasSuffix_joinLines_general _ hle, joinLines_Split]; exact hend
  have hgen := hasSuffix_joinLines_general (detectLineEnding content) hle lines
  have hkeep : foldKeepsEnding (detectLineEnding content)
      (Split content (detectLineEnding content)) (sortedEdits edits) = true →
      HasSuffix (joinLines (detectLineEnding content) lines) (detectLineEnding content)
        = false := by
    intro hk
    rw [hgen]
    exact endsWithBreak_fold _ hle _ _ _ hfold hk hstart
  refine ⟨lines, hfold, by rw [hfs]; exact h3, by rw [hfs]; exact h2, hgen, hkeep, ?_⟩
  intro hall
  apply hkeep
  apply foldKeepsEnding_of_clear
  intro e he
  exact hall e ((perm_sortSlice editLess edits).mem_iff.mp he)

/-- C7, witness: in the file "ab\ncd", replacing "b" by "x\ny" and "d" by "z". -/
theorem C7_no_trailing_ending_kept_witness :
    osReadFile (singleFileFS [97, 98, 10, 99, 100]) (TrimPrefix sampleUri fileScheme)
      = some [97, 98, 10, 99, 100] ∧
    HasSuffix [97, 98, 10, 99, 100] (detectLineEnding [97, 98, 10, 99, 100]) = false ∧
    (ApplyTextEdits (singleFileFS [97, 98, 10, 99, 100]) sampleUri
      [⟨⟨⟨0, 1⟩, ⟨0, 2⟩⟩, [120, 10, 121]⟩, ⟨⟨⟨1, 1⟩, ⟨1, 2⟩⟩, [122]⟩]).1 = none ∧
    foldKeepsEnding (detectLineEnding [97, 98, 10, 99, 100])
      (Split [97, 98, 10, 99, 100] (detectLineEnding [97, 98, 10, 99, 100]))
      (sortedEdits [⟨⟨⟨0, 1⟩, ⟨0, 2⟩⟩, [120, 10, 121]⟩, ⟨⟨⟨1, 1⟩, ⟨1, 2⟩⟩, [122]⟩]) = true ∧
    (∀ e ∈ ([⟨⟨⟨0, 1⟩, ⟨0, 2⟩⟩, [120, 10, 121]⟩, ⟨⟨⟨1, 1⟩, ⟨1, 2⟩⟩, [122]⟩] : List TextEdit),
      endsClear (detectLineEnding [97, 98, 10, 99, 100]) e.NewText = true) ∧
    ∃ lines,
      foldEdits (detectLineEnding [97, 98, 10, 99, 100])
        (Split [97, 98, 10, 99, 100] (detectLineEnding [97, 98, 10, 99, 100]))
        (sortedEdits [⟨⟨⟨0, 1⟩, ⟨0, 2⟩⟩, [120, 10, 121]⟩, ⟨⟨⟨1, 1⟩, ⟨1, 2⟩⟩, [122]⟩])
        = .ok lines ∧
      (ApplyTextEdits (singleFileFS [97, 98, 10, 99, 100]) sampleUri
          [⟨⟨⟨0, 1⟩, ⟨0, 2⟩⟩, [120, 10, 121]⟩, ⟨⟨⟨1, 1⟩, ⟨1, 2⟩⟩, [122]⟩]).2.writes =
        (singleFileFS [97, 98, 10, 99, 100]).writes ++
          [(TrimPrefix sampleUri fileScheme,
            joinLines (detectLineEnding [97, 98, 10, 99, 100]) lines)] ∧
      osReadFile
          (ApplyTextEdits (singleFileFS [97, 98, 10, 99, 100]) sampleUri
            [⟨⟨⟨0, 1⟩, ⟨0, 2⟩⟩, [120, 10, 121]⟩, ⟨⟨⟨1, 1⟩, ⟨1, 2⟩⟩, [122]⟩]).2
          (TrimPrefix sampleUri fileScheme) =
        some (joinLines (detectLineEnding [97, 98, 10, 99, 100]) lines) ∧
      HasSuffix (joinLines (detectLineEnding [97, 98, 10, 99, 100]) lines)
          (detectLineEnding [97, 98, 10, 99, 100]) =
        endsWithBreak (detectLineEnding [97, 98, 10, 99, 100]) lines ∧
      (foldKeepsEnding (detectLineEnding [97, 98, 10, 99, 100])
          (Split [97, 98, 10, 99, 100] (detectLineEnding [97, 98, 10, 99, 100]))
          (sortedEdits [⟨⟨⟨0, 1⟩, ⟨0, 2⟩⟩, [120, 10, 121]⟩, ⟨⟨⟨1, 1⟩, ⟨1, 2⟩⟩, [122]⟩]) = true →
        HasSuffix (joinLines (detectLineEnding [97, 98, 10, 99, 100]) lines)
          (detectLineEnding [97, 98, 10, 99, 100]) = false) ∧
      ((∀ e ∈ ([⟨⟨⟨0, 1⟩, ⟨0, 2⟩⟩, [120, 10, 121]⟩, ⟨⟨⟨1, 1⟩, ⟨1, 2⟩⟩, [122]⟩] : List TextEdit),
          endsClear (detectLineEnding [97, 98, 10, 99, 100]) e.NewText = true) →
        HasSuffix (joinLines (detectLineEnding [97, 98, 10, 99, 100]) lines)
          (detectLineEnding [97, 98, 10, 99, 100]) = false) :=
  ⟨by decide, by decide, by decide, by decide, by decide,
    C7_no_trailing_ending_kept (singleFileFS [97, 98, 10, 99, 100]) sampleUri
      [97, 98, 10, 99, 100]
      [⟨⟨⟨0, 1⟩, ⟨0, 2⟩⟩, [120, 10, 121]⟩, ⟨⟨⟨1, 1⟩, ⟨1, 2⟩⟩, [122]⟩]
      (by decide) (by decide) (by decide)⟩

/-- C7, counterexamples: three files that do not end with their line ending, and
one successful edit each after which the written content does.  In the file
"ab", inserting "\n" at (0,2) writes "ab\n".  In the file "a\n\nb", deleting
"b" (range (2,0)-(2,1)) drops the emptied last line and writes "a\n".  In the
file "a\r\nb\n", whose line ending is "\r\n", inserting "\r" at (1,1) writes
"a\r\nb\r\n". -/
theorem C7_counterexample_trailing_ending_created :
    (osReadFile (singleFileFS [97, 98]) (TrimPrefix sampleUri fileScheme) = some [97, 98] ∧
     detectLineEnding [97, 98] = LF ∧
     HasSuffix [97, 98] LF = false ∧
     (ApplyTextEdits (singleFileFS [97, 98]) sampleUri [⟨⟨⟨0, 2⟩, ⟨0, 2⟩⟩, [10]⟩]).1 = none ∧
     osReadFile (ApplyTextEdits (singleFileFS [97, 98]) sampleUri [⟨⟨⟨0, 2⟩, ⟨0, 2⟩⟩, [10]⟩]).2
       (TrimPrefix sampleUri fileScheme) = some [97, 98, 10] ∧
     HasSuffix [97, 98, 10] LF = true) ∧
    (osReadFile (singleFileFS [97, 10, 10, 98]) (TrimPrefix sampleUri fileScheme)
       = some [97, 10, 10, 98] ∧
     detectLineEnding [97, 10, 10, 98] = LF ∧
     HasSuffix [97, 10, 10, 98] LF = false ∧
     (ApplyTextEdits (singleFileFS [97, 10, 10, 98]) sampleUri
       [⟨⟨⟨2, 0⟩, ⟨2, 1⟩⟩, []⟩]).1 = none ∧
     osReadFile (ApplyTextEdits (singleFileFS [97, 10, 10, 98]) sampleUri
       [⟨⟨⟨2, 0⟩, ⟨2, 1⟩⟩, []⟩]).2 (TrimPrefix sampleUri fileScheme) = some [97, 10] ∧
     HasSuffix [97, 10] LF = true) ∧
    (osReadFile (singleFileFS [97, 13, 10, 98, 10]) (TrimPrefix sampleUri fileScheme)
       = some [97, 13, 10, 98, 10] ∧
     detectLineEnding [97, 13, 10, 98, 10] = CRLF ∧
     HasSuffix [97, 13, 10, 98, 10] CRLF = false ∧
     (ApplyTextEdits (singleFileFS [97, 13, 10, 98, 10]) sampleUri
       [⟨⟨⟨1, 1⟩, ⟨1, 1⟩⟩, [13]⟩]).1 = none ∧
     osReadFile (ApplyTextEdits (singleFileFS [97, 13, 10, 98, 10]) sampleUri
       [⟨⟨⟨1, 1⟩, ⟨1, 1⟩⟩, [13]⟩]).2 (TrimPrefix sampleUri fileScheme)
       = some [97, 13, 10, 98, 13, 10] ∧
     HasSuffix [97, 13, 10, 98, 13, 10] CRLF = true) := by
  decide

/-! ## C2: inserting a text and deleting it again -/

theorem goIndex_none_of_append (sep a b : GoString) (h : goIndex sep (a ++ b) = none) :
    goIndex sep a = none ∧ goIndex sep b = none := by
  constructor
  · cases ha : goIndex sep a with
    | none => rfl
    | some m =>
      exfalso
      have hs := goIndex_spec sep a m ha
      apply goIndex_append_ne_none sep (a.drop (m + sep.length) ++ b) (a.take m)
      rw [← h]
      congr 1
      conv_rhs => rw [hs]
      simp
  · cases hb : goIndex sep b with
    | none => rfl
    | some m =>
      exfalso
      have hs := goIndex_spec sep b m hb
      apply goIndex_append_ne_none sep (b.drop (m + sep.length)) (a ++ b.take m)
      rw [← h]
      congr 1
      conv_rhs => rw [hs]
      simp

theorem goIndex_LF_none_iff (s : GoString) : goIndex LF s = none ↔ (10 : UInt8) ∉ s :=
  ⟨not_mem_of_goIndex_LF_none s, goIndex_none_of_not_mem LF s 10 (by decide)⟩

theorem goIndex_CRLF_append (a b : GoString) (ha : goIndex CRLF a = none)
    (hb : goIndex CRLF b = none) (hab : ¬ (a.getLast? = some 13 ∧ b.head? = some 10)) :
    goIndex CRLF (a ++ b) = none := by
  induction a with
  | nil => exact hb
  | cons c a ih =>
    rw [goIndex_cons_none] at ha
    rw [List.cons_append, goIndex_cons_none]
    cases a with
    | nil =>
      refine ⟨?_, hb⟩
      cases b with
      | nil => exact isPrefixOf_CRLF_single c
      | cons d bs =>
        rw [List.nil_append, isPrefixOf_CRLF]
        simp only [List.getLast?_singleton, List.head?_cons, Option.some.injEq, not_and] at hab
        by_cases h13 : c = 13
        · have := hab h13
          simp [h13, Ne.symm this]
        · simp [Ne.symm h13]
    | cons d a2 =>
      refine ⟨?_, ?_⟩
      · rw [List.cons_append, isPrefixOf_CRLF]
        have := ha.1
        rw [isPrefixOf_CRLF] at this
        exact this
      · apply ih ha.2
        intro h
        apply hab
        refine ⟨?_, h.2⟩
        rw [List.getLast?_cons_cons]
        exact h.1

theorem goIndex_append_none (le : GoString) (hle : le = LF ∨ le = CRLF) (a b : GoString)
    (ha : goIndex le a = none) (hb : goIndex le b = none)
    (hab : le = CRLF → ¬ (a.getLast? = some 13 ∧ b.head? = some 10)) :
    goIndex le (a ++ b) = none := by
  rcases hle with rfl | rfl
  · rw [goIndex_LF_none_iff] at *
    simp [ha, hb]
  · exact goIndex_CRLF_append a b ha hb (hab rfl)

theorem goIndex_none_of_no_LF (le : GoString) (hle : le = LF ∨ le = CRLF) (s : GoString)
    (h : (10 : UInt8) ∉ s) : goIndex le s = none := by
  rcases hle with rfl | rfl
  · exact goIndex_none_of_not_mem LF s 10 (by decide) h
  · exact goIndex_none_of_not_mem CRLF s 10 (by decide) h

theorem hasSuffix_false_of_canonical (le : GoString) (l : GoString)
    (h : goIndex le l = none) : HasSuffix l le = false := by
  rw [← Bool.not_eq_true]
  intro hs
  unfold HasSuffix at hs
  simp only [ge_iff_le, Bool.and_eq_true, decide_eq_true_eq] at hs
  apply goIndex_append_ne_none le [] (l.take (l.length - le.length))
  rw [← h]
  congr 1
  conv_rhs => rw [← List.take_append_drop (l.length - le.length) l, hs.2]
  simp

theorem hasSuffix_canonical_concat (le : GoString) (hle : le = LF ∨ le = CRLF)
    (init : List GoString) (z : GoString) (hz : goIndex le z = none) :
    HasSuffix (joinLines le (init ++ [z])) le = (decide (1 ≤ init.length) && decide (z = [])) := by
  rw [hasSuffix_joinLines_general le hle, endsWithBreak_concat,
    hasSuffix_false_of_canonical le z hz, Bool.or_false]

theorem joinLines_concat_nil (le : GoString) (X : List GoString) (hX : X ≠ []) :
    joinLines le (X ++ [[]]) = joinLines le X ++ le := by
  obtain ⟨x, xs, rfl⟩ := List.exists_cons_of_ne_nil hX
  rw [joinLines_cons_append]
  simp [joinRest]

theorem finishContent_false (le J : GoString) : finishContent le false J = J := by
  simp [finishContent]

theorem finishContent_append (le J : GoString) (h : HasSuffix J le = false) :
    finishContent le true J = J ++ le := by
  simp [finishContent, h]

theorem restore_lines (le : GoString) (hle : le = LF ∨ le = CRLF) (A B M D : List GoString)
    (L : GoString)
    (hc : ∀ x ∈ A ++ L :: B, goIndex le x = none)
    (hM : ∀ x ∈ M, goIndex le x = none)
    (hMne : M ≠ [])
    (hM2 : M.getLast? = some [] → 2 ≤ M.length)
    (hD : D = if L = [] then [] else [L])
    (e1 : L ≠ [] ∨ B = [] ∨ (A = [] ∧ B = [[]]))
    (e2 : B = [] → M.getLast? = some [] →
      A ≠ [] ∧ L = [] ∧ HasSuffix (joinLines le A) le = false) :
    ∃ extra : List GoString, (∀ x ∈ extra, x = []) ∧
      finishContent le (HasSuffix (joinLines le (A ++ L :: B)) le) (joinLines le (A ++ M ++ B))
        = joinLines le (A ++ M ++ (B ++ extra)) ∧
      finishContent le (HasSuffix (joinLines le (A ++ M ++ (B ++ extra))) le)
        (joinLines le (A ++ D ++ (B ++ extra))) = joinLines le (A ++ L :: B) := by
  have hnil : goIndex le [] = none := goIndex_nil_of_ne le (lineEnding_ne_nil le hle)
  rcases List.eq_nil_or_concat B with rfl | ⟨B0, z, rfl⟩
  · -- the position is on the last line
    obtain ⟨Mi, y, rfl⟩ : ∃ Mi y, M = Mi ++ [y] := by
      rcases List.eq_nil_or_concat M with h | ⟨Mi, y, h⟩
      · exact absurd h hMne
      · exact ⟨Mi, y, by simpa using h⟩
    have hy : goIndex le y = none := hM y (by simp)
    have hL : goIndex le L = none := hc L (by simp)
    have hE0 : HasSuffix (joinLines le (A ++ [L])) le
        = (decide (1 ≤ A.length) && decide (L = [])) :=
      hasSuffix_canonical_concat le hle A L hL
    have hE1 : HasSuffix (joinLines le (A ++ (Mi ++ [y]))) le
        = (decide (1 ≤ (A ++ Mi).length) && decide (y = [])) := by
      rw [← List.append_assoc]
      exact hasSuffix_canonical_concat le hle (A ++ Mi) y hy
    by_cases hy0 : y = []
    · subst hy0
      have hlast : (Mi ++ [[]] : List GoString).getLast? = some [] := by simp
      obtain ⟨hA, hL0, hJA⟩ := e2 rfl hlast
      subst hL0
      have hMi : 1 ≤ Mi.length := by
        have := hM2 hlast
        simp at this
        omega
      refine ⟨[], by simp, ?_, ?_⟩
      · simp only [List.append_nil]
        apply finishContent_of_imp
        intro _
        rw [hE1]
        simp
        omega
      · simp only [List.append_nil, if_true] at hD ⊢
        subst hD
        rw [List.append_nil, hE1]
        have : (decide (1 ≤ (A ++ Mi).length) && decide (([] : GoString) = [])) = true := by
          simp; omega
        rw [this, finishContent_append le _ hJA, joinLines_concat_nil le A hA]
    · have hE1f : HasSuffix (joinLines le (A ++ (Mi ++ [y]))) le = false := by
        rw [hE1]; simp [hy0]
      by_cases hE0t : (A ≠ [] ∧ L = [])
      · obtain ⟨hA, hL0⟩ := hE0t
        subst hL0
        have hApos : 1 ≤ A.length := Nat.succ_le_of_lt (List.length_pos.mpr hA)
        refine ⟨[[]], by simp, ?_, ?_⟩
        · rw [hE0]
          simp only [hApos, decide_True, Bool.and_self, List.nil_append, List.append_nil,
            List.append_assoc]
          rw [finishContent_append le _ hE1f]
          have := joinLines_concat_nil le (A ++ (Mi ++ [y])) (by simp)
          simp only [List.append_assoc] at this
          rw [this]
        · simp only [if_true] at hD
          subst hD
          simp only [List.nil_append, List.append_nil]
          apply finishContent_of_imp
          intro _
          rw [hE0]
          simp
          omega
      · have hE0f : HasSuffix (joinLines le (A ++ [L])) le = false := by
          rw [hE0]
          simp only [Bool.and_eq_false_iff, decide_eq_false_iff_not]
          by_cases hA : A = []
          · left; simp [hA]
          · right; exact fun h => hE0t ⟨hA, h⟩
        refine ⟨[], by simp, ?_, ?_⟩
        · rw [hE0f, finishContent_false]; simp
        · simp only [List.append_nil]
          rw [hE1f, finishContent_false]
          by_cases hL0 : L = []
          · have hA : A = [] := by
              by_contra hA
              exact hE0t ⟨hA, hL0⟩
            subst hA; subst hL0
            simp only [if_true] at hD
            subst hD
            rfl
          · rw [if_neg hL0] at hD
            subst hD
            rfl
  · -- lines follow the line of the position
    simp only [List.concat_eq_append] at *
    have hz : goIndex le z = none := hc z (by simp)
    have hE0 : HasSuffix (joinLines le (A ++ L :: (B0 ++ [z]))) le = decide (z = []) := by
      have : A ++ L :: (B0 ++ [z]) = (A ++ L :: B0) ++ [z] := by simp
      rw [this, hasSuffix_canonical_concat le hle _ z hz]
      have h1 : 1 ≤ (A ++ L :: B0).length := by simp; omega
      simp only [h1, decide_True, Bool.true_and]
    have hE1 : HasSuffix (joinLines le (A ++ M ++ (B0 ++ [z]))) le = decide (z = []) := by
      have : A ++ M ++ (B0 ++ [z]) = (A ++ M ++ B0) ++ [z] := by simp
      rw [this, hasSuffix_canonical_concat le hle _ z hz]
      have : 1 ≤ (A ++ M ++ B0).length := by
        have := List.length_pos.mpr hMne
        simp only [List.length_append]
        omega
      simp only [this, decide_True, Bool.true_and]
    refine ⟨[], by simp, ?_, ?_⟩
    · simp only [List.append_nil]
      apply finishContent_of_imp
      intro h
      rw [hE1, ← hE0]
      exact h
    · simp only [List.append_nil]
      rw [hE1]
      by_cases hL0 : L = []
      · subst hL0
        rcases e1 with h | h | ⟨hA, hB⟩
        · exact absurd rfl h
        · simp at h
        · subst hA
          simp only [if_true] at hD
          subst hD
          have hB0 : B0 = [] ∧ z = [] := by
            rcases List.eq_nil_or_concat B0 with h0 | ⟨B1, w, h0⟩
            · subst h0
              simp at hB
              exact ⟨rfl, hB⟩
            · subst h0
              exfalso
              have := congrArg List.length hB
              simp at this
          obtain ⟨rfl, rfl⟩ := hB0
          have h0 : HasSuffix (joinLines le ([] ++ [] ++ ([] ++ [[]]))) le = false := by
            rcases hle with rfl | rfl <;> decide
          simp only [decide_True]
          rw [finishContent_append le _ h0]
          simp [joinLines, joinRest]
      · rw [if_neg hL0] at hD
        subst hD
        have : A ++ [L] ++ (B0 ++ [z]) = A ++ L :: (B0 ++ [z]) := by simp
        rw [this]
        apply finishContent_of_imp
        intro h
        rw [hE0]
        exact h

theorem applyTextEdit_span (A B mid : List GoString) (F Z : GoString) (c1 c2 : Nat)
    (hc1 : c1 ≤ F.length) (hc2 : c2 ≤ Z.length) (t le : GoString) :
    ApplyTextEdit (A ++ F :: (mid ++ Z :: B))
        ⟨⟨⟨A.length, c1⟩, ⟨A.length + mid.length + 1, c2⟩⟩, t⟩ le =
      .ok (A ++ editMid (F.take c1) (Z.drop c2) t ++ B) := by
  have hg1 : (A ++ F :: (mid ++ Z :: B)).getD A.length [] = F := by
    rw [List.getD_append_right _ _ _ _ (le_refl _)]; simp
  have hre : A ++ F :: (mid ++ Z :: B) = (A ++ F :: mid) ++ Z :: B := by simp
  have hlen : (A ++ F :: mid).length = A.length + mid.length + 1 := by simp; omega
  have hg2 : (A ++ F :: (mid ++ Z :: B)).getD (A.length + mid.length + 1) [] = Z := by
    rw [hre, ← hlen, List.getD_append_right _ _ _ _ (le_refl _)]; simp
  have hd : (A ++ F :: (mid ++ Z :: B)).drop (A.length + mid.length + 1 + 1) = B := by
    have : A ++ F :: (mid ++ Z :: B) = (A ++ F :: mid ++ [Z]) ++ B := by simp
    rw [this, show A.length + mid.length + 1 + 1 = (A ++ F :: mid ++ [Z]).length by
      simp; omega, List.drop_left]
  rw [applyTextEdit_inBounds]
  · simp only [hg1, hg2, hd]
    rw [List.take_left]
  · refine ⟨⟨?_, ?_⟩, ?_, ?_⟩
    · simp
    · simp only [hg1]; exact hc1
    · simp; omega
    · simp only [hg2]; exact hc2

theorem hasSuffix_append_right (x y s : GoString) :
    HasSuffix (x ++ s) (y ++ s) = HasSuffix x y := by
  have h : HasSuffix (x ++ s) (y ++ s) = true ↔ HasSuffix x y = true := by
    rw [hasSuffix_iff_reverse, hasSuffix_iff_reverse, List.reverse_append, List.reverse_append,
      List.prefix_append_right_inj]
  cases h1 : HasSuffix x y with
  | true => exact h.mpr h1
  | false =>
    cases h2 : HasSuffix (x ++ s) (y ++ s) with
    | false => rfl
    | true => rw [h.mp h2] at h1; cases h1

theorem endsWithNewline_eq (c : GoString) (hle : detectLineEnding c = LF ∨ detectLineEnding c = CRLF) :
    endsWithNewline c = HasSuffix c (detectLineEnding c) := by
  unfold endsWithNewline
  cases h : HasSuffix c (detectLineEnding c) with
  | false => simp
  | true =>
    have hpos : c.length > 0 := by
      unfold HasSuffix at h
      simp only [ge_iff_le, Bool.and_eq_true, decide_eq_true_eq] at h
      have : 0 < (detectLineEnding c).length := by
        rcases hle with h | h <;> rw [h] <;> decide
      omega
    simp [hpos]

theorem editMid_canonical (le : GoString) (hle : le = LF ∨ le = CRLF) (pre suf t : GoString)
    (ht : t ≠ []) (hps : goIndex le (pre ++ suf) = none)
    (hcr : le = CRLF → ¬ (t.getLast? = some 13 ∧ suf.head? = some 10)) :
    ∀ x ∈ editMid pre suf t, goIndex le x = none := by
  obtain ⟨hpre, hsuf⟩ := goIndex_none_of_append le pre suf hps
  have hpieces := Split_pieces_none t LF (by decide)
  rcases split_LF_cases t with ⟨_, h10⟩ | ⟨n0, mid, nk, hs, _⟩
  · rw [editMid_single_line pre suf t ht h10]
    intro x hx
    rw [List.mem_singleton] at hx
    subst hx
    rw [List.append_assoc]
    have hts : goIndex le (t ++ suf) = none :=
      goIndex_append_none le hle t suf (goIndex_none_of_no_LF le hle t h10) hsuf hcr
    apply goIndex_append_none le hle pre (t ++ suf) hpre hts
    intro _ h
    apply h10
    obtain ⟨c, cs, rfl⟩ := List.exists_cons_of_ne_nil ht
    have := h.2
    simp only [List.cons_append, List.head?_cons, Option.some.injEq] at this
    rw [this]
    simp
  · rw [editMid_of_split pre suf t n0 nk mid hs]
    rw [hs] at hpieces
    have hn0 : (10 : UInt8) ∉ n0 := not_mem_of_goIndex_LF_none n0 (hpieces n0 (by simp))
    have hnk : (10 : UInt8) ∉ nk := not_mem_of_goIndex_LF_none nk (hpieces nk (by simp))
    intro x hx
    simp only [List.mem_cons, List.mem_append, List.not_mem_nil, or_false] at hx
    rcases hx with rfl | hx | rfl
    · apply goIndex_append_none le hle pre n0 hpre (goIndex_none_of_no_LF le hle n0 hn0)
      intro _ h
      apply hn0
      cases n0 with
      | nil => simp at h
      | cons c cs =>
        have := h.2
        simp only [List.head?_cons, Option.some.injEq] at this
        rw [this]; simp
    · exact goIndex_none_of_no_LF le hle x
        (not_mem_of_goIndex_LF_none x (hpieces x (by simp [hx])))
    · apply goIndex_append_none le hle nk suf (goIndex_none_of_no_LF le hle nk hnk) hsuf
      intro hcrlf h
      apply hcr hcrlf
      refine ⟨?_, h.2⟩
      have ht2 := text_of_split t n0 nk mid hs
      have hne : nk ≠ [] := by
        intro h0; rw [h0] at h; simp at h
      rw [ht2, List.getLast?_append_of_ne_nil _ hne]
      exact h.1

theorem editMid_insert_cases (pre suf t : GoString) (ht : t ≠ []) (P : Position) :
    ((10 : UInt8) ∉ t ∧ editMid pre suf t = [pre ++ t ++ suf] ∧
      endOfInserted P t = ⟨P.Line, P.Character + t.length⟩) ∨
    (∃ n0 mid nk, Split t LF = n0 :: (mid ++ [nk]) ∧
      editMid pre suf t = (pre ++ n0) :: (mid ++ [nk ++ suf]) ∧
      endOfInserted P t = ⟨P.Line + mid.length + 1, nk.length⟩) := by
  rcases split_LF_cases t with ⟨hs, h10⟩ | ⟨n0, mid, nk, hs, _⟩
  · left
    refine ⟨h10, editMid_single_line pre suf t ht h10, ?_⟩
    unfold endOfInserted
    rw [hs]
    simp
  · right
    refine ⟨n0, mid, nk, hs, editMid_of_split pre suf t n0 nk mid hs, ?_⟩
    unfold endOfInserted
    rw [hs]
    have hlen : (n0 :: (mid ++ [nk])).length = mid.length + 2 := by simp
    have hg : (n0 :: (mid ++ [nk])).getD ((n0 :: (mid ++ [nk])).length - 1) [] = nk := by
      have : n0 :: (mid ++ [nk]) = (n0 :: mid) ++ [nk] := rfl
      rw [this, getD_last_concat]
    rw [hg, hlen, if_neg (by omega)]
    rfl

theorem Split_self (le : GoString) (hle : le = LF ∨ le = CRLF) : Split le le = [[], []] := by
  rcases hle with rfl | rfl <;> decide

theorem insert_delete_general (content le t pre suf : GoString) (A B : List GoString)
    (hle : detectLineEnding content = le)
    (hsplit : Split content le = A ++ (pre ++ suf) :: B)
    (ht : t ≠ [])
    (e1 : pre ++ suf ≠ [] ∨ B = [] ∨ content = le)
    (e2 : B = [] → suf = [] → t.getLast? = some 10 →
      HasSuffix content le = true ∧ HasSuffix content (le ++ le) = false)
    (hcr : le = CRLF → ¬ (t.getLast? = some 13 ∧ suf.head? = some 10))
    (hstyle : ∀ c1, newContent content [⟨⟨⟨A.length, pre.length⟩, ⟨A.length, pre.length⟩⟩, t⟩]
      = .ok c1 → detectLineEnding c1 = le) :
    ∃ c1, newContent content [⟨⟨⟨A.length, pre.length⟩, ⟨A.length, pre.length⟩⟩, t⟩] = .ok c1 ∧
      newContent c1
        [⟨⟨⟨A.length, pre.length⟩, endOfInserted ⟨A.length, pre.length⟩ t⟩, []⟩] = .ok content := by
  have hsep : le = LF ∨ le = CRLF := by rw [← hle]; exact detectLineEnding_cases content
  have hc : content = joinLines le (A ++ (pre ++ suf) :: B) := by
    rw [← hsplit, joinLines_Split]
  have hns : ∀ x ∈ A ++ (pre ++ suf) :: B, goIndex le x = none := by
    rw [← hsplit]; exact Split_pieces_none content le (lineEnding_ne_nil le hsep)
  have hMc := editMid_canonical le hsep pre suf t ht (hns (pre ++ suf) (by simp)) hcr
  have hshape := editMid_insert_cases pre suf t ht ⟨A.length, pre.length⟩
  have hMne : editMid pre suf t ≠ [] := by
    rcases hshape with ⟨_, h, _⟩ | ⟨n0, mid, nk, _, h, _⟩ <;> rw [h] <;> simp
  have hlastM : (editMid pre suf t).getLast? = some [] →
      2 ≤ (editMid pre suf t).length ∧ suf = [] ∧ t.getLast? = some 10 := by
    rcases hshape with ⟨_, h, _⟩ | ⟨n0, mid, nk, hs, h, _⟩
    · rw [h]
      intro h0
      simp at h0
      exact absurd h0.2.1 ht
    · rw [h]
      intro h0
      have : (pre ++ n0) :: (mid ++ [nk ++ suf]) = ((pre ++ n0) :: mid) ++ [nk ++ suf] := rfl
      rw [this, List.getLast?_append_of_ne_nil _ (by simp)] at h0
      simp only [List.getLast?_singleton, Option.some.injEq, List.append_eq_nil] at h0
      refine ⟨by simp, h0.2, ?_⟩
      rw [text_of_split t n0 nk mid hs, h0.1, List.append_nil]
      exact getLast?_joinLead_LF _ (by simp)
  have hD : editMid pre suf [] = if pre ++ suf = [] then [] else [pre ++ suf] := by
    unfold editMid
    by_cases h : pre ++ suf = [] <;> simp [h]
  have e1' : pre ++ suf ≠ [] ∨ B = [] ∨ (A = [] ∧ B = [[]]) := by
    rcases e1 with h | h | h
    · exact Or.inl h
    · exact Or.inr (Or.inl h)
    · have hs2 := hsplit
      rw [h, Split_self le hsep] at hs2
      match A, hs2 with
      | [], hs2 =>
        simp only [List.nil_append, List.cons.injEq] at hs2
        exact Or.inr (Or.inr ⟨rfl, hs2.2.symm⟩)
      | [a], hs2 =>
        simp only [List.singleton_append, List.cons.injEq] at hs2
        exact Or.inr (Or.inl hs2.2.2.symm)
      | a :: b :: A2, hs2 =>
        exfalso
        have := congrArg List.length hs2
        simp at this
  have e2' : B = [] → (editMid pre suf t).getLast? = some [] →
      A ≠ [] ∧ pre ++ suf = [] ∧ HasSuffix (joinLines le A) le = false := by
    intro hB hl
    obtain ⟨_, hsuf, h10⟩ := hlastM hl
    obtain ⟨h1, h2⟩ := e2 hB hsuf h10
    subst hB
    rw [hc, hasSuffix_canonical_concat le hsep A (pre ++ suf) (hns _ (by simp))] at h1
    simp only [Bool.and_eq_true, decide_eq_true_eq] at h1
    have hA : A ≠ [] := by
      intro h0; rw [h0] at h1; simp at h1
    refine ⟨hA, h1.2, ?_⟩
    rw [hc, h1.2, joinLines_concat_nil le A hA, hasSuffix_append_right] at h2
    exact h2
  obtain ⟨extra, hex, hfin1, hfin2⟩ := restore_lines le hsep A B (editMid pre suf t)
    (editMid pre suf []) (pre ++ suf) hns hMc hMne (fun h => (hlastM h).1) hD e1' e2'
  have happ1 : ApplyTextEdit (Split content (detectLineEnding content))
      ⟨⟨⟨A.length, pre.length⟩, ⟨A.length, pre.length⟩⟩, t⟩ (detectLineEnding content) =
      .ok (A ++ editMid pre suf t ++ B) := by
    rw [hle, hsplit, applyTextEdit_at A B (pre ++ suf) pre.length pre.length (by simp)
      (by simp) t le, List.take_left, List.drop_left]
  have hnc1 : newContent content [⟨⟨⟨A.length, pre.length⟩, ⟨A.length, pre.length⟩⟩, t⟩] =
      .ok (joinLines le (A ++ editMid pre suf t ++ (B ++ extra))) := by
    rw [newContent_single content _ _ happ1, endsWithNewline_eq content (by rw [hle]; exact hsep),
      hle, ← hfin1, ← hc]
  have hdet := hstyle _ hnc1
  refine ⟨_, hnc1, ?_⟩
  have hnsW : ∀ x ∈ A ++ editMid pre suf t ++ (B ++ extra), goIndex le x = none := by
    intro x hx
    simp only [List.mem_append] at hx
    rcases hx with (hx | hx) | hx | hx
    · exact hns x (by simp [hx])
    · exact hMc x hx
    · exact hns x (by simp [hx])
    · rw [hex x hx]; exact goIndex_nil_of_ne le (lineEnding_ne_nil le hsep)
  have hsplit1 : Split (joinLines le (A ++ editMid pre suf t ++ (B ++ extra))) le =
      A ++ editMid pre suf t ++ (B ++ extra) :=
    Split_joinLines le hsep _ (by simp [hMne]) hnsW
  have happ2 : ApplyTextEdit (A ++ editMid pre suf t ++ (B ++ extra))
      ⟨⟨⟨A.length, pre.length⟩, endOfInserted ⟨A.length, pre.length⟩ t⟩, []⟩ le =
      .ok (A ++ editMid pre suf [] ++ (B ++ extra)) := by
    rcases hshape with ⟨_, h, he⟩ | ⟨n0, mid, nk, _, h, he⟩
    · rw [h, he]
      have : A ++ [pre ++ t ++ suf] ++ (B ++ extra) = A ++ (pre ++ t ++ suf) :: (B ++ extra) := by
        simp
      rw [this, applyTextEdit_at A (B ++ extra) (pre ++ t ++ suf) pre.length
        (pre.length + t.length) (by simp) (by simp) [] le]
      have e1 : List.take pre.length (pre ++ t ++ suf) = pre := by
        rw [List.append_assoc, List.take_left]
      have e2 : List.drop (pre.length + t.length) (pre ++ t ++ suf) = suf := by
        rw [← List.length_append, List.drop_left]
      rw [e1, e2]
    · rw [h, he]
      have : A ++ (pre ++ n0) :: (mid ++ [nk ++ suf]) ++ (B ++ extra) =
          A ++ (pre ++ n0) :: (mid ++ (nk ++ suf) :: (B ++ extra)) := by simp
      rw [this, applyTextEdit_span A (B ++ extra) mid (pre ++ n0) (nk ++ suf) pre.length
        nk.length (by simp) (by simp) [] le, List.take_left, List.drop_left]
  have happ2' : ApplyTextEdit
      (Split (joinLines le (A ++ editMid pre suf t ++ (B ++ extra)))
        (detectLineEnding (joinLines le (A ++ editMid pre suf t ++ (B ++ extra)))))
      ⟨⟨⟨A.length, pre.length⟩, endOfInserted ⟨A.length, pre.length⟩ t⟩, []⟩
      (detectLineEnding (joinLines le (A ++ editMid pre suf t ++ (B ++ extra)))) =
      .ok (A ++ editMid pre suf [] ++ (B ++ extra)) := by
    rw [hdet, hsplit1]; exact happ2
  rw [newContent_single _ _ _ happ2', endsWithNewline_eq _ (by rw [hdet]; exact hsep), hdet,
    hfin2, ← hc]

/-- C2 (as amended): for every file content, every in-bounds position P and
every non-empty text t, `ApplyTextEdits` with the single insertion (range P..P,
`newText` t) succeeds, and a second call on the resulting file with the single
deletion of the span that t now occupies (from P to `endOfInserted P t`, empty
`newText`) succeeds and leaves the file with its original content, provided
that: the line of P is non-empty, or is the last line, or the file is exactly
one line ending; when P is the end of the last line and t ends with "\n", the
file ends with exactly one line ending; in a file with "\r\n" endings, t does
not end with "\r" right before a "\n" at P; and the file written by the first
call has the same detected line ending as the original.  The write is assumed
to be permitted. -/
theorem C2_insert_then_delete_round_trip (fs : FS) (uri content t : GoString) (P : Position)
    (hr : osReadFile fs (TrimPrefix uri fileScheme) = some content)
    (hw : fs.writable (TrimPrefix uri fileScheme) = true)
    (hP : posInBounds (Split content (detectLineEnding content)) P)
    (ht : t ≠ [])
    (hline : (Split content (detectLineEnding content)).getD P.Line [] ≠ [] ∨
      P.Line + 1 = (Split content (detectLineEnding content)).length ∨
      content = detectLineEnding content)
    (hend : P.Line + 1 = (Split content (detectLineEnding content)).length →
      P.Character = ((Split content (detectLineEnding content)).getD P.Line []).length →
      t.getLast? = some 10 →
      HasSuffix content (detectLineEnding content) = true ∧
      HasSuffix content (detectLineEnding content ++ detectLineEnding content) = false)
    (hcr : detectLineEnding content = CRLF →
      ¬ (t.getLast? = some 13 ∧
        ((Split content (detectLineEnding content)).getD P.Line [])[P.Character]? = some 10))
    (hstyle : ∀ c1, osReadFile (ApplyTextEdits fs uri [⟨⟨P, P⟩, t⟩]).2
      (TrimPrefix uri fileScheme) = some c1 → detectLineEnding c1 = detectLineEnding content) :
    (ApplyTextEdits fs uri [⟨⟨P, P⟩, t⟩]).1 = none ∧
    (ApplyTextEdits (ApplyTextEdits fs uri [⟨⟨P, P⟩, t⟩]).2 uri
      [⟨⟨P, endOfInserted P t⟩, []⟩]).1 = none ∧
    osReadFile (ApplyTextEdits (ApplyTextEdits fs uri [⟨⟨P, P⟩, t⟩]).2 uri
      [⟨⟨P, endOfInserted P t⟩, []⟩]).2 (TrimPrefix uri fileScheme) = some content := by
  obtain ⟨hl, hc⟩ := hP
  have hsplit := split_at_line _ _ hl
  have hlen : (List.take P.Line (Split content (detectLineEnding content))).length = P.Line := by
    rw [List.length_take]; omega
  have hpre : (List.take P.Character
      ((Split content (detectLineEnding content)).getD P.Line [])).length = P.Character := by
    rw [List.length_take]; omega
  have hB : List.drop (P.Line + 1) (Split content (detectLineEnding content)) = [] ↔
      P.Line + 1 = (Split content (detectLineEnding content)).length := by
    rw [List.drop_eq_nil_iff]; omega
  have hS : List.drop P.Character ((Split content (detectLineEnding content)).getD P.Line []) = [] ↔
      P.Character = ((Split content (detectLineEnding content)).getD P.Line []).length := by
    rw [List.drop_eq_nil_iff]; omega
  have hhead : (List.drop P.Character
      ((Split content (detectLineEnding content)).getD P.Line [])).head? =
      ((Split content (detectLineEnding content)).getD P.Line [])[P.Character]? := by
    rw [List.head?_drop]
  have htd := List.take_append_drop P.Character
    ((Split content (detectLineEnding content)).getD P.Line [])
  have hstyle' : ∀ c1, newContent content [⟨⟨P, P⟩, t⟩] = .ok c1 →
      detectLineEnding c1 = detectLineEnding content := by
    intro c1 hn
    apply hstyle
    rw [applyTextEdits_of_ok fs uri content c1 _ hr hw hn]
    exact (osWriteFile_files fs (TrimPrefix uri fileScheme) c1 hw).2.1
  obtain ⟨c1, h1, h2⟩ := insert_delete_general content (detectLineEnding content) t
    (List.take P.Character ((Split content (detectLineEnding content)).getD P.Line []))
    (List.drop P.Character ((Split content (detectLineEnding content)).getD P.Line []))
    (List.take P.Line (Split content (detectLineEnding content)))
    (List.drop (P.Line + 1) (Split content (detectLineEnding content)))
    rfl (by rw [htd]; exact hsplit) ht
    (by
      rw [htd]
      rcases hline with h | h | h
      · exact Or.inl h
      · exact Or.inr (Or.inl (hB.mpr h))
      · exact Or.inr (Or.inr h))
    (fun hb hs h10 => hend (hB.mp hb) (hS.mp hs) h10)
    (fun hcrlf h => hcr hcrlf ⟨h.1, by rw [← hhead]; exact h.2⟩)
    (by rw [hlen, hpre]; exact hstyle')
  rw [hlen, hpre] at h1 h2
  have e1 := applyTextEdits_of_ok fs uri content _ _ hr hw h1
  obtain ⟨_, hr1, _⟩ := osWriteFile_files fs (TrimPrefix uri fileScheme) c1 hw
  have hw1 : (osWriteFile fs (TrimPrefix uri fileScheme) c1).2.writable
      (TrimPrefix uri fileScheme) = true := by
    rw [osWriteFile_writable]; exact hw
  have e2 := applyTextEdits_of_ok _ uri _ _ _ hr1 hw1 h2
  rw [e1, e2]
  exact ⟨rfl, rfl, (osWriteFile_files _ _ _ hw1).2.1⟩

/-- C2, witness: inserting "x\ny" at (0,1) in the file "ab\ncd\n", which writes
"ax\nyb\ncd\n", and deleting (0,1)-(1,1) afterwards. -/
theorem C2_insert_then_delete_round_trip_witness :
    osReadFile (singleFileFS [97, 98, 10, 99, 100, 10]) (TrimPrefix sampleUri fileScheme)
      = some [97, 98, 10, 99, 100, 10] ∧
    (singleFileFS [97, 98, 10, 99, 100, 10]).writable (TrimPrefix sampleUri fileScheme) = true ∧
    posInBounds (Split [97, 98, 10, 99, 100, 10] (detectLineEnding [97, 98, 10, 99, 100, 10]))
      ⟨0, 1⟩ ∧
    ([120, 10, 121] : GoString) ≠ [] ∧
    endOfInserted ⟨0, 1⟩ [120, 10, 121] = ⟨1, 1⟩ ∧
    osReadFile (ApplyTextEdits (singleFileFS [97, 98, 10, 99, 100, 10]) sampleUri
      [⟨⟨⟨0, 1⟩, ⟨0, 1⟩⟩, [120, 10, 121]⟩]).2 (TrimPrefix sampleUri fileScheme)
      = some [97, 120, 10, 121, 98, 10, 99, 100, 10] ∧
    detectLineEnding [97, 120, 10, 121, 98, 10, 99, 100, 10]
      = detectLineEnding [97, 98, 10, 99, 100, 10] ∧
    (ApplyTextEdits (singleFileFS [97, 98, 10, 99, 100, 10]) sampleUri
      [⟨⟨⟨0, 1⟩, ⟨0, 1⟩⟩, [120, 10, 121]⟩]).1 = none ∧
    (ApplyTextEdits (ApplyTextEdits (singleFileFS [97, 98, 10, 99, 100, 10]) sampleUri
        [⟨⟨⟨0, 1⟩, ⟨0, 1⟩⟩, [120, 10, 121]⟩]).2 sampleUri
      [⟨⟨⟨0, 1⟩, endOfInserted ⟨0, 1⟩ [120, 10, 121]⟩, []⟩]).1 = none ∧
    osReadFile (ApplyTextEdits (ApplyTextEdits (singleFileFS [97, 98, 10, 99, 100, 10]) sampleUri
        [⟨⟨⟨0, 1⟩, ⟨0, 1⟩⟩, [120, 10, 121]⟩]).2 sampleUri
      [⟨⟨⟨0, 1⟩, endOfInserted ⟨0, 1⟩ [120, 10, 121]⟩, []⟩]).2
      (TrimPrefix sampleUri fileScheme) = some [97, 98, 10, 99, 100, 10] :=
  ⟨by decide, by decide, by decide, by decide, by decide, by decide, by decide,
    C2_insert_then_delete_round_trip (singleFileFS [97, 98, 10, 99, 100, 10]) sampleUri
      [97, 98, 10, 99, 100, 10] [120, 10, 121] ⟨0, 1⟩ (by decide) (by decide) (by decide)
      (by decide) (by decide) (by decide) (by decide)
      (fun c1 h => by
        rw [show osReadFile (ApplyTextEdits (singleFileFS [97, 98, 10, 99, 100, 10]) sampleUri
          [⟨⟨⟨0, 1⟩, ⟨0, 1⟩⟩, [120, 10, 121]⟩]).2 (TrimPrefix sampleUri fileScheme)
          = some [97, 120, 10, 121, 98, 10, 99, 100, 10] from by decide] at h
        cases h
        decide)⟩

/-- C2, counterexample: five round trips in which both calls succeed and the
file is not restored.
(1) File "\n\n", lines ["", "", ""]: inserting "x" at (1,0), on an empty line
that is not the last, writes "\nx\n"; deleting (1,0)-(1,1) removes the emptied
line as well and writes "\n".
(2) File "ab", without a trailing line ending: inserting "\n" at its end (0,2)
writes "ab\n"; deleting (0,2)-(1,0) writes "ab\n" again, the file now counting
as ending with a newline.
(3) File "a\n\n", which ends with two line endings: inserting "x\n" at its end
(2,0) writes "a\n\nx\n"; deleting (2,0)-(3,0) writes "a\n".
(4) File "a\nb": inserting "\r" at (0,1) writes "a\r\nb", now read as a file
with "\r\n" endings; deleting (0,1)-(0,2) writes "a\r\nb".
(5) File "a\nb\r\nc", with "\r\n" endings and first line "a\nb": inserting
"\r" at (0,1), right before the "\n", writes "a\r\nb\r\nc", which now has
three lines; deleting (0,1)-(0,2) writes "a\r\nb\r\nc". -/
theorem C2_counterexample_round_trip_not_restored :
    (posInBounds (Split [10, 10] (detectLineEnding [10, 10])) ⟨1, 0⟩ ∧
      endOfInserted ⟨1, 0⟩ [120] = ⟨1, 1⟩ ∧
      (ApplyTextEdits (singleFileFS [10, 10]) sampleUri
        [⟨⟨⟨1, 0⟩, ⟨1, 0⟩⟩, [120]⟩]).1 = none ∧
      osReadFile (ApplyTextEdits (singleFileFS [10, 10]) sampleUri
        [⟨⟨⟨1, 0⟩, ⟨1, 0⟩⟩, [120]⟩]).2 (TrimPrefix sampleUri fileScheme)
        = some [10, 120, 10] ∧
      (ApplyTextEdits (ApplyTextEdits (singleFileFS [10, 10]) sampleUri
        [⟨⟨⟨1, 0⟩, ⟨1, 0⟩⟩, [120]⟩]).2 sampleUri
        [⟨⟨⟨1, 0⟩, ⟨1, 1⟩⟩, []⟩]).1 = none ∧
      osReadFile (ApplyTextEdits (ApplyTextEdits (singleFileFS [10, 10]) sampleUri
        [⟨⟨⟨1, 0⟩, ⟨1, 0⟩⟩, [120]⟩]).2 sampleUri
        [⟨⟨⟨1, 0⟩, ⟨1, 1⟩⟩, []⟩]).2 (TrimPrefix sampleUri fileScheme)
        = some [10] ∧
      ([10] : GoString) ≠ [10, 10]) ∧
    (posInBounds (Split [97, 98] (detectLineEnding [97, 98])) ⟨0, 2⟩ ∧
      endOfInserted ⟨0, 2⟩ [10] = ⟨1, 0⟩ ∧
      (ApplyTextEdits (singleFileFS [97, 98]) sampleUri
        [⟨⟨⟨0, 2⟩, ⟨0, 2⟩⟩, [10]⟩]).1 = none ∧
      osReadFile (ApplyTextEdits (singleFileFS [97, 98]) sampleUri
        [⟨⟨⟨0, 2⟩, ⟨0, 2⟩⟩, [10]⟩]).2 (TrimPrefix sampleUri fileScheme)
        = some [97, 98, 10] ∧
      (ApplyTextEdits (ApplyTextEdits (singleFileFS [97, 98]) sampleUri
        [⟨⟨⟨0, 2⟩, ⟨0, 2⟩⟩, [10]⟩]).2 sampleUri
        [⟨⟨⟨0, 2⟩, ⟨1, 0⟩⟩, []⟩]).1 = none ∧
      osReadFile (ApplyTextEdits (ApplyTextEdits (singleFileFS [97, 98]) sampleUri
        [⟨⟨⟨0, 2⟩, ⟨0, 2⟩⟩, [10]⟩]).2 sampleUri
        [⟨⟨⟨0, 2⟩, ⟨1, 0⟩⟩, []⟩]).2 (TrimPrefix sampleUri fileScheme)
        = some [97, 98, 10] ∧
      ([97, 98, 10] : GoString) ≠ [97, 98]) ∧
    (posInBounds (Split [97, 10, 10] (detectLineEnding [97, 10, 10])) ⟨2, 0⟩ ∧
      endOfInserted ⟨2, 0⟩ [120, 10] = ⟨3, 0⟩ ∧
      (ApplyTextEdits (singleFileFS [97, 10, 10]) sampleUri
        [⟨⟨⟨2, 0⟩, ⟨2, 0⟩⟩, [120, 10]⟩]).1 = none ∧
      osReadFile (ApplyTextEdits (singleFileFS [97, 10, 10]) sampleUri
        [⟨⟨⟨2, 0⟩, ⟨2, 0⟩⟩, [120, 10]⟩]).2 (TrimPrefix sampleUri fileScheme)
        = some [97, 10, 10, 120, 10] ∧
      (ApplyTextEdits (ApplyTextEdits (singleFileFS [97, 10, 10]) sampleUri
        [⟨⟨⟨2, 0⟩, ⟨2, 0⟩⟩, [120, 10]⟩]).2 sampleUri
        [⟨⟨⟨2, 0⟩, ⟨3, 0⟩⟩, []⟩]).1 = none ∧
      osReadFile (ApplyTextEdits (ApplyTextEdits (singleFileFS [97, 10, 10]) sampleUri
        [⟨⟨⟨2, 0⟩, ⟨2, 0⟩⟩, [120, 10]⟩]).2 sampleUri
        [⟨⟨⟨2, 0⟩, ⟨3, 0⟩⟩, []⟩]).2 (TrimPrefix sampleUri fileScheme)
        = some [97, 10] ∧
      ([97, 10] : GoString) ≠ [97, 10, 10]) ∧
    (posInBounds (Split [97, 10, 98] (detectLineEnding [97, 10, 98])) ⟨0, 1⟩ ∧
      endOfInserted ⟨0, 1⟩ [13] = ⟨0, 2⟩ ∧
      (ApplyTextEdits (singleFileFS [97, 10, 98]) sampleUri
        [⟨⟨⟨0, 1⟩, ⟨0, 1⟩⟩, [13]⟩]).1 = none ∧
      osReadFile (ApplyTextEdits (singleFileFS [97, 10, 98]) sampleUri
        [⟨⟨⟨0, 1⟩, ⟨0, 1⟩⟩, [13]⟩]).2 (TrimPrefix sampleUri fileScheme)
        = some [97, 13, 10, 98] ∧
      (ApplyTextEdits (ApplyTextEdits (singleFileFS [97, 10, 98]) sampleUri
        [⟨⟨⟨0, 1⟩, ⟨0, 1⟩⟩, [13]⟩]).2 sampleUri
        [⟨⟨⟨0, 1⟩, ⟨0, 2⟩⟩, []⟩]).1 = none ∧
      osReadFile (ApplyTextEdits (ApplyTextEdits (singleFileFS [97, 10, 98]) sampleUri
        [⟨⟨⟨0, 1⟩, ⟨0, 1⟩⟩, [13]⟩]).2 sampleUri
        [⟨⟨⟨0, 1⟩, ⟨0, 2⟩⟩, []⟩]).2 (TrimPrefix sampleUri fileScheme)
        = some [97, 13, 10, 98] ∧
      ([97, 13, 10, 98] : GoString) ≠ [97, 10, 98]) ∧
    (posInBounds (Split [97, 10, 98, 13, 10, 99] (detectLineEnding [97, 10, 98, 13, 10, 99])) ⟨0, 1⟩ ∧
      endOfInserted ⟨0, 1⟩ [13] = ⟨0, 2⟩ ∧
      (ApplyTextEdits (singleFileFS [97, 10, 98, 13, 10, 99]) sampleUri
        [⟨⟨⟨0, 1⟩, ⟨0, 1⟩⟩, [13]⟩]).1 = none ∧
      osReadFile (ApplyTextEdits (singleFileFS [97, 10, 98, 13, 10, 99]) sampleUri
        [⟨⟨⟨0, 1⟩, ⟨0, 1⟩⟩, [13]⟩]).2 (TrimPrefix sampleUri fileScheme)
        = some [97, 13, 10, 98, 13, 10, 99] ∧
      (ApplyTextEdits (ApplyTextEdits (singleFileFS [97, 10, 98, 13, 10, 99]) sampleUri
        [⟨⟨⟨0, 1⟩, ⟨0, 1⟩⟩, [13]⟩]).2 sampleUri
        [⟨⟨⟨0, 1⟩, ⟨0, 2⟩⟩, []⟩]).1 = none ∧
      osReadFile (ApplyTextEdits (ApplyTextEdits (singleFileFS [97, 10, 98, 13, 10, 99]) sampleUri
        [⟨⟨⟨0, 1⟩, ⟨0, 1⟩⟩, [13]⟩]).2 sampleUri
        [⟨⟨⟨0, 1⟩, ⟨0, 2⟩⟩, []⟩]).2 (TrimPrefix sampleUri fileScheme)
        = some [97, 13, 10, 98, 13, 10, 99] ∧
      ([97, 13, 10, 98, 13, 10, 99] : GoString) ≠ [97, 10, 98, 13, 10, 99]) := by
  decide

end Utilities
